import Mathlib

/-!
# msDeepToolset: deep-pixel merging, Gaussian weights and keymix pass-through

A shallow embedding of `combineDeepPixels` (msDeepFunctions.h),
`calculateGaussianMatrix` (msDeepBlur.cpp) and the per-pixel body of
`msDeepKeymix::doDeepEngine` (msDeepKeymix.cpp).

`combineDeepPixels` is embedded twice.  The definitions of the namespace
`Binary32` compute as the source does, every operation on floats rounded on its
own to single precision (IEEE 754 binary32: round to nearest, ties to even,
signed zeros, infinities and NaN; no wider intermediate precision and no fused
multiply-add).  The definitions outside that namespace take the same code with
exact rational arithmetic (`ℚ`) in place of the floats; they carry the
statements that do not depend on rounding, and `ExactRun` links the two: a
single-precision call in which no operation rounds goes through the values of
the exact computation.  `FLT_MAX` is the largest finite single-precision float.

Heap arrays indexed by input position (`sampleNo`, `distance`, `alpha`,
`alpha_accum`, `weight`) are maps from the index to the cell's content; only
cells below `amount` are ever read.
An ordered-sample read outside a pixel's sample range is undefined behaviour in
the source and is reported as `Step.oob`.
-/

set_option autoImplicit false

namespace MsDeep

/-! ## Host data model (DDImage) -/

/-- Channel identifiers: the three channels the code names, and all the others. -/
inductive Channel where
  | Chan_Alpha
  | Chan_DeepFront
  | Chan_DeepBack
  | other (n : Nat)
deriving DecidableEq, Repr

/-- A channel set, in the order in which `foreach (z, channels)` visits it. -/
abbrev ChannelSet := List Channel

/-- One deep sample: the stored value of every channel. -/
abbrev Sample := Channel → ℚ

/-- A host deep pixel: the channels it carries and its samples under the two
indexings the host offers.  `ordered` is the depth-ordered view (index 0 is the
farthest sample, the last index the closest); `unordered` is the storage order.
Both views hold the same samples. -/
structure DeepPixel where
  channels : ChannelSet
  ordered : List Sample
  unordered : List Sample
  perm : ordered.Perm unordered

/-- The pixel without samples and without channels. -/
def emptyPixel : DeepPixel := ⟨[], [], [], List.Perm.nil⟩

instance : Inhabited DeepPixel := ⟨emptyPixel⟩

/-- A pixel whose storage order is its depth order. -/
def mkPixel (channels : ChannelSet) (ordered : List Sample) : DeepPixel :=
  ⟨channels, ordered, ordered, List.Perm.refl ordered⟩

/-- Host accessor `getSampleCount()`. -/
def DeepPixel.getSampleCount (P : DeepPixel) : Nat := P.ordered.length

/-- Host accessor `getOrderedSample(i, z)`; a channel the pixel does not carry
reads as 0. -/
def DeepPixel.getOrderedSample (P : DeepPixel) (i : Nat) (z : Channel) : ℚ :=
  if z ∈ P.channels then (P.ordered.getD i (fun _ => 0)) z else 0

/-- Host accessor `getUnorderedSample(i, z)`; a channel the pixel does not carry
reads as 0. -/
def DeepPixel.getUnorderedSample (P : DeepPixel) (i : Nat) (z : Channel) : ℚ :=
  if z ∈ P.channels then (P.unordered.getD i (fun _ => 0)) z else 0

/-- The largest finite single-precision float, `(2 - 2^-23) * 2^127`. -/
def FLT_MAX : ℚ := 340282346638528859811704183484516925440

/-! ## `combineDeepPixels` (msDeepFunctions.h, lines 30-134) -/

/-- Index of the first smallest cell among `distance[0 .. amount)`, as
`std::min_element` followed by `std::distance` computes it: a later cell
replaces the candidate only when strictly smaller.  An empty range gives 0. -/
def min_element (distance : Nat → ℚ) : Nat → Nat
  | 0 => 0
  | 1 => 0
  | n + 2 =>
    if distance (n + 1) < distance (min_element distance (n + 1)) then n + 1
    else min_element distance (n + 1)

/-- The left fold `std::accumulate(f, f + amount, 0)`. -/
def accumulate (f : Nat → Nat) : Nat → Nat
  | 0 => 0
  | n + 1 => accumulate f n + f n

/-- The arguments of one `combineDeepPixels` call; `amount` is the number of
input pixels at every call site. -/
structure Args where
  inPixels : List DeepPixel
  channels : ChannelSet
  weight : Nat → ℚ
  drop_hidden : Bool
  drop_transparent : Bool
  transparency_threshold : ℚ

/-- The `amount` argument. -/
def Args.amount (A : Args) : Nat := A.inPixels.length

/-- The cell `sampleCount[k]` (never written after initialisation). -/
def Args.sampleCount (A : Args) (k : Nat) : Nat :=
  (A.inPixels.getD k emptyPixel).getSampleCount

/-- The local variables of `combineDeepPixels` together with the output pixel. -/
structure State where
  sampleNo : Nat → Nat
  distance : Nat → ℚ
  alpha : Nat → ℚ
  alpha_accum : Nat → ℚ
  alpha_accum_combined : ℚ
  designated_alpha_accum : ℚ
  outPixel : List ℚ

/-- The state after the initialisation loop (lines 37-52), output pixel empty. -/
def init (A : Args) : State where
  sampleNo := fun _ => 0
  distance := fun i =>
    if A.sampleCount i > 0 then
      (A.inPixels.getD i emptyPixel).getOrderedSample (A.sampleCount i - 1) Channel.Chan_DeepFront
    else FLT_MAX
  alpha := fun _ => 0
  alpha_accum := fun _ => 0
  alpha_accum_combined := 0
  designated_alpha_accum := 0
  outPixel := []

/-- The loop condition of line 55. -/
def loopCond (A : Args) (s : State) : Prop :=
  accumulate s.sampleNo A.amount < accumulate A.sampleCount A.amount

instance (A : Args) (s : State) : Decidable (loopCond A s) :=
  inferInstanceAs (Decidable (accumulate s.sampleNo A.amount < accumulate A.sampleCount A.amount))

/-- What one loop iteration appends to the output pixel. -/
inductive Emission where
  | skipped
  | passthrough (row : List ℚ)
  | weighted (new_alpha : ℚ) (row : List ℚ)
  | dropped (new_alpha : ℚ)
deriving DecidableEq

/-- The values an emission appends. -/
def Emission.row : Emission → List ℚ
  | .skipped => []
  | .passthrough row => row
  | .weighted _ row => row
  | .dropped _ => []

/-- The result of running the loop body once. -/
inductive Step where
  | next (e : Emission) (s : State)
  | ret (e : Emission) (s : State)
  | oob

/-- Lines 120-126: advance input `a` and reload its next front depth. -/
def advance (A : Args) (a inverted_sampleCount : Nat) (s : State) : State :=
  let sampleNo := Function.update s.sampleNo a (s.sampleNo a + 1)
  { s with
    sampleNo := sampleNo
    distance := Function.update s.distance a
      (if sampleNo a < A.sampleCount a then
        (A.inPixels.getD a emptyPixel).getOrderedSample (inverted_sampleCount - 1)
          Channel.Chan_DeepFront
      else FLT_MAX) }

/-- The row pushed for a completely transparent sample (lines 67-72). -/
def passthroughRow (P : DeepPixel) (channels : ChannelSet) (i : Nat) : List ℚ :=
  channels.map (fun z => if z ∈ P.channels then P.getOrderedSample i z else 0)

/-- The row pushed for a re-weighted sample (lines 92-104), the products taken
exactly. -/
def weightedRow (P : DeepPixel) (channels : ChannelSet) (i : Nat)
    (new_alpha_factor : ℚ) : List ℚ :=
  channels.map (fun z =>
    if z = Channel.Chan_DeepFront ∨ z = Channel.Chan_DeepBack then P.getOrderedSample i z
    else if z ∈ P.channels then P.getOrderedSample i z * new_alpha_factor
    else 0)

/-- One pass through the body of the while loop (lines 57-126), the arithmetic
of lines 77-101 taken exactly; `Binary32.step` is the same pass in single
precision. -/
def step (A : Args) (s : State) : Step :=
  let a := min_element s.distance A.amount
  if s.sampleNo a < A.sampleCount a then
    let P := A.inPixels.getD a emptyPixel
    let inverted_sampleCount := A.sampleCount a - 1 - s.sampleNo a
    let alpha_a := P.getOrderedSample inverted_sampleCount Channel.Chan_Alpha
    let s := { s with alpha := Function.update s.alpha a alpha_a }
    if ¬ (alpha_a ≤ A.transparency_threshold ∧ A.drop_transparent = true) then
      if alpha_a = 0 then
        let row := passthroughRow P A.channels inverted_sampleCount
        Step.next (Emission.passthrough row)
          (advance A a inverted_sampleCount { s with outPixel := s.outPixel ++ row })
      else
        let designated := s.designated_alpha_accum - s.alpha_accum a * A.weight a
        let accum_a := s.alpha_accum a + alpha_a * (1 - s.alpha_accum a)
        let designated := designated + accum_a * A.weight a
        let new_alpha :=
          if designated < 1 then
            (designated - s.alpha_accum_combined) / (1 - s.alpha_accum_combined)
          else alpha_a
        let combined := s.alpha_accum_combined + new_alpha * (1 - s.alpha_accum_combined)
        let s := { s with
          alpha_accum := Function.update s.alpha_accum a accum_a
          designated_alpha_accum := designated
          alpha_accum_combined := combined }
        if ¬ (new_alpha ≤ A.transparency_threshold ∧ A.drop_transparent = true) then
          let row := weightedRow P A.channels inverted_sampleCount (new_alpha / alpha_a)
          let s := { s with outPixel := s.outPixel ++ row }
          if new_alpha = 1 ∧ A.drop_hidden = true then
            Step.ret (Emission.weighted new_alpha row) s
          else
            Step.next (Emission.weighted new_alpha row) (advance A a inverted_sampleCount s)
        else
          Step.next (Emission.dropped new_alpha) (advance A a inverted_sampleCount s)
    else
      Step.next Emission.skipped (advance A a inverted_sampleCount s)
  else Step.oob

/-- One executed loop iteration: the state before, what was appended, the state
after. -/
structure Iteration where
  pre : State
  emit : Emission
  post : State

/-- How the loop was left. -/
inductive Ending where
  | finished
  | returned
  | oob
  | fuel
deriving DecidableEq, Repr

/-- The while loop of lines 55-127 with an iteration budget: the iterations
executed from state `s`, and how the loop ended. -/
def exec (A : Args) : Nat → State → List Iteration × Ending
  | 0, s => ([], if loopCond A s then Ending.fuel else Ending.finished)
  | n + 1, s =>
    if loopCond A s then
      match step A s with
      | Step.next e t => (⟨s, e, t⟩ :: (exec A n t).1, (exec A n t).2)
      | Step.ret e t => ([⟨s, e, t⟩], Ending.returned)
      | Step.oob => ([], Ending.oob)
    else ([], Ending.finished)

/-- The iteration budget of a call: every iteration consumes one sample, so the
loop body runs at most as often as there are samples. -/
def Args.budget (A : Args) : Nat := accumulate A.sampleCount A.amount

/-- The iterations of one `combineDeepPixels` call. -/
def iterations (A : Args) : List Iteration := (exec A A.budget (init A)).1

/-- How one `combineDeepPixels` call leaves its loop. -/
def ending (A : Args) : Ending := (exec A A.budget (init A)).2

/-- The states of one call: the initial state and the state after each
iteration. -/
def trace (A : Args) : List State := init A :: (iterations A).map Iteration.post

/-- What the iterations of one call append, iteration by iteration. -/
def emissions (A : Args) : List Emission := (iterations A).map Iteration.emit

/-- Whether an emission appends a sample. -/
def Emission.isSample : Emission → Bool
  | Emission.passthrough _ => true
  | Emission.weighted _ _ => true
  | _ => false

/-- The samples one call emits: the appends that are samples, in order. -/
def emitted (A : Args) : List Emission := (emissions A).filter Emission.isSample

/-- The state after the last of the iterations `its` started from `s`. -/
def finalOf (s : State) (its : List Iteration) : State :=
  match its.getLast? with
  | some it => it.post
  | none => s

/-- The state in which a call leaves its loop. -/
def finalState (A : Args) : State := finalOf (init A) (iterations A)

/-- The function `combineDeepPixels`, called on an empty output pixel: the
output pixel it leaves, or `none` when it reads outside a pixel's samples. -/
def combineDeepPixels (inPixels : List DeepPixel) (channels : ChannelSet)
    (weight : Nat → ℚ) (drop_hidden drop_transparent : Bool)
    (transparency_threshold : ℚ) : Option (List ℚ) :=
  let A : Args :=
    ⟨inPixels, channels, weight, drop_hidden, drop_transparent, transparency_threshold⟩
  match ending A with
  | Ending.finished => some (finalState A).outPixel
  | Ending.returned => some (finalState A).outPixel
  | _ => none

/-! ### The quantities of one iteration, by the names the source gives them -/

/-- The input `a` an iteration started in `s` selects (lines 57-58). -/
def selected (A : Args) (s : State) : Nat := min_element s.distance A.amount

/-- The pixel `inPixels[a]`. -/
def selectedPixel (A : Args) (s : State) : DeepPixel :=
  A.inPixels.getD (selected A s) emptyPixel

/-- The ordered index `inverted_sampleCount` of line 60. -/
def invertedIndex (A : Args) (s : State) : Nat :=
  A.sampleCount (selected A s) - 1 - s.sampleNo (selected A s)

/-- The raw alpha `alpha[a]` of line 61. -/
def rawAlpha (A : Args) (s : State) : ℚ :=
  (selectedPixel A s).getOrderedSample (invertedIndex A s) Channel.Chan_Alpha

/-- The cell `alpha_accum[a]` after line 78. -/
def accumNext (A : Args) (s : State) : ℚ :=
  s.alpha_accum (selected A s) + rawAlpha A s * (1 - s.alpha_accum (selected A s))

/-- The variable `designated_alpha_accum` after line 79. -/
def designatedNext (A : Args) (s : State) : ℚ :=
  s.designated_alpha_accum - s.alpha_accum (selected A s) * A.weight (selected A s)
    + accumNext A s * A.weight (selected A s)

/-- The variable `new_alpha` of lines 81-85. -/
def newAlpha (A : Args) (s : State) : ℚ :=
  if designatedNext A s < 1 then
    (designatedNext A s - s.alpha_accum_combined) / (1 - s.alpha_accum_combined)
  else rawAlpha A s

/-- The variable `alpha_accum_combined` after line 87. -/
def combinedNext (A : Args) (s : State) : ℚ :=
  s.alpha_accum_combined + newAlpha A s * (1 - s.alpha_accum_combined)

/-- The front depth input `k` offers once it has consumed `n` samples: the
front depth of its next sample, or `FLT_MAX` when it is exhausted. -/
def nextDepth (A : Args) (k n : Nat) : ℚ :=
  if n < A.sampleCount k then
    (A.inPixels.getD k emptyPixel).getOrderedSample (A.sampleCount k - 1 - n)
      Channel.Chan_DeepFront
  else FLT_MAX

/-- The weighted average of the inputs' accumulated alphas. -/
def weightedAccum (A : Args) (s : State) : ℚ :=
  ∑ k in Finset.range A.amount, A.weight k * s.alpha_accum k

/-- The row of channel values a sample shows for the requested channels: the
stored value of a channel the pixel carries, 0 for any other. -/
def sampleRow (P : DeepPixel) (channels : ChannelSet) (smp : Sample) : List ℚ :=
  channels.map (fun z => if z ∈ P.channels then smp z else 0)

/-! ### Predicates on calls and states -/

/-- One state follows another by a loop iteration entered with the loop
condition true. -/
def Follows (A : Args) (s t : State) : Prop :=
  loopCond A s ∧ ∃ e, step A s = Step.next e t ∨ step A s = Step.ret e t

/-- Sample alphas of every input lie in [0,1]. -/
def AlphasInUnit (inPixels : List DeepPixel) : Prop :=
  ∀ P ∈ inPixels, ∀ smp ∈ P.ordered, 0 ≤ smp Channel.Chan_Alpha ∧ smp Channel.Chan_Alpha ≤ 1

instance (inPixels : List DeepPixel) : Decidable (AlphasInUnit inPixels) :=
  inferInstanceAs (Decidable (∀ P ∈ inPixels, ∀ smp ∈ P.ordered,
    0 ≤ smp Channel.Chan_Alpha ∧ smp Channel.Chan_Alpha ≤ 1))

/-- The weights of all inputs are non-negative. -/
def WeightsNonneg (A : Args) : Prop := ∀ k, k < A.amount → 0 ≤ A.weight k

instance (A : Args) : Decidable (WeightsNonneg A) :=
  inferInstanceAs (Decidable (∀ k, k < A.amount → 0 ≤ A.weight k))

/-- The invariant behind the bounds on the accumulated alphas. -/
def BoundInv (s : State) : Prop :=
  0 ≤ s.alpha_accum_combined ∧ s.alpha_accum_combined ≤ 1 ∧
  (s.designated_alpha_accum < 1 → s.alpha_accum_combined = s.designated_alpha_accum) ∧
  0 ≤ s.designated_alpha_accum ∧
  ∀ k, 0 ≤ s.alpha_accum k ∧ s.alpha_accum k ≤ 1

/-- The invariant behind the weighted-average reading of the accumulated alpha. -/
def AverageInv (A : Args) (s : State) : Prop :=
  s.alpha_accum_combined = s.designated_alpha_accum ∧
  s.designated_alpha_accum = weightedAccum A s ∧
  ∀ k, 0 ≤ s.alpha_accum k ∧ s.alpha_accum k ≤ 1

/-- A call on one pixel with both drop switches off. -/
def singleArgs (P : DeepPixel) (channels : ChannelSet) (weight : Nat → ℚ) (thr : ℚ) : Args :=
  ⟨[P], channels, weight, false, false, thr⟩

/-- With one input of weight 1 the three accumulated alphas agree. -/
def SingleInv (s : State) : Prop :=
  s.alpha_accum_combined = s.designated_alpha_accum ∧ s.designated_alpha_accum = s.alpha_accum 0

/-- Every cell of `distance` holds the next front depth of its input. -/
def DistInv (A : Args) (s : State) : Prop :=
  ∀ k, s.distance k = nextDepth A k (s.sampleNo k)

/-- The alpha a pixel accumulates over its `n` closest samples, front to back. -/
def accumAfter (P : DeepPixel) : Nat → ℚ
  | 0 => 0
  | n + 1 =>
    accumAfter P n +
      P.getOrderedSample (P.getSampleCount - 1 - n) Channel.Chan_Alpha * (1 - accumAfter P n)

/-- Every input's accumulated alpha is that of the samples it has consumed. -/
def AccInv (A : Args) (s : State) : Prop :=
  ∀ k, k < A.amount →
    s.alpha_accum k = accumAfter (A.inPixels.getD k emptyPixel) (s.sampleNo k)

/-- A call on `N` copies of one pixel with equal weights `1 / N` and both drop
switches off. -/
def copiesArgs (P : DeepPixel) (channels : ChannelSet) (N : Nat) (thr : ℚ) : Args :=
  ⟨List.replicate N P, channels, fun _ => 1 / (N : ℚ), false, false, thr⟩

/-- Whether each of the first `N` inputs has consumed at least `j` samples. -/
def allConsumed (N j : Nat) (s : State) : Bool :=
  (List.range N).all (fun k => decide (j ≤ s.sampleNo k))

/-- The first state of a call in which each of the first `N` inputs has
consumed at least `j` samples: the state right after all `N` inputs' `j`-th
closest samples have been processed. -/
def stateAfterAll (A : Args) (N j : Nat) : Option State :=
  (trace A).find? (allConsumed N j)

/-- Front depths read strictly increasing from the closest sample to the
farthest, all below `FLT_MAX`. -/
def StrictDepths (P : DeepPixel) : Prop :=
  (∀ j, j < P.getSampleCount → ∀ i, i < j →
    P.getOrderedSample j Channel.Chan_DeepFront < P.getOrderedSample i Channel.Chan_DeepFront) ∧
  ∀ i, i < P.getSampleCount → P.getOrderedSample i Channel.Chan_DeepFront < FLT_MAX

instance (P : DeepPixel) : Decidable (StrictDepths P) :=
  inferInstanceAs (Decidable ((∀ j, j < P.getSampleCount → ∀ i, i < j →
    P.getOrderedSample j Channel.Chan_DeepFront < P.getOrderedSample i Channel.Chan_DeepFront) ∧
    ∀ i, i < P.getSampleCount → P.getOrderedSample i Channel.Chan_DeepFront < FLT_MAX))

/-- The round-robin position of a run on `N` copies after `i` iterations: `r`
copies have consumed `j + 1` samples, the others `j`. -/
def Sched (N i : Nat) (s : State) : Prop :=
  ∃ j r, r < N ∧ i = N * j + r ∧ ∀ k, k < N → s.sampleNo k = if k < r then j + 1 else j

/-- A pixel whose ordered view is sorted by front depth, index 0 the farthest. -/
def DepthOrdered (P : DeepPixel) : Prop :=
  ∀ j, j < P.getSampleCount → ∀ i, i < j →
    P.getOrderedSample j Channel.Chan_DeepFront ≤ P.getOrderedSample i Channel.Chan_DeepFront

instance (P : DeepPixel) : Decidable (DepthOrdered P) :=
  inferInstanceAs (Decidable (∀ j, j < P.getSampleCount → ∀ i, i < j →
    P.getOrderedSample j Channel.Chan_DeepFront ≤ P.getOrderedSample i Channel.Chan_DeepFront))

/-- The front depth of the sample an iteration processes. -/
def processedFront (A : Args) (it : Iteration) : ℚ :=
  (selectedPixel A it.pre).getOrderedSample (invertedIndex A it.pre) Channel.Chan_DeepFront

/-- No input has consumed more samples than it holds. -/
def CursorInv (A : Args) (s : State) : Prop :=
  ∀ k, k < A.amount → s.sampleNo k ≤ A.sampleCount k

/-- Every front depth the call can read lies below the `FLT_MAX` that marks an
exhausted input. -/
def BelowSentinel (A : Args) : Prop :=
  ∀ k, k < A.amount → ∀ n, n < A.sampleCount k → nextDepth A k n < FLT_MAX

instance (A : Args) : Decidable (BelowSentinel A) :=
  inferInstanceAs (Decidable (∀ k, k < A.amount → ∀ n, n < A.sampleCount k →
    nextDepth A k n < FLT_MAX))

/-! ## `calculateGaussianMatrix` (msDeepBlur.cpp, lines 163-218)

The arithmetic is stated over any field `K` with the two library functions
`exp` and `sqrt` passed in, so that the same definition runs on `ℚ` and is
reasoned about on `ℝ`. -/

/-- The literal `3.14159265358979f`. -/
def piLiteral {K : Type} [Field K] : K := 314159265358979 / 100000000000000

/-- The Gaussian function of lines 177 and 193. -/
def gaussian {K : Type} [Field K] (exp sqrt : K → K) (sigma : K) (i : Nat) : K :=
  exp ((-1) * ((i * i : Nat) : K) / (2 * sigma * sigma)) / sqrt (piLiteral * 2 * sigma * sigma)

/-- The cell `weight_horizontal[i]` (lines 172-178). -/
def weight_horizontal {K : Type} [Field K] [DecidableEq K] (exp sqrt : K → K) (sigma0 : K) (i : Nat) : K :=
  if sigma0 = 0 then 1 else gaussian exp sqrt sigma0 i

/-- The cell `weight_vertical[j]` (lines 181-195). -/
def weight_vertical {K : Type} [Field K] [DecidableEq K] (exp sqrt : K → K) (radius0 radius1 : Nat) (sigma0 sigma1 : K)
    (j : Nat) : K :=
  if radius0 = radius1 then weight_horizontal exp sqrt sigma0 j
  else if sigma1 = 0 then 1 else gaussian exp sqrt sigma1 j

/-- The values a loop variable takes from `-radius` to `radius`. -/
def kernelOffsets (radius : Nat) : List Int :=
  (List.range (2 * radius + 1)).map (fun (n : Nat) => (n : Int) - (radius : Int))

/-- The array `weight` after the combining loops (lines 198-209), in counter
order. -/
def combinedWeights {K : Type} [Field K] [DecidableEq K] (exp sqrt : K → K)
    (radius0 radius1 : Nat) (sigma0 sigma1 : K) : List K :=
  ((kernelOffsets radius0).map (fun i =>
    (kernelOffsets radius1).map (fun j =>
      weight_horizontal exp sqrt sigma0 i.natAbs *
        weight_vertical exp sqrt radius0 radius1 sigma0 sigma1 j.natAbs))).flatten

/-- The array `weight` that `calculateGaussianMatrix` leaves: every combined
weight multiplied by `1 / weight_sum` (lines 212-214). -/
def calculateGaussianMatrix {K : Type} [Field K] [DecidableEq K] (exp sqrt : K → K)
    (radius0 radius1 : Nat) (sigma0 sigma1 : K) : List K :=
  let weight := combinedWeights exp sqrt radius0 radius1 sigma0 sigma1
  let weight_sum := 1 / weight.sum
  weight.map (fun w => w * weight_sum)

/-! ## `msDeepKeymix::doDeepEngine` (msDeepKeymix.cpp, lines 182-293) -/

/-- Host function `clamp(x)`: `x` limited to the range 0 to 1. -/
def clamp (x : ℚ) : ℚ := if x < 0 then 0 else if 1 < x then 1 else x

/-- A pixel position of the box iterator. -/
abbrev Pos := Int × Int

/-- The variable `mask_value` of lines 203-210; `inputMask` gives the mask
sample at a position when a mask is connected. -/
def mask_value (inputMask : Option (Pos → ℚ)) (invert_mask : Bool) (mix : ℚ) (it : Pos) : ℚ :=
  match inputMask with
  | none => 0
  | some at_ =>
    let m := clamp (at_ it)
    let m := if invert_mask then 1 - m else m
    m * mix

/-- The output pixel of lines 215-227 (and 235-247): every sample of `inPixel`
in unordered index order, every requested channel. -/
def pipeThrough (inPixel : DeepPixel) (channels : ChannelSet) : List ℚ :=
  ((List.range inPixel.getSampleCount).map (fun sampleNo =>
    channels.map (fun z =>
      if z ∈ inPixel.channels then inPixel.getUnorderedSample sampleNo z else 0))).flatten

/-- The output pixel of lines 277-286 (input A not connected). -/
def pipeThroughB (inPixel : DeepPixel) (channels : ChannelSet) : List ℚ :=
  ((List.range inPixel.getSampleCount).map (fun sampleNo =>
    channels.map (fun z => inPixel.getUnorderedSample sampleNo z))).flatten

/-- The body of the pixel loop when input A is connected (lines 203-269); `none`
when the merge reads outside a pixel's samples. -/
def keymixPixel (channels : ChannelSet) (inPlaneB inPlaneA : Pos → DeepPixel)
    (inputMask : Option (Pos → ℚ)) (invert_mask : Bool) (mix : ℚ) (it : Pos) :
    Option (List ℚ) :=
  let mask_value := mask_value inputMask invert_mask mix it
  if mask_value = 0 then some (pipeThrough (inPlaneB it) channels)
  else if mask_value = 1 then some (pipeThrough (inPlaneA it) channels)
  else
    combineDeepPixels [inPlaneB it, inPlaneA it] channels
      (fun k => [1 - mask_value, mask_value].getD k 0) false false 0

/-- The engine `msDeepKeymix::doDeepEngine` on the positions of `box`: `none` is
the `return false` of a missing input B, otherwise one output pixel per
position. -/
def doDeepEngine (box : List Pos) (channels : ChannelSet) (inputB inputA : Option (Pos → DeepPixel))
    (inputMask : Option (Pos → ℚ)) (invert_mask : Bool) (mix : ℚ) :
    Option (List (Option (List ℚ))) :=
  match inputB with
  | none => none
  | some inPlaneB =>
    match inputA with
    | some inPlaneA =>
      some (box.map (keymixPixel channels inPlaneB inPlaneA inputMask invert_mask mix))
    | none => some (box.map (fun it => some (pipeThroughB (inPlaneB it) channels)))

/-! ## Comparing calls that differ in a drop switch -/

/-- The same call with `drop_hidden` set to `b`. -/
def Args.withDropHidden (A : Args) (b : Bool) : Args := { A with drop_hidden := b }

/-- The same call with `drop_transparent` on and threshold 0. -/
def Args.dropAtZero (A : Args) : Args :=
  { A with drop_transparent := true, transparency_threshold := 0 }

/-- The same call with `drop_transparent` off. -/
def Args.keepTransparent (A : Args) : Args := { A with drop_transparent := false }

/-- The alpha of the sample an emission appends: 0 for a passed-through sample,
`new_alpha` for a re-weighted one. -/
def Emission.outAlpha : Emission → ℚ
  | Emission.weighted new_alpha _ => new_alpha
  | _ => 0

/-- Whether an emission is an emitted sample of alpha 1. -/
def Emission.isSolid : Emission → Bool
  | Emission.weighted new_alpha _ => decide (new_alpha = 1)
  | _ => false

/-- One list of emissions is the other cut right after its first sample of
alpha 1: the lists are equal and hold no such sample, or they agree up to and
including that sample, where the first list ends. -/
def HiddenPrefix (lt lf : List Emission) : Prop :=
  (lt = lf ∧ ∀ e ∈ lf, e.isSolid = false) ∨
    ∃ pre e post, e.isSolid = true ∧ e.isSample = true ∧ (∀ x ∈ pre, x.isSolid = false) ∧
      lt = pre ++ [e] ∧ lf = pre ++ e :: post

/-- Two states that agree on every local variable, the output pixel apart. -/
def SameButOut (s t : State) : Prop :=
  s.sampleNo = t.sampleNo ∧ s.distance = t.distance ∧ s.alpha = t.alpha ∧
    s.alpha_accum = t.alpha_accum ∧ s.alpha_accum_combined = t.alpha_accum_combined ∧
    s.designated_alpha_accum = t.designated_alpha_accum

/-- The front-to-back compositing recurrence `accum' = accum + alpha * (1 - accum)`
applied to a list of samples given as (alpha, premultiplied colour), closest
first: the accumulated alpha and colour. -/
def compositeOver : List (ℚ × ℚ) → ℚ × ℚ
  | [] => (0, 0)
  | (alpha, colour) :: rest =>
    (alpha + (compositeOver rest).1 * (1 - alpha), colour + (compositeOver rest).2 * (1 - alpha))

/-! ## Kernel parameters (msDeepBlur.cpp, lines 141-147) and the independent
vertical profile -/

/-- The kernel radius `floor(abs(size) * 1.5f)` of `getDeepRequests`. -/
def kernelRadius (size : ℚ) : Nat := (Int.floor (|size| * (3 / 2))).toNat

/-- The sigma `size * 0.425` of `getDeepRequests`. -/
def kernelSigma (size : ℚ) : ℚ := size * (17 / 40)

/-- The vertical half-profile computed from `sigma1` alone, as the branch of
lines 188-194 computes it. -/
def weight_vertical_independent {K : Type} [Field K] [DecidableEq K] (exp sqrt : K → K)
    (sigma1 : K) (j : Nat) : K :=
  if sigma1 = 0 then 1 else gaussian exp sqrt sigma1 j

/-- The weights with both half-profiles computed independently: entry `(i, j)`
is `wx[|i|] * wy[|j|]` divided by the total sum. -/
def independentGaussianMatrix {K : Type} [Field K] [DecidableEq K] (exp sqrt : K → K)
    (radius0 radius1 : Nat) (sigma0 sigma1 : K) : List K :=
  let weight := ((kernelOffsets radius0).map (fun i =>
    (kernelOffsets radius1).map (fun j =>
      weight_horizontal exp sqrt sigma0 i.natAbs *
        weight_vertical_independent exp sqrt sigma1 j.natAbs))).flatten
  let weight_sum := 1 / weight.sum
  weight.map (fun w => w * weight_sum)

/-! ## `msDeepReformat` (msDeepReformat.cpp): scale factors of `calculateMatrix`
(lines 262-388), the centring of resize type none (lines 330-335) and the pixel
loop of `doDeepEngine` for resize type none (lines 425-508) -/

/-- The values of the knob `type`. -/
inductive ReformatType where
  | to_format
  | to_box
  | scale
deriving DecidableEq, Repr

/-- The values of the knob `resize type`. -/
inductive ResizeType where
  | none
  | width
  | height
  | fit
  | fill
  | distort
deriving DecidableEq, Repr

/-- What `calculateMatrix` reads of a host format. -/
structure Format where
  width : ℚ
  height : ℚ
  pixel_aspect : ℚ

/-- The knobs of `msDeepReformat`. -/
structure ReformatKnobs where
  _type : ReformatType
  _format : Format
  _box_width : ℚ
  _box_height : ℚ
  _box_fixed : Bool
  _box_pixel_aspect : ℚ
  _scale0 : ℚ
  _scale1 : ℚ
  _resize_type : ResizeType
  _center : Bool
  _drop_hidden : Bool
  _drop_transparent : Bool
  _threshold : ℚ

/-- The array `scale_factor` after lines 270-327; `w` and `h` are the width and
height of the input format. -/
def initialScaleFactor (k : ReformatKnobs) (w h : ℚ) : ℚ × ℚ :=
  match k._type with
  | ReformatType.to_format => (w / k._format.width, h / k._format.height)
  | ReformatType.to_box =>
    (w / k._box_width, if k._box_fixed then h / k._box_height else w / k._box_width)
  | ReformatType.scale => (1 / k._scale0, 1 / k._scale1)

/-- The pixel aspect `formats.format()->pixel_aspect()` of the output format
after lines 270-327; `in_aspect` is the pixel aspect of the input format. -/
def outPixelAspect (k : ReformatKnobs) (in_aspect : ℚ) : ℚ :=
  match k._type with
  | ReformatType.to_format => k._format.pixel_aspect
  | ReformatType.to_box => k._box_pixel_aspect
  | ReformatType.scale => in_aspect

/-- The array `scale_factor` after the resize type has been taken into account
(lines 340-388). -/
def resizeScaleFactor (resize_type : ResizeType) (scale_factor : ℚ × ℚ)
    (out_aspect in_aspect : ℚ) : ℚ × ℚ :=
  match resize_type with
  | ResizeType.width =>
    (scale_factor.1,
      if out_aspect ≠ in_aspect then scale_factor.1 * in_aspect / out_aspect
      else scale_factor.1)
  | ResizeType.height =>
    (if out_aspect ≠ in_aspect then scale_factor.2 * out_aspect / in_aspect
      else scale_factor.2,
      scale_factor.2)
  | ResizeType.fit =>
    if out_aspect = in_aspect then
      (max scale_factor.1 scale_factor.2, max scale_factor.1 scale_factor.2)
    else if scale_factor.1 > scale_factor.2 * out_aspect / in_aspect then
      (scale_factor.1, scale_factor.1 * in_aspect / out_aspect)
    else (scale_factor.2 * out_aspect / in_aspect, scale_factor.2)
  | ResizeType.fill =>
    if out_aspect = in_aspect then
      (min scale_factor.1 scale_factor.2, min scale_factor.1 scale_factor.2)
    else if scale_factor.1 < scale_factor.2 * out_aspect / in_aspect then
      (scale_factor.1, scale_factor.1 * in_aspect / out_aspect)
    else (scale_factor.2 * out_aspect / in_aspect, scale_factor.2)
  | _ => scale_factor

/-- The same knobs with another resize type. -/
def ReformatKnobs.withResize (k : ReformatKnobs) (resize_type : ResizeType) : ReformatKnobs :=
  { k with _resize_type := resize_type }

/-- The array `scale_factor` that `calculateMatrix` leaves. -/
def calculateScaleFactor (k : ReformatKnobs) (w h in_aspect : ℚ) : ℚ × ℚ :=
  resizeScaleFactor k._resize_type (initialScaleFactor k w h) (outPixelAspect k in_aspect)
    in_aspect

/-- The cast `(int)x` of a float: truncation towards zero. -/
def truncInt (x : ℚ) : Int := if 0 ≤ x then Int.floor x else Int.ceil x

/-- The translation `calculateMatrix` gives the matrix for resize type none
(lines 332-334); `center_x`, `center_y` are the centre of the output format as
the host reports it. -/
def noneTranslation (k : ReformatKnobs) (w h center_x center_y : ℚ) : ℚ × ℚ :=
  if k._center then
    ((truncInt (w * (1 / 2)) : ℚ) - center_x, (truncInt (h * (1 / 2)) : ℚ) - center_y)
  else (0, 0)

/-- The input position the pixel loop reads for the output position `(x, y)`
under resize type none (lines 427-435 and 455): the transformed centre, cast to
`int`. -/
def noneSource (translation : ℚ × ℚ) (it : Pos) : Pos :=
  (truncInt ((it.1 : ℚ) + translation.1), truncInt ((it.2 : ℚ) + translation.2))

/-- The pixels gathered for one output position under resize type none
(line 455). -/
def noneInPixels (inPlane : Pos → DeepPixel) (translation : ℚ × ℚ) (it : Pos) :
    List DeepPixel :=
  [inPlane (noneSource translation it)]

/-- The weight array of resize type none (line 456). -/
def noneWeight : Nat → ℚ := fun k => [1].getD k 0

/-- The output pixel of the pixel loop of `msDeepReformat::doDeepEngine` for
resize type none (lines 425-457 and 504-507). -/
def reformatPixelNone (k : ReformatKnobs) (channels : ChannelSet) (inPlane : Pos → DeepPixel)
    (w h center_x center_y : ℚ) (it : Pos) : Option (List ℚ) :=
  combineDeepPixels (noneInPixels inPlane (noneTranslation k w h center_x center_y) it)
    channels noneWeight k._drop_hidden k._drop_transparent k._threshold

/-! ## Concrete pixels -/

/-- The requested channels of the examples: the depth range, alpha and one
colour channel. -/
def exampleChannels : ChannelSet :=
  [Channel.Chan_DeepFront, Channel.Chan_DeepBack, Channel.Chan_Alpha, Channel.other 0]

/-- A sample with the given depth range and alpha, every colour channel at
`colour`. -/
def mkSample (front back alpha colour : ℚ) : Sample := fun z =>
  match z with
  | Channel.Chan_DeepFront => front
  | Channel.Chan_DeepBack => back
  | Channel.Chan_Alpha => alpha
  | Channel.other _ => colour

/-- Two half-transparent samples at depths 1 and 2. -/
def examplePixel : DeepPixel :=
  mkPixel exampleChannels [mkSample 2 2 (1 / 2) 3, mkSample 1 1 (1 / 2) 5]

/-- Two half-transparent samples at the same depth 1. -/
def tiePixel : DeepPixel :=
  mkPixel exampleChannels [mkSample 1 1 (1 / 2) 3, mkSample 1 1 (1 / 2) 5]

/-- An opaque sample at depth 1 in front of a half-transparent one at depth 2. -/
def solidPixel : DeepPixel :=
  mkPixel exampleChannels [mkSample 2 2 (1 / 2) 3, mkSample 1 1 1 5]

/-- One opaque sample at depth 5. -/
def nearPixel : DeepPixel := mkPixel exampleChannels [mkSample 5 5 1 1]

/-- One opaque sample whose front depth is the float `FLT_MAX`. -/
def farPixel : DeepPixel := mkPixel exampleChannels [mkSample FLT_MAX FLT_MAX 1 1]

/-- The weight array `{1/2, 1/2}`. -/
def halfWeights : Nat → ℚ := fun k => [1 / 2, 1 / 2].getD k 0

/-- One opaque sample at depth 7 with colour 3. -/
def backPixel : DeepPixel := mkPixel exampleChannels [mkSample 7 7 1 3]

/-- A fully transparent sample at depth 1 in front of a half-transparent one at
depth 2. -/
def clearPixel : DeepPixel :=
  mkPixel exampleChannels [mkSample 2 2 (1 / 2) 3, mkSample 1 1 0 5]

/-- A pixel without samples that carries the example channels. -/
def blankPixel : DeepPixel := mkPixel exampleChannels []

/-- Reformat knobs: to the format 4 x 4, resize type none, centred, the drop
switches as given. -/
def noneKnobs (drop_hidden drop_transparent : Bool) : ReformatKnobs :=
  ⟨ReformatType.to_format, ⟨4, 4, 1⟩, 200, 200, false, 1, 1, 1, ResizeType.none, true,
    drop_hidden, drop_transparent, 0⟩

/-- Reformat knobs: to the format 2 x 4 (pixel aspect 1) with the given resize
type. -/
def tallKnobs (resize_type : ResizeType) : ReformatKnobs :=
  ⟨ReformatType.to_format, ⟨2, 4, 1⟩, 200, 200, false, 1, 1, 1, resize_type, true,
    true, true, 0⟩

/-- Reformat knobs: to the format 2 x 4 with pixel aspect 2 and the given resize
type. -/
def anamorphicKnobs (resize_type : ResizeType) : ReformatKnobs :=
  ⟨ReformatType.to_format, ⟨2, 4, 2⟩, 200, 200, false, 1, 1, 1, resize_type, true,
    true, true, 0⟩

/-! ## Single-precision arithmetic -/

/-- A single-precision (IEEE 754 binary32) value: a finite value by sign and
magnitude (the two zeros differ in the sign only), an infinity, or a NaN. -/
inductive F32 where
  | finite (negative : Bool) (magnitude : ℚ)
  | infinite (negative : Bool)
  | nan
deriving DecidableEq

namespace F32

/-- The power `2 ^ e` for an integer exponent. -/
def pow2 (e : Int) : ℚ :=
  if 0 ≤ e then ((2 ^ e.toNat : Nat) : ℚ) else 1 / ((2 ^ (-e).toNat : Nat) : ℚ)

/-- The number of halvings that take `n` below 2, at most `fuel` of them. -/
def halvings : Nat → Nat → Nat
  | 0, _ => 0
  | fuel + 1, n => if n < 2 then 0 else halvings fuel (n / 2) + 1

/-- The integer `⌊log2 n⌋` of a positive natural number `n`. -/
def log2 (n : Nat) : Nat := halvings n n

/-- The integer `⌊log2 m⌋` of a positive rational `m`: the difference of the
logarithms of numerator and denominator, or one less. -/
def ilog2 (m : ℚ) : Int :=
  let c : Int := (log2 m.num.toNat : Int) - (log2 m.den : Int)
  if pow2 c ≤ m then c else c - 1

/-- The exponent of the unit in the last place at the magnitude `m`: 24
significant bits, and never below the subnormal spacing `2 ^ -149`. -/
def ulpExponent (m : ℚ) : Int := max (ilog2 m) (-126) - 23

/-- The integer nearest to `x ≥ 0`, the even one of two equally near. -/
def roundHalfEven (x : ℚ) : Nat :=
  let q := x.num.toNat / x.den
  let r := x.num.toNat % x.den
  if 2 * r < x.den then q
  else if x.den < 2 * r then q + 1
  else if q % 2 = 0 then q else q + 1

/-- The single-precision value nearest to the magnitude `m ≥ 0` (round to
nearest, ties to even), with the given sign; a result of `2 ^ 128` or more is
an infinity. -/
def roundMagnitude (negative : Bool) (m : ℚ) : F32 :=
  if m = 0 then finite negative 0
  else
    let r : ℚ := (roundHalfEven (m / pow2 (ulpExponent m)) : ℚ) * pow2 (ulpExponent m)
    if pow2 128 ≤ r then infinite negative else finite negative r

/-- The single-precision value nearest to the non-zero rational `v`. -/
def roundNearest (v : ℚ) : F32 := roundMagnitude (decide (v < 0)) |v|

/-- The rational value of a finite value by sign and magnitude. -/
def signed (negative : Bool) (magnitude : ℚ) : ℚ :=
  if negative then -magnitude else magnitude

instance : Zero F32 := ⟨finite false 0⟩
instance : One F32 := ⟨finite false 1⟩

/-- The largest finite single-precision value. -/
def FLT_MAX : F32 := finite false 340282346638528859811704183484516925440

/-- Negation. -/
def neg : F32 → F32
  | finite s m => finite (!s) m
  | infinite s => infinite (!s)
  | nan => nan

/-- The sum `a + b`. -/
def add : F32 → F32 → F32
  | nan, _ => nan
  | _, nan => nan
  | infinite s, infinite t => if s = t then infinite s else nan
  | infinite s, finite _ _ => infinite s
  | finite _ _, infinite t => infinite t
  | finite s x, finite t y =>
    if signed s x + signed t y = 0 then finite (s && t) 0
    else roundNearest (signed s x + signed t y)

/-- The difference `a - b`. -/
def sub (a b : F32) : F32 := add a (neg b)

/-- The product `a * b`. -/
def mul : F32 → F32 → F32
  | nan, _ => nan
  | _, nan => nan
  | infinite s, infinite t => infinite (xor s t)
  | infinite s, finite t y => if y = 0 then nan else infinite (xor s t)
  | finite s x, infinite t => if x = 0 then nan else infinite (xor s t)
  | finite s x, finite t y => roundMagnitude (xor s t) (x * y)

/-- The quotient `a / b`. -/
def div : F32 → F32 → F32
  | nan, _ => nan
  | _, nan => nan
  | infinite _, infinite _ => nan
  | infinite s, finite t _ => infinite (xor s t)
  | finite s _, infinite t => finite (xor s t) 0
  | finite s x, finite t y =>
    if y = 0 then (if x = 0 then nan else infinite (xor s t))
    else roundMagnitude (xor s t) (x / y)

instance : Add F32 := ⟨add⟩
instance : Sub F32 := ⟨sub⟩
instance : Mul F32 := ⟨mul⟩
instance : Div F32 := ⟨div⟩

/-- The comparison `a < b`; false when either side is a NaN. -/
def lt : F32 → F32 → Bool
  | nan, _ => false
  | _, nan => false
  | infinite s, infinite t => s && !t
  | infinite s, finite _ _ => s
  | finite _ _, infinite t => !t
  | finite s x, finite t y => decide (signed s x < signed t y)

/-- The comparison `a == b`; false when either side is a NaN, true for the two
zeros. -/
def eq : F32 → F32 → Bool
  | nan, _ => false
  | _, nan => false
  | infinite s, infinite t => s == t
  | infinite _, finite _ _ => false
  | finite _ _, infinite _ => false
  | finite s x, finite t y => decide (signed s x = signed t y)

/-- The comparison `a <= b`. -/
def le (a b : F32) : Bool := lt a b || eq a b

/-- Whether a value of the type is a single-precision value: a finite one is
when its magnitude is non-negative and is its own rounding. -/
def isRepresentable : F32 → Bool
  | finite s m => decide (0 ≤ m) && decide (roundMagnitude s m = finite s m)
  | _ => true

/-- The positive value `mantissa * 2 ^ exponent`; the hexadecimal float
`0x1.hhhhhhp+e` is `scaled 0x1hhhhhh (e - 24)`. -/
def scaled (mantissa : Nat) (exponent : Int) : F32 := finite false (mantissa * pow2 exponent)

/-- The single-precision value of a rational constant. -/
def ofRat (v : ℚ) : F32 := if v = 0 then 0 else roundNearest v

/-- Whether a value is finite. -/
def isFinite : F32 → Bool
  | finite _ _ => true
  | _ => false

/-- The rational value of a finite value; 0 for an infinity and for a NaN. -/
def toRat : F32 → ℚ
  | finite s m => signed s m
  | _ => 0

/-- The single-precision result `r` of an operation is exact: it is finite and
its value is the exact result `v`. -/
def Exact (r : F32) (v : ℚ) : Prop := r.isFinite = true ∧ r.toRat = v

instance (r : F32) (v : ℚ) : Decidable (Exact r v) :=
  inferInstanceAs (Decidable (r.isFinite = true ∧ r.toRat = v))

/-- The sum `a + b` is computed without rounding. -/
def ExactAdd (a b : F32) : Prop := Exact (a + b) (a.toRat + b.toRat)

/-- The difference `a - b` is computed without rounding. -/
def ExactSub (a b : F32) : Prop := Exact (a - b) (a.toRat - b.toRat)

/-- The product `a * b` is computed without rounding. -/
def ExactMul (a b : F32) : Prop := Exact (a * b) (a.toRat * b.toRat)

/-- The quotient `a / b` is computed without rounding. -/
def ExactDiv (a b : F32) : Prop := Exact (a / b) (a.toRat / b.toRat)

instance (a b : F32) : Decidable (ExactAdd a b) :=
  inferInstanceAs (Decidable (Exact (a + b) (a.toRat + b.toRat)))

instance (a b : F32) : Decidable (ExactSub a b) :=
  inferInstanceAs (Decidable (Exact (a - b) (a.toRat - b.toRat)))

instance (a b : F32) : Decidable (ExactMul a b) :=
  inferInstanceAs (Decidable (Exact (a * b) (a.toRat * b.toRat)))

instance (a b : F32) : Decidable (ExactDiv a b) :=
  inferInstanceAs (Decidable (Exact (a / b) (a.toRat / b.toRat)))

end F32

/-! ## `combineDeepPixels` in single precision -/

namespace Binary32

/-- One deep sample: the stored single-precision value of every channel. -/
abbrev Sample := Channel → F32

/-- A host deep pixel in the depth-ordered view (index 0 is the farthest
sample, the last index the closest). -/
structure DeepPixel where
  channels : ChannelSet
  ordered : List Sample

/-- The pixel without samples and without channels. -/
def emptyPixel : DeepPixel := ⟨[], []⟩

/-- Host accessor `getSampleCount()`. -/
def DeepPixel.getSampleCount (P : DeepPixel) : Nat := P.ordered.length

/-- Host accessor `getOrderedSample(i, z)`; a channel the pixel does not carry
reads as 0. -/
def DeepPixel.getOrderedSample (P : DeepPixel) (i : Nat) (z : Channel) : F32 :=
  if z ∈ P.channels then (P.ordered.getD i (fun _ => 0)) z else 0

/-- Index of the first smallest cell among `distance[0 .. amount)`, as
`std::min_element` followed by `std::distance` computes it with the comparison
`<` of floats. -/
def min_element (distance : Nat → F32) : Nat → Nat
  | 0 => 0
  | 1 => 0
  | n + 2 =>
    if F32.lt (distance (n + 1)) (distance (min_element distance (n + 1))) then n + 1
    else min_element distance (n + 1)

/-- The arguments of one `combineDeepPixels` call. -/
structure Args where
  inPixels : List DeepPixel
  channels : ChannelSet
  weight : Nat → F32
  drop_hidden : Bool
  drop_transparent : Bool
  transparency_threshold : F32

/-- The `amount` argument. -/
def Args.amount (A : Args) : Nat := A.inPixels.length

/-- The cell `sampleCount[k]`. -/
def Args.sampleCount (A : Args) (k : Nat) : Nat :=
  (A.inPixels.getD k emptyPixel).getSampleCount

/-- The local variables of `combineDeepPixels` together with the output pixel. -/
structure State where
  sampleNo : Nat → Nat
  distance : Nat → F32
  alpha : Nat → F32
  alpha_accum : Nat → F32
  alpha_accum_combined : F32
  designated_alpha_accum : F32
  outPixel : List F32

/-- The state after the initialisation loop (lines 37-52), output pixel empty. -/
def init (A : Args) : State where
  sampleNo := fun _ => 0
  distance := fun i =>
    if A.sampleCount i > 0 then
      (A.inPixels.getD i emptyPixel).getOrderedSample (A.sampleCount i - 1) Channel.Chan_DeepFront
    else F32.FLT_MAX
  alpha := fun _ => 0
  alpha_accum := fun _ => 0
  alpha_accum_combined := 0
  designated_alpha_accum := 0
  outPixel := []

/-- The loop condition of line 55. -/
def loopCond (A : Args) (s : State) : Prop :=
  accumulate s.sampleNo A.amount < accumulate A.sampleCount A.amount

instance (A : Args) (s : State) : Decidable (loopCond A s) :=
  inferInstanceAs (Decidable (accumulate s.sampleNo A.amount < accumulate A.sampleCount A.amount))

/-- What one loop iteration appends to the output pixel. -/
inductive Emission where
  | skipped
  | passthrough (row : List F32)
  | weighted (new_alpha : F32) (row : List F32)
  | dropped (new_alpha : F32)
deriving DecidableEq

/-- The values an emission appends. -/
def Emission.row : Emission → List F32
  | .skipped => []
  | .passthrough row => row
  | .weighted _ row => row
  | .dropped _ => []

/-- The result of running the loop body once. -/
inductive Step where
  | next (e : Emission) (s : State)
  | ret (e : Emission) (s : State)
  | oob

/-- Lines 120-126: advance input `a` and reload its next front depth. -/
def advance (A : Args) (a inverted_sampleCount : Nat) (s : State) : State :=
  let sampleNo := Function.update s.sampleNo a (s.sampleNo a + 1)
  { s with
    sampleNo := sampleNo
    distance := Function.update s.distance a
      (if sampleNo a < A.sampleCount a then
        (A.inPixels.getD a emptyPixel).getOrderedSample (inverted_sampleCount - 1)
          Channel.Chan_DeepFront
      else F32.FLT_MAX) }

/-- The row pushed for a completely transparent sample (lines 67-72). -/
def passthroughRow (P : DeepPixel) (channels : ChannelSet) (i : Nat) : List F32 :=
  channels.map (fun z => if z ∈ P.channels then P.getOrderedSample i z else 0)

/-- The row pushed for a re-weighted sample (lines 92-104). -/
def weightedRow (P : DeepPixel) (channels : ChannelSet) (i : Nat)
    (new_alpha_factor : F32) : List F32 :=
  channels.map (fun z =>
    if z = Channel.Chan_DeepFront ∨ z = Channel.Chan_DeepBack then P.getOrderedSample i z
    else if z ∈ P.channels then P.getOrderedSample i z * new_alpha_factor
    else 0)

/-- One pass through the body of the while loop (lines 57-126), every
operation on floats rounded to single precision. -/
def step (A : Args) (s : State) : Step :=
  let a := min_element s.distance A.amount
  if s.sampleNo a < A.sampleCount a then
    let P := A.inPixels.getD a emptyPixel
    let inverted_sampleCount := A.sampleCount a - 1 - s.sampleNo a
    let alpha_a := P.getOrderedSample inverted_sampleCount Channel.Chan_Alpha
    let s := { s with alpha := Function.update s.alpha a alpha_a }
    if !(F32.le alpha_a A.transparency_threshold && A.drop_transparent) then
      if F32.eq alpha_a 0 then
        let row := passthroughRow P A.channels inverted_sampleCount
        Step.next (Emission.passthrough row)
          (advance A a inverted_sampleCount { s with outPixel := s.outPixel ++ row })
      else
        let designated := s.designated_alpha_accum - s.alpha_accum a * A.weight a
        let accum_a := s.alpha_accum a + alpha_a * (1 - s.alpha_accum a)
        let designated := designated + accum_a * A.weight a
        let new_alpha :=
          if F32.lt designated 1 then
            (designated - s.alpha_accum_combined) / (1 - s.alpha_accum_combined)
          else alpha_a
        let combined := s.alpha_accum_combined + new_alpha * (1 - s.alpha_accum_combined)
        let s := { s with
          alpha_accum := Function.update s.alpha_accum a accum_a
          designated_alpha_accum := designated
          alpha_accum_combined := combined }
        if !(F32.le new_alpha A.transparency_threshold && A.drop_transparent) then
          let row := weightedRow P A.channels inverted_sampleCount (new_alpha / alpha_a)
          let s := { s with outPixel := s.outPixel ++ row }
          if F32.eq new_alpha 1 && A.drop_hidden then
            Step.ret (Emission.weighted new_alpha row) s
          else
            Step.next (Emission.weighted new_alpha row) (advance A a inverted_sampleCount s)
        else
          Step.next (Emission.dropped new_alpha) (advance A a inverted_sampleCount s)
    else
      Step.next Emission.skipped (advance A a inverted_sampleCount s)
  else Step.oob

/-- One executed loop iteration: the state before, what was appended, the state
after. -/
structure Iteration where
  pre : State
  emit : Emission
  post : State

/-- The while loop of lines 55-127 with an iteration budget. -/
def exec (A : Args) : Nat → State → List Iteration × Ending
  | 0, s => ([], if loopCond A s then Ending.fuel else Ending.finished)
  | n + 1, s =>
    if loopCond A s then
      match step A s with
      | Step.next e t => (⟨s, e, t⟩ :: (exec A n t).1, (exec A n t).2)
      | Step.ret e t => ([⟨s, e, t⟩], Ending.returned)
      | Step.oob => ([], Ending.oob)
    else ([], Ending.finished)

/-- The iteration budget of a call: the number of samples. -/
def Args.budget (A : Args) : Nat := accumulate A.sampleCount A.amount

/-- The iterations of one `combineDeepPixels` call. -/
def iterations (A : Args) : List Iteration := (exec A A.budget (init A)).1

/-- How one `combineDeepPixels` call leaves its loop. -/
def ending (A : Args) : Ending := (exec A A.budget (init A)).2

/-- The states of one call: the initial state and the state after each
iteration. -/
def trace (A : Args) : List State := init A :: (iterations A).map Iteration.post

/-- The state in which a call leaves its loop. -/
def finalState (A : Args) : State :=
  match (iterations A).getLast? with
  | some it => it.post
  | none => init A

/-- The function `combineDeepPixels`, called on an empty output pixel. -/
def combineDeepPixels (inPixels : List DeepPixel) (channels : ChannelSet)
    (weight : Nat → F32) (drop_hidden drop_transparent : Bool)
    (transparency_threshold : F32) : Option (List F32) :=
  let A : Args :=
    ⟨inPixels, channels, weight, drop_hidden, drop_transparent, transparency_threshold⟩
  match ending A with
  | Ending.finished => some (finalState A).outPixel
  | Ending.returned => some (finalState A).outPixel
  | _ => none

/-- A sample with the given depth range and alpha, every colour channel at
`colour`. -/
def mkSample (front back alpha colour : F32) : Sample := fun z =>
  match z with
  | Channel.Chan_DeepFront => front
  | Channel.Chan_DeepBack => back
  | Channel.Chan_Alpha => alpha
  | Channel.other _ => colour

/-- What the iterations of one call append, iteration by iteration. -/
def emissions (A : Args) : List Emission := (iterations A).map Iteration.emit

/-- Whether an emission appends a sample. -/
def Emission.isSample : Emission → Bool
  | Emission.passthrough _ => true
  | Emission.weighted _ _ => true
  | _ => false

/-- The samples one call emits: the appends that are samples, in order. -/
def emitted (A : Args) : List Emission := (emissions A).filter Emission.isSample

/-- The input `a` an iteration started in `s` selects (lines 57-58). -/
def selected (A : Args) (s : State) : Nat := min_element s.distance A.amount

/-- The pixel `inPixels[a]`. -/
def selectedPixel (A : Args) (s : State) : DeepPixel :=
  A.inPixels.getD (selected A s) emptyPixel

/-- The ordered index `inverted_sampleCount` of line 60. -/
def invertedIndex (A : Args) (s : State) : Nat :=
  A.sampleCount (selected A s) - 1 - s.sampleNo (selected A s)

/-- The raw alpha `alpha[a]` of line 61. -/
def rawAlpha (A : Args) (s : State) : F32 :=
  (selectedPixel A s).getOrderedSample (invertedIndex A s) Channel.Chan_Alpha

/-- The cell `alpha_accum[a]` after line 78. -/
def accumNext (A : Args) (s : State) : F32 :=
  s.alpha_accum (selected A s) + rawAlpha A s * (1 - s.alpha_accum (selected A s))

/-- The variable `designated_alpha_accum` after line 79. -/
def designatedNext (A : Args) (s : State) : F32 :=
  s.designated_alpha_accum - s.alpha_accum (selected A s) * A.weight (selected A s)
    + accumNext A s * A.weight (selected A s)

/-- The variable `new_alpha` of lines 81-85. -/
def newAlpha (A : Args) (s : State) : F32 :=
  if F32.lt (designatedNext A s) 1 then
    (designatedNext A s - s.alpha_accum_combined) / (1 - s.alpha_accum_combined)
  else rawAlpha A s

/-- The variable `alpha_accum_combined` after line 87. -/
def combinedNext (A : Args) (s : State) : F32 :=
  s.alpha_accum_combined + newAlpha A s * (1 - s.alpha_accum_combined)

/-- Whether every stored value of a carried channel, every weight and the
threshold of a call is a single-precision value. -/
def Args.isRepresentable (A : Args) : Bool :=
  A.inPixels.all (fun P => P.ordered.all (fun smp =>
      P.channels.all (fun z => (smp z).isRepresentable))) &&
    (List.range A.amount).all (fun k => (A.weight k).isRepresentable) &&
    A.transparency_threshold.isRepresentable

/-- The row of channel values a sample shows for the requested channels: the
stored value of a channel the pixel carries, 0 for any other. -/
def sampleRow (P : DeepPixel) (channels : ChannelSet) (smp : Sample) : List F32 :=
  channels.map (fun z => if z ∈ P.channels then smp z else 0)

/-- Whether the sample alphas of every input lie in [0,1]. -/
def alphasInUnit (inPixels : List DeepPixel) : Bool :=
  inPixels.all (fun P => P.ordered.all (fun smp =>
    F32.le 0 (smp Channel.Chan_Alpha) && F32.le (smp Channel.Chan_Alpha) 1))

/-- Whether the weights of all inputs are non-negative. -/
def weightsNonneg (A : Args) : Bool :=
  (List.range A.amount).all (fun k => F32.le 0 (A.weight k))

/-- The exact sum of the weights of all inputs. -/
def weightSum (A : Args) : ℚ :=
  ((List.range A.amount).map (fun k => (A.weight k).toRat)).sum

/-- The `new_alpha` of an iteration that ran lines 77-87 (a sample that is not
skipped and has a non-zero alpha). -/
def Emission.reweighted : Emission → Option F32
  | Emission.weighted new_alpha _ => some new_alpha
  | Emission.dropped new_alpha => some new_alpha
  | _ => none

/-! ### Runs without rounding, and their exact reading -/

/-- The exact reading of a pixel: every stored value by its rational value. -/
def DeepPixel.exact (P : DeepPixel) : MsDeep.DeepPixel :=
  mkPixel P.channels (P.ordered.map (fun smp z => (smp z).toRat))

/-- The exact reading of the arguments of a call. -/
def Args.exact (A : Args) : MsDeep.Args :=
  ⟨A.inPixels.map DeepPixel.exact, A.channels, fun k => (A.weight k).toRat, A.drop_hidden,
    A.drop_transparent, A.transparency_threshold.toRat⟩

/-- The exact reading of a state. -/
def State.exact (s : State) : MsDeep.State :=
  ⟨s.sampleNo, fun k => (s.distance k).toRat, fun k => (s.alpha k).toRat,
    fun k => (s.alpha_accum k).toRat, s.alpha_accum_combined.toRat,
    s.designated_alpha_accum.toRat, s.outPixel.map F32.toRat⟩

/-- The exact reading of an emission. -/
def Emission.exact : Emission → MsDeep.Emission
  | Emission.skipped => MsDeep.Emission.skipped
  | Emission.passthrough row => MsDeep.Emission.passthrough (row.map F32.toRat)
  | Emission.weighted new_alpha row =>
    MsDeep.Emission.weighted new_alpha.toRat (row.map F32.toRat)
  | Emission.dropped new_alpha => MsDeep.Emission.dropped new_alpha.toRat

/-- The exact reading of an iteration. -/
def Iteration.exact (it : Iteration) : MsDeep.Iteration :=
  ⟨it.pre.exact, it.emit.exact, it.post.exact⟩

/-- The exact reading of the result of a loop body. -/
def Step.exact : Step → MsDeep.Step
  | Step.next e s => MsDeep.Step.next e.exact s.exact
  | Step.ret e s => MsDeep.Step.ret e.exact s.exact
  | Step.oob => MsDeep.Step.oob

/-- The values a call compares are finite: the alpha and the front depth of
every sample, and the threshold. -/
def Args.FiniteInputs (A : Args) : Prop :=
  (∀ P ∈ A.inPixels, ∀ smp ∈ P.ordered,
    (smp Channel.Chan_Alpha).isFinite = true ∧ (smp Channel.Chan_DeepFront).isFinite = true) ∧
  A.transparency_threshold.isFinite = true

instance (A : Args) : Decidable A.FiniteInputs :=
  inferInstanceAs (Decidable ((∀ P ∈ A.inPixels, ∀ smp ∈ P.ordered,
    (smp Channel.Chan_Alpha).isFinite = true ∧ (smp Channel.Chan_DeepFront).isFinite = true) ∧
  A.transparency_threshold.isFinite = true))

/-- No operation of lines 77-79 rounds in the iteration started in `s`. -/
def ExactAccum (A : Args) (s : State) : Prop :=
  F32.ExactMul (s.alpha_accum (selected A s)) (A.weight (selected A s)) ∧
  F32.ExactSub s.designated_alpha_accum
    (s.alpha_accum (selected A s) * A.weight (selected A s)) ∧
  F32.ExactSub 1 (s.alpha_accum (selected A s)) ∧
  F32.ExactMul (rawAlpha A s) (1 - s.alpha_accum (selected A s)) ∧
  F32.ExactAdd (s.alpha_accum (selected A s))
    (rawAlpha A s * (1 - s.alpha_accum (selected A s))) ∧
  F32.ExactMul (accumNext A s) (A.weight (selected A s)) ∧
  F32.ExactAdd
    (s.designated_alpha_accum - s.alpha_accum (selected A s) * A.weight (selected A s))
    (accumNext A s * A.weight (selected A s))

instance (A : Args) (s : State) : Decidable (ExactAccum A s) :=
  inferInstanceAs (Decidable (
  F32.ExactMul (s.alpha_accum (selected A s)) (A.weight (selected A s)) ∧
  F32.ExactSub s.designated_alpha_accum
    (s.alpha_accum (selected A s) * A.weight (selected A s)) ∧
  F32.ExactSub 1 (s.alpha_accum (selected A s)) ∧
  F32.ExactMul (rawAlpha A s) (1 - s.alpha_accum (selected A s)) ∧
  F32.ExactAdd (s.alpha_accum (selected A s))
    (rawAlpha A s * (1 - s.alpha_accum (selected A s))) ∧
  F32.ExactMul (accumNext A s) (A.weight (selected A s)) ∧
  F32.ExactAdd
    (s.designated_alpha_accum - s.alpha_accum (selected A s) * A.weight (selected A s))
    (accumNext A s * A.weight (selected A s))))

/-- No operation of line 83 rounds in the iteration started in `s`, when the
line is reached. -/
def ExactQuotient (A : Args) (s : State) : Prop :=
  F32.lt (designatedNext A s) 1 = true →
    F32.ExactSub (designatedNext A s) s.alpha_accum_combined ∧
    F32.ExactSub 1 s.alpha_accum_combined ∧
    F32.ExactDiv (designatedNext A s - s.alpha_accum_combined) (1 - s.alpha_accum_combined)

instance (A : Args) (s : State) : Decidable (ExactQuotient A s) :=
  inferInstanceAs (Decidable (
  F32.lt (designatedNext A s) 1 = true →
    F32.ExactSub (designatedNext A s) s.alpha_accum_combined ∧
    F32.ExactSub 1 s.alpha_accum_combined ∧
    F32.ExactDiv (designatedNext A s - s.alpha_accum_combined) (1 - s.alpha_accum_combined)))

/-- No operation of line 87 rounds in the iteration started in `s`. -/
def ExactCombined (A : Args) (s : State) : Prop :=
  F32.ExactSub 1 s.alpha_accum_combined ∧
  F32.ExactMul (newAlpha A s) (1 - s.alpha_accum_combined) ∧
  F32.ExactAdd s.alpha_accum_combined (newAlpha A s * (1 - s.alpha_accum_combined))

instance (A : Args) (s : State) : Decidable (ExactCombined A s) :=
  inferInstanceAs (Decidable (
  F32.ExactSub 1 s.alpha_accum_combined ∧
  F32.ExactMul (newAlpha A s) (1 - s.alpha_accum_combined) ∧
  F32.ExactAdd s.alpha_accum_combined (newAlpha A s * (1 - s.alpha_accum_combined))))

/-- No operation of lines 93-101 rounds in the iteration started in `s`, when
the sample is emitted. -/
def ExactRow (A : Args) (s : State) : Prop :=
  (F32.le (newAlpha A s) A.transparency_threshold && A.drop_transparent) = false →
    F32.ExactDiv (newAlpha A s) (rawAlpha A s) ∧
    ∀ z ∈ A.channels, z ≠ Channel.Chan_DeepFront → z ≠ Channel.Chan_DeepBack →
      z ∈ (selectedPixel A s).channels →
        F32.ExactMul ((selectedPixel A s).getOrderedSample (invertedIndex A s) z)
          (newAlpha A s / rawAlpha A s)

instance (A : Args) (s : State) : Decidable (ExactRow A s) :=
  inferInstanceAs (Decidable (
  (F32.le (newAlpha A s) A.transparency_threshold && A.drop_transparent) = false →
    F32.ExactDiv (newAlpha A s) (rawAlpha A s) ∧
    ∀ z ∈ A.channels, z ≠ Channel.Chan_DeepFront → z ≠ Channel.Chan_DeepBack →
      z ∈ (selectedPixel A s).channels →
        F32.ExactMul ((selectedPixel A s).getOrderedSample (invertedIndex A s) z)
          (newAlpha A s / rawAlpha A s)))

/-- No operation of the iteration started in `s` rounds: when the iteration
re-weights its sample (lines 77-104), every addition, subtraction,
multiplication and division it performs has a finite result equal to the exact
one. -/
def ExactStep (A : Args) (s : State) : Prop :=
  s.sampleNo (selected A s) < A.sampleCount (selected A s) →
  (F32.le (rawAlpha A s) A.transparency_threshold && A.drop_transparent) = false →
  F32.eq (rawAlpha A s) 0 = false →
    ExactAccum A s ∧ ExactQuotient A s ∧ ExactCombined A s ∧ ExactRow A s

instance (A : Args) (s : State) : Decidable (ExactStep A s) :=
  inferInstanceAs (Decidable (
  s.sampleNo (selected A s) < A.sampleCount (selected A s) →
  (F32.le (rawAlpha A s) A.transparency_threshold && A.drop_transparent) = false →
  F32.eq (rawAlpha A s) 0 = false →
    ExactAccum A s ∧ ExactQuotient A s ∧ ExactCombined A s ∧ ExactRow A s))

/-- No operation of the call rounds. -/
def ExactRun (A : Args) : Prop := ∀ it ∈ iterations A, ExactStep A it.pre

instance (A : Args) : Decidable (ExactRun A) :=
  inferInstanceAs (Decidable (∀ it ∈ iterations A, ExactStep A it.pre))

/-- The `new_alpha` of an emitted sample; a sample that is passed through has
alpha 0. -/
def Emission.outAlpha : Emission → F32
  | Emission.weighted new_alpha _ => new_alpha
  | _ => 0

/-- The same call with `drop_transparent` on and the threshold 0. -/
def Args.dropAtZero (A : Args) : Args :=
  { A with drop_transparent := true, transparency_threshold := 0 }

/-- The same call with `drop_transparent` off. -/
def Args.keepTransparent (A : Args) : Args := { A with drop_transparent := false }

/-- The pixels gathered for one output position under resize type none
(msDeepReformat.cpp, line 455). -/
def noneInPixels (inPlane : Pos → DeepPixel) (translation : ℚ × ℚ) (it : Pos) :
    List DeepPixel :=
  [inPlane (noneSource translation it)]

/-- The weight array of resize type none (msDeepReformat.cpp, line 456). -/
def noneWeight : Nat → F32 := fun k => [1].getD k 0

/-- The output pixel of the pixel loop of `msDeepReformat::doDeepEngine` for
resize type none (lines 425-457 and 504-507), the merge in single precision.
The position is an integer and the matrix the identity with a translation; its
arithmetic is taken exactly. -/
def reformatPixelNone (k : ReformatKnobs) (channels : ChannelSet) (inPlane : Pos → DeepPixel)
    (w h center_x center_y : ℚ) (it : Pos) : Option (List F32) :=
  combineDeepPixels (noneInPixels inPlane (noneTranslation k w h center_x center_y) it)
    channels noneWeight k._drop_hidden k._drop_transparent (F32.ofRat k._threshold)

/-! ### Concrete single-precision pixels -/

/-- A sample of alpha 1/2 and colour 3 at depth 1 in front of a sample of alpha
`2 ^ -30` and colour 5 at depth 2. -/
def absorbedPixel : DeepPixel :=
  ⟨exampleChannels,
    [mkSample (F32.scaled 2 0) (F32.scaled 2 0) (F32.scaled 1 (-30)) (F32.scaled 5 0),
     mkSample 1 1 (F32.scaled 1 (-1)) (F32.scaled 3 0)]⟩

/-- Four samples of colour 1 at the depths 1 to 4 with the alphas
`0x1.e0721ap-3`, `0x1.087364p-1`, `0x1.8366e6p-25` and `0x1.04cbf0p-17`. -/
def driftPixel : DeepPixel :=
  ⟨exampleChannels,
    [mkSample (F32.scaled 4 0) (F32.scaled 4 0) (F32.scaled 0x104cbf0 (-41)) 1,
     mkSample (F32.scaled 3 0) (F32.scaled 3 0) (F32.scaled 0x18366e6 (-49)) 1,
     mkSample (F32.scaled 2 0) (F32.scaled 2 0) (F32.scaled 0x1087364 (-25)) 1,
     mkSample 1 1 (F32.scaled 0x1e0721a (-27)) 1]⟩

/-- Two samples of colour 1: alpha `0x1.07f30cp-10` at depth 5 and alpha
`0x1.fffffep-1` at depth 8. -/
def saturatingB : DeepPixel :=
  ⟨exampleChannels,
    [mkSample (F32.scaled 8 0) (F32.scaled 8 0) (F32.scaled 0x1fffffe (-25)) 1,
     mkSample (F32.scaled 5 0) (F32.scaled 5 0) (F32.scaled 0x107f30c (-34)) 1]⟩

/-- Three samples of colour 1: alpha `0x1.7e75bap-28` at depth 1, alpha 1 at
depth 5 and alpha `0x1.9f5722p-26` at depth 9. -/
def saturatingA : DeepPixel :=
  ⟨exampleChannels,
    [mkSample (F32.scaled 9 0) (F32.scaled 9 0) (F32.scaled 0x19f5722 (-50)) 1,
     mkSample (F32.scaled 5 0) (F32.scaled 5 0) 1 1,
     mkSample 1 1 (F32.scaled 0x17e75ba (-52)) 1]⟩

/-- The weights `0x1.9ba43cp-1` and `0x1.916f10p-3`, of sum 1: the weights
`1 - m` and `m` of a keymix with mask value `m = 0x1.916f10p-3`. -/
def saturatingWeights : Nat → F32 := fun k =>
  [F32.scaled 0x19ba43c (-25), F32.scaled 0x1916f10 (-27)].getD k 0

/-- The call of `combineDeepPixels` on `saturatingB` and `saturatingA` with
both drop switches off. -/
def saturatingArgs : Args :=
  ⟨[saturatingB, saturatingA], exampleChannels, saturatingWeights, false, false, 0⟩

/-- One sample of colour 1 and alpha `0x1.ffffdap-1` at depth 1. -/
def thresholdNear : DeepPixel :=
  ⟨exampleChannels, [mkSample 1 1 (F32.scaled 0x1ffffda (-25)) 1]⟩

/-- One sample of colour 1 and alpha `0x1.984276p-8` at depth 2. -/
def thresholdFar : DeepPixel :=
  ⟨exampleChannels, [mkSample (F32.scaled 2 0) (F32.scaled 2 0) (F32.scaled 0x1984276 (-32)) 1]⟩

/-- The weights `0x1.0a0ec4p-3` and `0x1.12d1a4p-1`. -/
def thresholdWeights : Nat → F32 := fun k =>
  [F32.scaled 0x10a0ec4 (-27), F32.scaled 0x112d1a4 (-25)].getD k 0

/-- The threshold `0x1.f7b56cp-9`. -/
def thresholdValue : F32 := F32.scaled 0x1f7b56c (-33)

/-- The call of `combineDeepPixels` on `thresholdNear` and `thresholdFar` with
`drop_transparent` on and the threshold `thresholdValue`. -/
def thresholdArgs : Args :=
  ⟨[thresholdNear, thresholdFar], exampleChannels, thresholdWeights, false, true,
    thresholdValue⟩

/-- The call of `combineDeepPixels` on the single pixel `P` with weight 1, both
drop switches off and threshold 0. -/
def singleArgs (P : DeepPixel) : Args := ⟨[P], exampleChannels, fun _ => 1, false, false, 0⟩

/-- Two half-transparent samples: colour 5 at depth 1, colour 3 at depth 2. -/
def halvesPixel : DeepPixel :=
  ⟨exampleChannels,
    [mkSample (F32.scaled 2 0) (F32.scaled 2 0) (F32.scaled 1 (-1)) (F32.scaled 3 0),
     mkSample 1 1 (F32.scaled 1 (-1)) (F32.scaled 5 0)]⟩

/-- An opaque sample of colour 5 at depth 1 in front of a half-transparent
sample of colour 3 at depth 2. -/
def solidPixel : DeepPixel :=
  ⟨exampleChannels,
    [mkSample (F32.scaled 2 0) (F32.scaled 2 0) (F32.scaled 1 (-1)) (F32.scaled 3 0),
     mkSample 1 1 1 (F32.scaled 5 0)]⟩

/-- A fully transparent sample of colour 5 at depth 1 in front of a
half-transparent sample of colour 3 at depth 2. -/
def clearPixel : DeepPixel :=
  ⟨exampleChannels,
    [mkSample (F32.scaled 2 0) (F32.scaled 2 0) (F32.scaled 1 (-1)) (F32.scaled 3 0),
     mkSample 1 1 0 (F32.scaled 5 0)]⟩

/-- The weights 1/2 and 1/2. -/
def halfWeights : Nat → F32 := fun k => [F32.scaled 1 (-1), F32.scaled 1 (-1)].getD k 0

/-- The call of `combineDeepPixels` on `solidPixel` and `clearPixel` with the
weights 1/2 and 1/2. -/
def mixArgs (drop_hidden drop_transparent : Bool) (thr : F32) : Args :=
  ⟨[solidPixel, clearPixel], exampleChannels, halfWeights, drop_hidden, drop_transparent, thr⟩

end Binary32

/-! # Theorems -/

/-- The state an iteration reaches on the weighted branch, before `advance`. -/
theorem step_eq (A : Args) (s : State) :
    step A s =
      if s.sampleNo (selected A s) < A.sampleCount (selected A s) then
        if ¬ (rawAlpha A s ≤ A.transparency_threshold ∧ A.drop_transparent = true) then
          if rawAlpha A s = 0 then
            Step.next (Emission.passthrough
                (passthroughRow (selectedPixel A s) A.channels (invertedIndex A s)))
              (advance A (selected A s) (invertedIndex A s)
                { s with
                  alpha := Function.update s.alpha (selected A s) (rawAlpha A s)
                  outPixel := s.outPixel ++
                    passthroughRow (selectedPixel A s) A.channels (invertedIndex A s) })
          else
            if ¬ (newAlpha A s ≤ A.transparency_threshold ∧ A.drop_transparent = true) then
              if newAlpha A s = 1 ∧ A.drop_hidden = true then
                Step.ret (Emission.weighted (newAlpha A s)
                    (weightedRow (selectedPixel A s) A.channels (invertedIndex A s)
                      (newAlpha A s / rawAlpha A s)))
                  { s with
                    alpha := Function.update s.alpha (selected A s) (rawAlpha A s)
                    alpha_accum := Function.update s.alpha_accum (selected A s) (accumNext A s)
                    designated_alpha_accum := designatedNext A s
                    alpha_accum_combined := combinedNext A s
                    outPixel := s.outPixel ++
                      weightedRow (selectedPixel A s) A.channels (invertedIndex A s)
                        (newAlpha A s / rawAlpha A s) }
              else
                Step.next (Emission.weighted (newAlpha A s)
                    (weightedRow (selectedPixel A s) A.channels (invertedIndex A s)
                      (newAlpha A s / rawAlpha A s)))
                  (advance A (selected A s) (invertedIndex A s)
                    { s with
                      alpha := Function.update s.alpha (selected A s) (rawAlpha A s)
                      alpha_accum := Function.update s.alpha_accum (selected A s) (accumNext A s)
                      designated_alpha_accum := designatedNext A s
                      alpha_accum_combined := combinedNext A s
                      outPixel := s.outPixel ++
                        weightedRow (selectedPixel A s) A.channels (invertedIndex A s)
                          (newAlpha A s / rawAlpha A s) })
            else
              Step.next (Emission.dropped (newAlpha A s))
                (advance A (selected A s) (invertedIndex A s)
                  { s with
                    alpha := Function.update s.alpha (selected A s) (rawAlpha A s)
                    alpha_accum := Function.update s.alpha_accum (selected A s) (accumNext A s)
                    designated_alpha_accum := designatedNext A s
                    alpha_accum_combined := combinedNext A s })
        else
          Step.next Emission.skipped
            (advance A (selected A s) (invertedIndex A s)
              { s with alpha := Function.update s.alpha (selected A s) (rawAlpha A s) })
      else Step.oob := by
  rfl

/-- Accumulators after one iteration. -/
theorem step_accum (A : Args) (s t : State) (e : Emission)
    (h : step A s = Step.next e t ∨ step A s = Step.ret e t) :
    s.sampleNo (selected A s) < A.sampleCount (selected A s) ∧
    ((t.alpha_accum = s.alpha_accum ∧ t.alpha_accum_combined = s.alpha_accum_combined ∧
        t.designated_alpha_accum = s.designated_alpha_accum ∧
        (e = Emission.skipped ∨ ∃ row, e = Emission.passthrough row)) ∨
      (rawAlpha A s ≠ 0 ∧
        t.alpha_accum = Function.update s.alpha_accum (selected A s) (accumNext A s) ∧
        t.alpha_accum_combined = combinedNext A s ∧
        t.designated_alpha_accum = designatedNext A s ∧
        (e = Emission.dropped (newAlpha A s) ∨ ∃ row, e = Emission.weighted (newAlpha A s) row))) := by
  rw [step_eq] at h
  split_ifs at h with h1 h2 h3 h4 h5 <;>
    simp only [Step.next.injEq, Step.ret.injEq, false_or, or_false, reduceCtorEq] at h
  all_goals (obtain ⟨rfl, rfl⟩ := h; simp_all [advance])

/-- An iteration appends exactly the row of its emission. -/
theorem step_out (A : Args) (s t : State) (e : Emission)
    (h : step A s = Step.next e t ∨ step A s = Step.ret e t) :
    t.outPixel = s.outPixel ++ e.row := by
  rw [step_eq] at h
  split_ifs at h with h1 h2 h3 h4 h5 <;>
    simp only [Step.next.injEq, Step.ret.injEq, false_or, or_false, reduceCtorEq] at h
  all_goals (obtain ⟨rfl, rfl⟩ := h; simp [advance, Emission.row])

/-- Cursor and next-depth cells after an iteration that continues the loop. -/
theorem step_next_cursor (A : Args) (s t : State) (e : Emission)
    (h : step A s = Step.next e t) :
    s.sampleNo (selected A s) < A.sampleCount (selected A s) ∧
    t.sampleNo = Function.update s.sampleNo (selected A s) (s.sampleNo (selected A s) + 1) ∧
    t.distance = Function.update s.distance (selected A s)
      (nextDepth A (selected A s) (s.sampleNo (selected A s) + 1)) := by
  rw [step_eq] at h
  have key : ∀ u : State, u.sampleNo = s.sampleNo → u.distance = s.distance →
      (advance A (selected A s) (invertedIndex A s) u).sampleNo =
        Function.update s.sampleNo (selected A s) (s.sampleNo (selected A s) + 1) ∧
      (advance A (selected A s) (invertedIndex A s) u).distance =
        Function.update s.distance (selected A s)
          (nextDepth A (selected A s) (s.sampleNo (selected A s) + 1)) := by
    intro u hu hd
    simp only [advance, hu, hd, Function.update_same, nextDepth, invertedIndex, true_and]
    have : A.sampleCount (selected A s) - 1 - s.sampleNo (selected A s) - 1 =
        A.sampleCount (selected A s) - 1 - (s.sampleNo (selected A s) + 1) := by omega
    rw [this]
  split_ifs at h with h1 h2 h3 h4 h5 <;>
    simp only [Step.next.injEq, reduceCtorEq] at h
  all_goals (obtain ⟨-, rfl⟩ := h; exact ⟨h1, key _ rfl rfl⟩)

/-- An early return happens only for an emitted sample of alpha 1 under
`drop_hidden`. -/
theorem step_ret_inv (A : Args) (s t : State) (e : Emission)
    (h : step A s = Step.ret e t) :
    A.drop_hidden = true ∧ newAlpha A s = 1 ∧
      e = Emission.weighted (newAlpha A s)
        (weightedRow (selectedPixel A s) A.channels (invertedIndex A s)
          (newAlpha A s / rawAlpha A s)) := by
  rw [step_eq] at h
  split_ifs at h with h1 h2 h3 h4 h5
  simp only [Step.ret.injEq, reduceCtorEq] at h
  obtain ⟨rfl, rfl⟩ := h
  exact ⟨h5.2, h5.1, rfl⟩

/-- What a weighted emission tells about the iteration. -/
theorem step_weighted_inv (A : Args) (s t : State) (na : ℚ) (row : List ℚ)
    (h : step A s = Step.next (Emission.weighted na row) t ∨
      step A s = Step.ret (Emission.weighted na row) t) :
    na = newAlpha A s ∧
      row = weightedRow (selectedPixel A s) A.channels (invertedIndex A s)
        (newAlpha A s / rawAlpha A s) ∧
      rawAlpha A s ≠ 0 ∧
      ¬ (rawAlpha A s ≤ A.transparency_threshold ∧ A.drop_transparent = true) ∧
      ¬ (newAlpha A s ≤ A.transparency_threshold ∧ A.drop_transparent = true) ∧
      (A.drop_hidden = true → newAlpha A s = 1 → step A s = Step.ret (Emission.weighted na row) t) := by
  rw [step_eq] at h
  split_ifs at h with h1 h2 h3 h4 h5 <;>
    simp only [Step.next.injEq, Step.ret.injEq, false_or, or_false, reduceCtorEq,
      Emission.weighted.injEq] at h
  all_goals first
    | exact False.elim h.1
    | (obtain ⟨⟨rfl, rfl⟩, rfl⟩ := h
       refine ⟨rfl, rfl, h3, h2, h4, fun hd hn => ?_⟩
       first
         | exact absurd ⟨hn, hd⟩ h5
         | rw [step_eq, if_pos h1, if_pos h2, if_neg h3, if_pos h4, if_pos h5])

/-- What a pass-through emission tells about the iteration. -/
theorem step_passthrough_inv (A : Args) (s t : State) (row : List ℚ)
    (h : step A s = Step.next (Emission.passthrough row) t ∨
      step A s = Step.ret (Emission.passthrough row) t) :
    rawAlpha A s = 0 ∧
      ¬ (rawAlpha A s ≤ A.transparency_threshold ∧ A.drop_transparent = true) ∧
      row = passthroughRow (selectedPixel A s) A.channels (invertedIndex A s) := by
  rw [step_eq] at h
  split_ifs at h with h1 h2 h3 h4 h5 <;>
    simp only [Step.next.injEq, Step.ret.injEq, false_or, or_false, reduceCtorEq,
      Emission.passthrough.injEq] at h
  all_goals first
    | exact False.elim h.1
    | (obtain ⟨rfl, rfl⟩ := h
       exact ⟨h3, h2, rfl⟩)

/-! ### The loop -/

/-- Every executed iteration is a run of the loop body, entered with the loop
condition true. -/
theorem exec_mem (A : Args) : ∀ (n : Nat) (s : State) (it : Iteration),
    it ∈ (exec A n s).1 →
      loopCond A it.pre ∧
      (step A it.pre = Step.next it.emit it.post ∨ step A it.pre = Step.ret it.emit it.post) := by
  intro n
  induction n with
  | zero => intro s it h; simp [exec] at h
  | succ n ih =>
    intro s it h
    unfold exec at h
    split_ifs at h with hc
    · split at h
      · next e t hst =>
        simp only [List.mem_cons] at h
        rcases h with rfl | h
        · exact ⟨hc, Or.inl hst⟩
        · exact ih t it h
      · next e t hst =>
        simp only [List.mem_singleton] at h
        subst h
        exact ⟨hc, Or.inr hst⟩
      · simp at h
    · simp at h

/-- The states of a run form a chain of loop iterations. -/
theorem exec_chain (A : Args) : ∀ (n : Nat) (s : State),
    List.Chain (Follows A) s ((exec A n s).1.map Iteration.post) := by
  intro n
  induction n with
  | zero => intro s; simp [exec]
  | succ n ih =>
    intro s
    unfold exec
    split_ifs with hc
    · split
      · next e t hst =>
        simp only [List.map_cons, List.chain_cons]
        exact ⟨⟨hc, e, Or.inl hst⟩, ih t⟩
      · next e t hst =>
        simp only [List.map_cons, List.map_nil, List.chain_cons, List.Chain.nil, and_true]
        exact ⟨hc, e, Or.inr hst⟩
      · simp
    · simp

/-- A property of the first state that every iteration preserves holds in every
state of the chain, and what each iteration guarantees from it holds along the
chain. -/
theorem chain_invariant {α : Type} (R Q : α → α → Prop) (Inv : α → Prop)
    (hstep : ∀ s t, Inv s → R s t → Inv t ∧ Q s t) :
    ∀ (l : List α) (s : α), Inv s → List.Chain R s l →
      (∀ x ∈ s :: l, Inv x) ∧ List.Chain Q s l := by
  intro l
  induction l with
  | nil => intro s hs _; exact ⟨fun x hx => by simp at hx; exact hx ▸ hs, List.Chain.nil⟩
  | cons y l ih =>
    intro s hs hch
    rw [List.chain_cons] at hch
    obtain ⟨h1, h2⟩ := ih y (hstep s y hs hch.1).1 hch.2
    refine ⟨fun x hx => ?_, List.Chain.cons (hstep s y hs hch.1).2 h2⟩
    rcases List.mem_cons.mp hx with rfl | hx
    · exact hs
    · exact h1 x hx

/-- The pre-state of every executed iteration is a state of the run. -/
theorem exec_pre_mem (A : Args) : ∀ (n : Nat) (s : State) (it : Iteration),
    it ∈ (exec A n s).1 → it.pre ∈ s :: (exec A n s).1.map Iteration.post := by
  intro n
  induction n with
  | zero => intro s it h; simp [exec] at h
  | succ n ih =>
    intro s it h
    unfold exec at h ⊢
    split_ifs at h ⊢ with hc
    split at h
    · next e t hst =>
      simp only [hst]
      simp only [List.mem_cons] at h
      rcases h with rfl | h
      · simp
      · have := ih t it h
        simp only [List.map_cons]
        exact List.mem_cons_of_mem _ this
    · next e t hst =>
      simp only [List.mem_singleton] at h
      subst h
      simp
    · simp at h
    · simp at h

theorem accumulate_zero_fun (n : Nat) : accumulate (fun _ => 0) n = 0 := by
  induction n with
  | zero => rfl
  | succ n ih => simp [accumulate, ih]

theorem amount_pos_of_loopCond (A : Args) (s : State) (h : loopCond A s) : 0 < A.amount := by
  unfold loopCond at h
  rcases Nat.eq_zero_or_pos A.amount with h0 | h0
  · rw [h0] at h; simp [accumulate] at h
  · exact h0

theorem min_element_lt (d : Nat → ℚ) : ∀ n, 0 < n → min_element d n < n := by
  intro n
  induction n with
  | zero => intro h; omega
  | succ n ih =>
    intro _
    rcases n with _ | n
    · simp [min_element]
    · unfold min_element
      split_ifs
      · omega
      · have := ih (by omega); omega

theorem selected_lt (A : Args) (s : State) (h : loopCond A s) : selected A s < A.amount :=
  min_element_lt _ _ (amount_pos_of_loopCond A s h)

/-- Any ordered alpha read is in [0,1] when the samples' alphas are. -/
theorem getOrderedSample_alpha_range (P : DeepPixel) (i : Nat)
    (h : ∀ smp ∈ P.ordered, 0 ≤ smp Channel.Chan_Alpha ∧ smp Channel.Chan_Alpha ≤ 1) :
    0 ≤ P.getOrderedSample i Channel.Chan_Alpha ∧ P.getOrderedSample i Channel.Chan_Alpha ≤ 1 := by
  unfold DeepPixel.getOrderedSample
  split_ifs
  · rcases Nat.lt_or_ge i P.ordered.length with hi | hi
    · rw [List.getD_eq_getElem _ _ hi]
      exact h _ (List.getElem_mem _)
    · rw [List.getD_eq_default _ _ hi]
      norm_num
  · norm_num

theorem rawAlpha_range (A : Args) (s : State) (h : AlphasInUnit A.inPixels)
    (hc : loopCond A s) : 0 ≤ rawAlpha A s ∧ rawAlpha A s ≤ 1 := by
  unfold rawAlpha selectedPixel
  apply getOrderedSample_alpha_range
  have hlt := selected_lt A s hc
  unfold Args.amount at hlt
  rw [List.getD_eq_getElem _ _ hlt]
  exact h _ (List.getElem_mem _)

theorem accumNext_range (x a : ℚ) (hx : 0 ≤ x ∧ x ≤ 1) (ha : 0 ≤ a ∧ a ≤ 1) :
    0 ≤ x + a * (1 - x) ∧ x + a * (1 - x) ≤ 1 ∧ x ≤ x + a * (1 - x) := by
  refine ⟨by nlinarith [hx.1, hx.2, ha.1, ha.2], by nlinarith [hx.1, hx.2, ha.1, ha.2],
    by nlinarith [hx.1, hx.2, ha.1, ha.2]⟩

theorem boundInv_step (A : Args) (hα : AlphasInUnit A.inPixels) (hw : WeightsNonneg A)
    (s t : State) (hs : BoundInv s) (h : Follows A s t) :
    BoundInv t ∧ s.alpha_accum_combined ≤ t.alpha_accum_combined := by
  obtain ⟨hc, e, he⟩ := h
  obtain ⟨c0, c1, hcd, d0, hacc⟩ := hs
  obtain ⟨-, hcase | hcase⟩ := step_accum A s t e he
  · obtain ⟨h1, h2, h3, -⟩ := hcase
    refine ⟨⟨by rw [h2]; exact c0, by rw [h2]; exact c1, by rw [h2, h3]; exact hcd,
      by rw [h3]; exact d0, by rw [h1]; exact hacc⟩, by rw [h2]⟩
  · obtain ⟨-, h1, h2, h3, -⟩ := hcase
    have hα := rawAlpha_range A s hα hc
    have hwa := hw _ (selected_lt A s hc)
    have hr := accumNext_range (s.alpha_accum (selected A s)) (rawAlpha A s)
      (hacc _) hα
    have hd : s.designated_alpha_accum ≤ designatedNext A s := by
      unfold designatedNext accumNext
      nlinarith [hr.2.2]
    have hacc' : ∀ k, 0 ≤ t.alpha_accum k ∧ t.alpha_accum k ≤ 1 := by
      intro k
      rw [h1, Function.update_apply]
      split_ifs
      · exact ⟨hr.1, hr.2.1⟩
      · exact hacc k
    unfold BoundInv
    rw [h2, h3]
    by_cases hlt : designatedNext A s < 1
    · have hcs : s.alpha_accum_combined = s.designated_alpha_accum := hcd (lt_of_le_of_lt hd hlt)
      have hne : (1 - s.alpha_accum_combined) ≠ 0 := by
        have : s.alpha_accum_combined < 1 := by rw [hcs]; exact lt_of_le_of_lt hd hlt
        linarith
      have hcn : combinedNext A s = designatedNext A s := by
        unfold combinedNext newAlpha
        rw [if_pos hlt, div_mul_cancel₀ _ hne]
        ring
      rw [hcn]
      exact ⟨⟨le_trans d0 hd, le_of_lt hlt, fun _ => rfl, le_trans d0 hd, hacc'⟩,
        by rw [hcs]; exact hd⟩
    · have hcn : combinedNext A s =
          s.alpha_accum_combined + rawAlpha A s * (1 - s.alpha_accum_combined) := by
        unfold combinedNext newAlpha
        rw [if_neg hlt]
      have hr2 := accumNext_range s.alpha_accum_combined (rawAlpha A s) ⟨c0, c1⟩ hα
      rw [hcn]
      exact ⟨⟨hr2.1, hr2.2.1, fun h => absurd h hlt, le_trans d0 hd, hacc'⟩, hr2.2.2⟩

theorem boundInv_init (A : Args) : BoundInv (init A) := by
  simp [BoundInv, init]

theorem trace_chain (A : Args) : List.Chain (Follows A) (init A) ((iterations A).map Iteration.post) :=
  exec_chain A _ _

/-- In exact arithmetic: for sample alphas in [0,1] and non-negative weights of any sum,
whatever the drop switches and the threshold, `alpha_accum_combined` never
decreases from one state of a call to the next and lies in [0,1] in every
state, and every cell `alpha_accum[k]` lies in [0,1] in every state. -/
theorem combined_alpha_monotone_bounded (A : Args) (hα : AlphasInUnit A.inPixels)
    (hw : WeightsNonneg A) :
    List.Chain' (fun s t => s.alpha_accum_combined ≤ t.alpha_accum_combined) (trace A) ∧
    ∀ s ∈ trace A, (0 ≤ s.alpha_accum_combined ∧ s.alpha_accum_combined ≤ 1) ∧
      ∀ k, 0 ≤ s.alpha_accum k ∧ s.alpha_accum k ≤ 1 := by
  obtain ⟨h1, h2⟩ := chain_invariant (Follows A)
    (fun s t => s.alpha_accum_combined ≤ t.alpha_accum_combined) BoundInv
    (fun s t hs h => boundInv_step A hα hw s t hs h) _ _ (boundInv_init A) (trace_chain A)
  refine ⟨h2, fun s hs => ?_⟩
  obtain ⟨c0, c1, -, -, hacc⟩ := h1 s hs
  exact ⟨⟨c0, c1⟩, hacc⟩

theorem weightedAccum_update (A : Args) (s : State) (a : Nat) (ha : a < A.amount) (v : ℚ) :
    ∑ k in Finset.range A.amount, A.weight k * (Function.update s.alpha_accum a v) k =
      weightedAccum A s - s.alpha_accum a * A.weight a + v * A.weight a := by
  unfold weightedAccum
  have hmem : a ∈ Finset.range A.amount := Finset.mem_range.mpr ha
  rw [← Finset.add_sum_erase _ _ hmem, ← Finset.add_sum_erase (Finset.range A.amount) _ hmem]
  rw [Function.update_same]
  have : ∑ x in (Finset.range A.amount).erase a, A.weight x * Function.update s.alpha_accum a v x =
      ∑ x in (Finset.range A.amount).erase a, A.weight x * s.alpha_accum x := by
    apply Finset.sum_congr rfl
    intro x hx
    rw [Function.update_noteq (Finset.ne_of_mem_erase hx)]
  rw [this]
  ring

/-- When the weighted average of numbers in [0,1] reaches 1 although the
weights sum to at most 1, every input with a positive weight is at 1. -/
theorem weighted_full (n : Nat) (w x : Nat → ℚ) (hw : ∀ k, k < n → 0 ≤ w k)
    (hx : ∀ k, x k ≤ 1) (hsum : ∑ k in Finset.range n, w k ≤ 1)
    (hfull : 1 ≤ ∑ k in Finset.range n, w k * x k) (a : Nat) (ha : a < n) :
    w a * (1 - x a) = 0 ∧ ∑ k in Finset.range n, w k * x k = 1 := by
  have hnn : ∀ k ∈ Finset.range n, 0 ≤ w k * (1 - x k) := fun k hk =>
    mul_nonneg (hw k (Finset.mem_range.mp hk)) (by linarith [hx k])
  have hs : ∑ k in Finset.range n, w k * (1 - x k) =
      ∑ k in Finset.range n, w k - ∑ k in Finset.range n, w k * x k := by
    rw [← Finset.sum_sub_distrib]
    apply Finset.sum_congr rfl
    intro k _; ring
  have hle : ∑ k in Finset.range n, w k * (1 - x k) ≤ 0 := by rw [hs]; linarith
  have hsingle := Finset.single_le_sum hnn (Finset.mem_range.mpr ha)
  have h0 := Finset.sum_nonneg hnn
  refine ⟨le_antisymm (le_trans hsingle hle) (hnn a (Finset.mem_range.mpr ha)), ?_⟩
  linarith

theorem averageInv_step (A : Args) (hα : AlphasInUnit A.inPixels) (hw : WeightsNonneg A)
    (hsum : ∑ k in Finset.range A.amount, A.weight k ≤ 1)
    (s t : State) (hs : AverageInv A s) (h : Follows A s t) :
    AverageInv A t ∧ True := by
  refine ⟨?_, trivial⟩
  obtain ⟨hc, e, he⟩ := h
  obtain ⟨hcd, hd, hacc⟩ := hs
  obtain ⟨-, hcase | hcase⟩ := step_accum A s t e he
  · obtain ⟨h1, h2, h3, -⟩ := hcase
    unfold AverageInv weightedAccum
    rw [h1, h2, h3]
    exact ⟨hcd, hd, hacc⟩
  · obtain ⟨-, h1, h2, h3, -⟩ := hcase
    have hα := rawAlpha_range A s hα hc
    have hlt := selected_lt A s hc
    have hwa := hw _ hlt
    have hr := accumNext_range (s.alpha_accum (selected A s)) (rawAlpha A s)
      (hacc _) hα
    have hacc' : ∀ k, 0 ≤ t.alpha_accum k ∧ t.alpha_accum k ≤ 1 := by
      intro k
      rw [h1, Function.update_apply]
      split_ifs
      · exact ⟨hr.1, hr.2.1⟩
      · exact hacc k
    have hdn : designatedNext A s = weightedAccum A t := by
      unfold weightedAccum
      rw [h1, weightedAccum_update A s _ hlt, ← hd]
      rfl
    have hdle : s.designated_alpha_accum ≤ designatedNext A s := by
      unfold designatedNext accumNext
      nlinarith [hr.2.2]
    unfold AverageInv
    rw [h2, h3]
    refine ⟨?_, hdn, hacc'⟩
    by_cases hlt1 : designatedNext A s < 1
    · have hne : (1 - s.alpha_accum_combined) ≠ 0 := by
        have : s.alpha_accum_combined < 1 := by rw [hcd]; exact lt_of_le_of_lt hdle hlt1
        linarith
      unfold combinedNext newAlpha
      rw [if_pos hlt1, div_mul_cancel₀ _ hne]
      ring
    · have hfull := weighted_full A.amount A.weight t.alpha_accum hw (fun k => (hacc' k).2) hsum
        (by unfold weightedAccum at hdn; rw [← hdn]; exact not_lt.mp hlt1) _ hlt
      have hta : t.alpha_accum (selected A s) = accumNext A s := by
        rw [h1, Function.update_same]
      have hd1 : designatedNext A s = 1 := by
        rw [hdn]; exact hfull.2
      have hz := hfull.1
      rw [hta] at hz
      unfold combinedNext newAlpha
      rw [if_neg hlt1, hd1]
      have hc1 : 1 - s.alpha_accum_combined =
          A.weight (selected A s) * (accumNext A s - s.alpha_accum (selected A s)) := by
        rw [hcd, ← hd1]
        unfold designatedNext
        ring
      have : (1 - s.alpha_accum_combined) * (1 - rawAlpha A s) = 0 := by
        rw [hc1]
        unfold accumNext at hz ⊢
        have : A.weight (selected A s) *
            (s.alpha_accum (selected A s) + rawAlpha A s * (1 - s.alpha_accum (selected A s)) -
              s.alpha_accum (selected A s)) * (1 - rawAlpha A s) =
            rawAlpha A s * (A.weight (selected A s) *
              (1 - (s.alpha_accum (selected A s) +
                rawAlpha A s * (1 - s.alpha_accum (selected A s))))) := by ring
        rw [this, hz, mul_zero]
      linarith

theorem averageInv_init (A : Args) : AverageInv A (init A) := by
  simp [AverageInv, init, weightedAccum]

theorem averageInv_trace (A : Args) (hα : AlphasInUnit A.inPixels)
    (hw : WeightsNonneg A) (hsum : ∑ k in Finset.range A.amount, A.weight k ≤ 1) :
    ∀ s ∈ trace A, AverageInv A s :=
  (chain_invariant (Follows A) (fun _ _ => True) (AverageInv A)
    (fun s t hs h => averageInv_step A hα hw hsum s t hs h) _ _ (averageInv_init A)
    (trace_chain A)).1

/-- In exact arithmetic: for sample alphas in [0,1] and non-negative weights of sum at most
1, in every state of a call (the initial one and the one after each iteration,
so in particular after every iteration that re-weights a sample)
`alpha_accum_combined` equals `designated_alpha_accum`, and that equals the sum
over the inputs `k` of `weight[k] * alpha_accum[k]`. -/
theorem combined_alpha_is_weighted_average (A : Args) (hα : AlphasInUnit A.inPixels)
    (hw : WeightsNonneg A) (hsum : ∑ k in Finset.range A.amount, A.weight k ≤ 1) :
    ∀ s ∈ trace A, s.alpha_accum_combined = s.designated_alpha_accum ∧
      s.designated_alpha_accum = weightedAccum A s := by
  intro s hs
  have h := averageInv_trace A hα hw hsum s hs
  exact ⟨h.1, h.2.1⟩

theorem emitted_eq (A : Args) : emitted A = (emissions A).filter Emission.isSample := rfl

theorem mem_emitted (A : Args) (e : Emission) (h : e ∈ emitted A) :
    e.isSample = true ∧ ∃ it ∈ iterations A, it.emit = e := by
  rw [emitted_eq, List.mem_filter] at h
  refine ⟨h.2, ?_⟩
  have := h.1
  unfold emissions at this
  rw [List.mem_map] at this
  exact this

/-- The alpha entry of a re-weighted row is the new alpha. -/
theorem weightedRow_alpha (P : DeepPixel) (channels : ChannelSet) (i : Nat) (na : ℚ)
    (hne : P.getOrderedSample i Channel.Chan_Alpha ≠ 0) (j : Nat) (hj : j < channels.length)
    (hz : channels[j] = Channel.Chan_Alpha) :
    (weightedRow P channels i (na / P.getOrderedSample i Channel.Chan_Alpha))[j]? = some na := by
  unfold weightedRow
  rw [List.getElem?_map, List.getElem?_eq_getElem hj, hz]
  simp only [Option.map_some', reduceCtorEq, or_self, if_false]
  have hmem : Channel.Chan_Alpha ∈ P.channels := by
    by_contra hc
    apply hne
    unfold DeepPixel.getOrderedSample
    rw [if_neg hc]
  rw [if_pos hmem, mul_div_cancel₀ _ hne]

/-- In exact arithmetic: with `drop_transparent` on and a threshold `t ≥ 0`, every sample a
call emits comes from the re-weighting branch with `new_alpha > t`, and the
value it carries for the alpha channel is that `new_alpha`; no zero-alpha
sample is passed through. -/
theorem drop_transparent_threshold (A : Args) (hdrop : A.drop_transparent = true)
    (ht : 0 ≤ A.transparency_threshold) :
    ∀ e ∈ emitted A, ∃ new_alpha row, e = Emission.weighted new_alpha row ∧
      A.transparency_threshold < new_alpha ∧
      ∀ (j : Nat) (hj : j < A.channels.length), A.channels[j] = Channel.Chan_Alpha →
        row[j]? = some new_alpha := by
  intro e he
  obtain ⟨hs, it, hit, rfl⟩ := mem_emitted A e he
  obtain ⟨-, hstep⟩ := exec_mem A _ _ it hit
  cases hem : it.emit with
  | skipped => rw [hem] at hs; simp [Emission.isSample] at hs
  | dropped na => rw [hem] at hs; simp [Emission.isSample] at hs
  | passthrough row =>
    rw [hem] at hstep
    obtain ⟨h0, hskip, -⟩ := step_passthrough_inv A _ _ row hstep
    exact absurd ⟨by rw [h0]; exact ht, hdrop⟩ hskip
  | weighted na row =>
    rw [hem] at hstep
    obtain ⟨rfl, rfl, hne, -, hkeep, -⟩ := step_weighted_inv A _ _ na row hstep
    refine ⟨_, _, rfl, ?_, ?_⟩
    · by_contra hle
      exact hkeep ⟨not_lt.mp hle, hdrop⟩
    · intro j hj hz
      exact weightedRow_alpha _ _ _ _ hne j hj hz

/-- Nothing is emitted after a sample of alpha 1 when hidden samples are dropped. -/
theorem exec_opaque_last (A : Args) (hd : A.drop_hidden = true) : ∀ (n : Nat) (s : State)
    (pre post : List Emission) (row : List ℚ),
    ((exec A n s).1.map Iteration.emit).filter Emission.isSample =
      pre ++ Emission.weighted 1 row :: post → post = [] := by
  intro n
  induction n with
  | zero =>
    intro s pre post row h
    simp [exec] at h
  | succ n ih =>
    intro s pre post row h
    unfold exec at h
    split_ifs at h with hc
    · split at h
      · next e t hst =>
        simp only [List.map_cons, List.filter_cons] at h
        split_ifs at h with hsamp
        · rcases pre with _ | ⟨x, pre⟩
          · simp only [List.nil_append, List.cons.injEq] at h
            obtain ⟨rfl, -⟩ := h
            obtain ⟨hna, -, -, -, -, hret⟩ := step_weighted_inv A s t 1 row (Or.inl hst)
            have := hret hd hna.symm
            rw [hst] at this
            cases this
          · simp only [List.cons_append, List.cons.injEq] at h
            exact ih t pre post row h.2
        · exact ih t pre post row h
      · next e t hst =>
        simp only [List.map_cons, List.map_nil, List.filter_cons, List.filter_nil] at h
        split_ifs at h
        · have hl := congrArg List.length h
          simp at hl
          have : post.length = 0 := by omega
          exact List.length_eq_zero.mp this
        · have hl := congrArg List.length h
          simp at hl
          omega
      · simp at h
    · simp at h

/-- Claim C5.  With `drop_hidden` on, an emitted sample whose `new_alpha` is 1 is
the last sample of the output: nothing is emitted after it. -/
theorem drop_hidden_terminates (A : Args) (hd : A.drop_hidden = true)
    (pre post : List Emission) (row : List ℚ)
    (h : emitted A = pre ++ Emission.weighted 1 row :: post) : post = [] := by
  rw [emitted_eq] at h
  exact exec_opaque_last A hd _ _ pre post row h

/-- The output pixel grows by the rows of the executed iterations. -/
theorem exec_out (A : Args) : ∀ (n : Nat) (s : State),
    (finalOf s (exec A n s).1).outPixel =
      s.outPixel ++ (((exec A n s).1.map Iteration.emit).map Emission.row).flatten := by
  intro n
  induction n with
  | zero => intro s; simp [exec, finalOf]
  | succ n ih =>
    intro s
    unfold exec
    split_ifs with hc
    · split
      · next e t hst =>
        have hfin : finalOf s (⟨s, e, t⟩ :: (exec A n t).1) = finalOf t (exec A n t).1 := by
          unfold finalOf
          rcases hl : (exec A n t).1 with _ | ⟨y, l⟩
          · simp
          · have hsome : (y :: l).getLast? = some ((y :: l).getLast (List.cons_ne_nil _ _)) :=
              List.getLast?_eq_getLast _ _
            have hsome2 : (⟨s, e, t⟩ :: y :: l).getLast? =
                some ((y :: l).getLast (List.cons_ne_nil _ _)) := by
              rw [List.getLast?_cons_cons, hsome]
            rw [hsome, hsome2]
        simp only [hfin, ih t, List.map_cons, List.flatten_cons]
        rw [step_out A s t e (Or.inl hst), List.append_assoc]
      · next e t hst =>
        simp only [finalOf, List.getLast?_singleton, List.map_cons, List.map_nil, List.flatten_cons,
          List.flatten_nil, List.append_nil]
        exact step_out A s t e (Or.inr hst)
      · simp [finalOf]
    · simp [finalOf]

theorem step_oob_iff (A : Args) (s : State) :
    step A s = Step.oob ↔ ¬ s.sampleNo (selected A s) < A.sampleCount (selected A s) := by
  rw [step_eq]
  constructor
  · intro h h1
    rw [if_pos h1] at h
    split_ifs at h
  · intro h
    rw [if_neg h]

/-- Samples are skipped or dropped only under `drop_transparent`. -/
theorem step_nonsample_inv (A : Args) (s t : State) (e : Emission)
    (h : step A s = Step.next e t ∨ step A s = Step.ret e t) (he : e.isSample = false) :
    A.drop_transparent = true := by
  rw [step_eq] at h
  split_ifs at h with h1 h2 h3 h4 h5 <;>
    simp only [Step.next.injEq, Step.ret.injEq, false_or, or_false, reduceCtorEq] at h
  all_goals first
    | exact h4.2
    | exact h2.2
    | (obtain ⟨rfl, -⟩ := h; simp [Emission.isSample] at he)

/-- The row a pixel shows for its ordered sample `i`. -/
theorem passthroughRow_eq (P : DeepPixel) (channels : ChannelSet) (i : Nat)
    (hi : i < P.ordered.length) :
    passthroughRow P channels i = sampleRow P channels P.ordered[i] := by
  unfold passthroughRow sampleRow DeepPixel.getOrderedSample
  apply List.map_congr_left
  intro z _
  split_ifs
  · rw [List.getD_eq_getElem _ _ hi]
  · rfl

theorem weightedRow_one (P : DeepPixel) (channels : ChannelSet) (i : Nat)
    (hi : i < P.ordered.length) :
    weightedRow P channels i 1 = sampleRow P channels P.ordered[i] := by
  unfold weightedRow sampleRow DeepPixel.getOrderedSample
  apply List.map_congr_left
  intro z _
  rw [List.getD_eq_getElem _ _ hi]
  split_ifs <;> simp

theorem single_selected (P : DeepPixel) (channels : ChannelSet) (weight : Nat → ℚ) (thr : ℚ)
    (s : State) : selected (singleArgs P channels weight thr) s = 0 := rfl

theorem single_sampleCount (P : DeepPixel) (channels : ChannelSet) (weight : Nat → ℚ) (thr : ℚ) :
    (singleArgs P channels weight thr).sampleCount 0 = P.ordered.length := rfl

theorem single_loopCond (P : DeepPixel) (channels : ChannelSet) (weight : Nat → ℚ) (thr : ℚ)
    (s : State) :
    loopCond (singleArgs P channels weight thr) s ↔ s.sampleNo 0 < P.ordered.length := by
  unfold loopCond
  simp [Args.amount, singleArgs, accumulate, Args.sampleCount, DeepPixel.getSampleCount]

theorem single_newAlpha (A : Args) (s : State) (hsel : selected A s = 0) (hw : A.weight 0 = 1)
    (hs : SingleInv s) :
    newAlpha A s = rawAlpha A s ∧ combinedNext A s = designatedNext A s ∧
      designatedNext A s = accumNext A s := by
  obtain ⟨hcd, hda⟩ := hs
  have hd : designatedNext A s = accumNext A s := by
    unfold designatedNext
    rw [hsel, hw, hda]; ring
  have hna : newAlpha A s = rawAlpha A s := by
    unfold newAlpha
    split_ifs with hlt
    · rw [hd, hcd, hda]
      have hne : 1 - s.alpha_accum 0 ≠ 0 := by
        intro h0
        have h1 : s.alpha_accum 0 = 1 := by linarith
        rw [hd] at hlt
        unfold accumNext at hlt
        rw [hsel, h1] at hlt
        norm_num at hlt
      unfold accumNext
      rw [hsel]
      field_simp
    · rfl
  refine ⟨hna, ?_, hd⟩
  unfold combinedNext
  rw [hna, hd, hcd, hda]
  unfold accumNext
  rw [hsel]

theorem single_exec (P : DeepPixel) (channels : ChannelSet) (weight : Nat → ℚ) (thr : ℚ)
    (hw : weight 0 = 1) : ∀ (n : Nat) (s : State), SingleInv s →
      s.sampleNo 0 + n = P.ordered.length →
      (exec (singleArgs P channels weight thr) n s).2 = Ending.finished ∧
      (exec (singleArgs P channels weight thr) n s).1.map (fun it => it.emit.row) =
        (P.ordered.reverse.drop (s.sampleNo 0)).map (sampleRow P channels) := by
  intro n
  induction n with
  | zero =>
    intro s _ hj
    have hnc : ¬ loopCond (singleArgs P channels weight thr) s := by
      rw [single_loopCond]; omega
    have hdrop : P.ordered.reverse.drop (s.sampleNo 0) = [] := by
      apply List.drop_eq_nil_of_le
      rw [List.length_reverse]; omega
    simp [exec, hnc, hdrop]
  | succ n ih =>
    intro s hs hj
    have hlt : s.sampleNo 0 < P.ordered.length := by omega
    have hc : loopCond (singleArgs P channels weight thr) s := (single_loopCond _ _ _ _ _).mpr hlt
    have hidx : P.ordered.length - 1 - s.sampleNo 0 < P.ordered.length := by omega
    have hdrop : P.ordered.reverse.drop (s.sampleNo 0) =
        P.ordered[P.ordered.length - 1 - s.sampleNo 0] ::
          P.ordered.reverse.drop (s.sampleNo 0 + 1) := by
      rw [List.drop_eq_getElem_cons (by rw [List.length_reverse]; exact hlt),
        List.getElem_reverse]
    unfold exec
    rw [if_pos hc]
    split
    · next e t hst =>
      obtain ⟨-, hno, -⟩ := step_next_cursor _ s t e hst
      have ht0 : t.sampleNo 0 = s.sampleNo 0 + 1 := by
        rw [hno, single_selected, Function.update_same]
      have hrow : e.row = sampleRow P channels (P.ordered[P.ordered.length - 1 - s.sampleNo 0]) := by
        cases e with
        | skipped =>
          have := step_nonsample_inv _ s t _ (Or.inl hst) rfl
          simp [singleArgs] at this
        | dropped na =>
          have := step_nonsample_inv _ s t _ (Or.inl hst) rfl
          simp [singleArgs] at this
        | passthrough row =>
          obtain ⟨-, -, rfl⟩ := step_passthrough_inv _ s t row (Or.inl hst)
          exact passthroughRow_eq P channels _ hidx
        | weighted na row =>
          obtain ⟨-, rfl, hne, -, -, -⟩ := step_weighted_inv _ s t na row (Or.inl hst)
          rw [(single_newAlpha (singleArgs P channels weight thr) s rfl hw hs).1, div_self hne]
          exact weightedRow_one P channels _ hidx
      have hst' : SingleInv t := by
        obtain ⟨-, hcase | hcase⟩ := step_accum _ s t e (Or.inl hst)
        · obtain ⟨h1, h2, h3, -⟩ := hcase
          unfold SingleInv
          rw [h1, h2, h3]; exact hs
        · obtain ⟨-, h1, h2, h3, -⟩ := hcase
          obtain ⟨-, k1, k2⟩ := single_newAlpha (singleArgs P channels weight thr) s rfl hw hs
          unfold SingleInv
          rw [h1, h2, h3, single_selected, Function.update_same]
          exact ⟨k1, k2⟩
      obtain ⟨ih1, ih2⟩ := ih t hst' (by omega)
      refine ⟨ih1, ?_⟩
      simp only [List.map_cons, ih2, ht0, hdrop, hrow]
    · next e t hst =>
      have := (step_ret_inv _ s t e hst).1
      simp [singleArgs] at this
    · next hst =>
      exact absurd hlt ((step_oob_iff _ s).mp hst)

/-- In exact arithmetic: merging the single pixel `P` with weight 1 and both drop switches
off returns exactly `P`'s samples, closest first; every requested channel of
every emitted sample carries the input sample's value, 0 for a channel `P` does
not carry.  The rescale factor `new_alpha / alpha` is 1 for every sample of
non-zero alpha, also behind an opaque one; neither the depth order nor the
range of the alphas is needed. -/
theorem single_input_unchanged (P : DeepPixel) (channels : ChannelSet) (weight : Nat → ℚ)
    (thr : ℚ) (hw : weight 0 = 1) :
    combineDeepPixels [P] channels weight false false thr =
      some ((P.ordered.reverse.map (sampleRow P channels)).flatten) := by
  have hinv : SingleInv (init (singleArgs P channels weight thr)) := by
    simp [SingleInv, init]
  have hbud : (singleArgs P channels weight thr).budget = P.ordered.length := by
    simp [Args.budget, Args.amount, singleArgs, accumulate, Args.sampleCount,
      DeepPixel.getSampleCount]
  obtain ⟨h1, h2⟩ := single_exec P channels weight thr hw
    (singleArgs P channels weight thr).budget (init (singleArgs P channels weight thr)) hinv
    (by rw [hbud]; simp [init])
  have hout := exec_out (singleArgs P channels weight thr)
    (singleArgs P channels weight thr).budget (init (singleArgs P channels weight thr))
  rw [List.map_map] at hout
  have hcomp : (Emission.row ∘ Iteration.emit) = (fun it => it.emit.row) := rfl
  rw [hcomp, h2] at hout
  unfold combineDeepPixels
  show (match ending (singleArgs P channels weight thr) with
    | Ending.finished => some (finalState (singleArgs P channels weight thr)).outPixel
    | Ending.returned => some (finalState (singleArgs P channels weight thr)).outPixel
    | _ => none) = _
  have hend : ending (singleArgs P channels weight thr) = Ending.finished := h1
  rw [hend]
  simp only [finalState, iterations]
  rw [hout]
  simp [init]

/-! ### The Gaussian weights -/

theorem kernelOffsets_ne_nil (r : Nat) : kernelOffsets r ≠ [] := by
  unfold kernelOffsets
  intro h
  have := congrArg List.length h
  simp at this

theorem piLiteral_pos {K : Type} [LinearOrderedField K] : (0 : K) < piLiteral := by
  unfold piLiteral
  positivity

theorem gaussian_pos {K : Type} [LinearOrderedField K] (exp sqrt : K → K) (hexp : ∀ x, 0 < exp x)
    (hsqrt : ∀ x, 0 < x → 0 < sqrt x) (sigma : K) (hs : sigma ≠ 0) (i : Nat) :
    0 < gaussian exp sqrt sigma i := by
  unfold gaussian
  apply div_pos (hexp _)
  apply hsqrt
  have h2 : 0 < sigma * sigma := mul_self_pos.mpr hs
  have hp : (0 : K) < piLiteral := piLiteral_pos
  have : piLiteral * 2 * sigma * sigma = piLiteral * 2 * (sigma * sigma) := by ring
  rw [this]
  positivity

theorem weight_horizontal_pos {K : Type} [LinearOrderedField K] (exp sqrt : K → K) (hexp : ∀ x, 0 < exp x)
    (hsqrt : ∀ x, 0 < x → 0 < sqrt x) (sigma0 : K) (i : Nat) :
    0 < weight_horizontal exp sqrt sigma0 i := by
  unfold weight_horizontal
  split_ifs with h
  · exact one_pos
  · exact gaussian_pos exp sqrt hexp hsqrt sigma0 h i

theorem weight_vertical_pos {K : Type} [LinearOrderedField K] (exp sqrt : K → K) (hexp : ∀ x, 0 < exp x)
    (hsqrt : ∀ x, 0 < x → 0 < sqrt x) (r0 r1 : Nat) (sigma0 sigma1 : K) (j : Nat) :
    0 < weight_vertical exp sqrt r0 r1 sigma0 sigma1 j := by
  unfold weight_vertical
  split_ifs with h1 h2
  · exact weight_horizontal_pos exp sqrt hexp hsqrt sigma0 j
  · exact one_pos
  · exact gaussian_pos exp sqrt hexp hsqrt sigma1 h2 j

theorem combinedWeights_pos {K : Type} [LinearOrderedField K] (exp sqrt : K → K) (hexp : ∀ x, 0 < exp x)
    (hsqrt : ∀ x, 0 < x → 0 < sqrt x) (r0 r1 : Nat) (sigma0 sigma1 : K) :
    0 < (combinedWeights exp sqrt r0 r1 sigma0 sigma1).sum := by
  apply List.sum_pos
  · intro x hx
    unfold combinedWeights at hx
    simp only [List.mem_flatten, List.mem_map] at hx
    obtain ⟨l, ⟨i, -, rfl⟩, hx⟩ := hx
    simp only [List.mem_map] at hx
    obtain ⟨j, -, rfl⟩ := hx
    exact mul_pos (weight_horizontal_pos exp sqrt hexp hsqrt _ _)
      (weight_vertical_pos exp sqrt hexp hsqrt _ _ _ _ _)
  · unfold combinedWeights
    rcases h0 : kernelOffsets r0 with _ | ⟨i, l0⟩
    · exact absurd h0 (kernelOffsets_ne_nil r0)
    · rcases h1 : kernelOffsets r1 with _ | ⟨j, l1⟩
      · exact absurd h1 (kernelOffsets_ne_nil r1)
      · simp

theorem gaussian_normalized {K : Type} [LinearOrderedField K] (exp sqrt : K → K) (hexp : ∀ x, 0 < exp x)
    (hsqrt : ∀ x, 0 < x → 0 < sqrt x) (r0 r1 : Nat) (sigma0 sigma1 : K) :
    (calculateGaussianMatrix exp sqrt r0 r1 sigma0 sigma1).sum = 1 := by
  have hpos := combinedWeights_pos exp sqrt hexp hsqrt r0 r1 sigma0 sigma1
  unfold calculateGaussianMatrix
  simp only []
  rw [List.sum_map_mul_right]
  field_simp

theorem combinedWeights_length {K : Type} [LinearOrderedField K] (exp sqrt : K → K) (r0 r1 : Nat) (sigma0 sigma1 : K) :
    (combinedWeights exp sqrt r0 r1 sigma0 sigma1).length = (2 * r0 + 1) * (2 * r1 + 1) := by
  unfold combinedWeights kernelOffsets
  simp [List.length_flatten, List.map_map, Function.comp_def]

/-- Claim C9.  Over the reals, for every radius pair and every sigma pair, zero
or not, `calculateGaussianMatrix` writes `(2 * rx + 1) * (2 * ry + 1)` weights
and they sum to 1. -/
theorem gaussian_weights_sum_to_one (rx ry : Nat) (sx sy : ℝ) :
    (calculateGaussianMatrix Real.exp Real.sqrt rx ry sx sy).length = (2 * rx + 1) * (2 * ry + 1) ∧
    (calculateGaussianMatrix Real.exp Real.sqrt rx ry sx sy).sum = 1 := by
  refine ⟨?_, gaussian_normalized Real.exp Real.sqrt Real.exp_pos
    (fun x hx => Real.sqrt_pos.mpr hx) rx ry sx sy⟩
  unfold calculateGaussianMatrix
  simp only [List.length_map]
  exact combinedWeights_length _ _ _ _ _ _

/-! ### Keymix pass-through -/

theorem map_range_getD {α β : Type} (l : List α) (d : α) (f : α → β) :
    (List.range l.length).map (fun i => f (l.getD i d)) = l.map f := by
  apply List.ext_getElem
  · simp
  · intro i h1 h2
    simp only [List.getElem_map, List.getElem_range]
    rw [List.getD_eq_getElem _ _ (by simpa using h1)]

theorem pipeThrough_eq (P : DeepPixel) (channels : ChannelSet) :
    pipeThrough P channels = (P.unordered.map (sampleRow P channels)).flatten := by
  unfold pipeThrough DeepPixel.getSampleCount
  rw [P.perm.length_eq]
  congr 1
  rw [← map_range_getD P.unordered (fun _ => 0) (sampleRow P channels)]
  apply List.map_congr_left
  intro i _
  unfold sampleRow DeepPixel.getUnorderedSample
  apply List.map_congr_left
  intro z _
  split_ifs <;> rfl

/-- Claim C10.  With inputs B and A connected, the engine yields one output pixel
per position; at a position whose effective mask value is exactly 0 it is input
B's pixel, sample for sample in unordered index order, and at a position whose
effective mask value is exactly 1 it is input A's pixel; every requested channel
carries the input's value, 0 when the input lacks the channel. -/
theorem keymix_boundary_passthrough (box : List Pos) (channels : ChannelSet)
    (inPlaneB inPlaneA : Pos → DeepPixel) (inputMask : Option (Pos → ℚ))
    (invert_mask : Bool) (mix : ℚ) :
    ∃ outPlane, doDeepEngine box channels (some inPlaneB) (some inPlaneA) inputMask
        invert_mask mix = some outPlane ∧ outPlane.length = box.length ∧
      ∀ (i : Nat) (hi : i < box.length),
        (mask_value inputMask invert_mask mix box[i] = 0 →
          outPlane[i]? = some (some (((inPlaneB box[i]).unordered.map
            (sampleRow (inPlaneB box[i]) channels)).flatten))) ∧
        (mask_value inputMask invert_mask mix box[i] = 1 →
          outPlane[i]? = some (some (((inPlaneA box[i]).unordered.map
            (sampleRow (inPlaneA box[i]) channels)).flatten))) := by
  refine ⟨_, rfl, by simp, fun i hi => ⟨fun h0 => ?_, fun h1 => ?_⟩⟩
  · rw [List.getElem?_map, List.getElem?_eq_getElem hi]
    simp only [Option.map_some', keymixPixel, h0, if_true, pipeThrough_eq]
  · rw [List.getElem?_map, List.getElem?_eq_getElem hi]
    simp only [Option.map_some', keymixPixel, h1, one_ne_zero, if_false, if_true, pipeThrough_eq]

/-! ### Cursors, next depths and the iteration budget -/

theorem accumulate_congr (f g : Nat → Nat) : ∀ n, (∀ k, k < n → f k = g k) →
    accumulate f n = accumulate g n := by
  intro n
  induction n with
  | zero => intro _; rfl
  | succ n ih =>
    intro h
    simp only [accumulate]
    rw [ih (fun k hk => h k (by omega)), h n (by omega)]

theorem accumulate_update (f : Nat → Nat) (a v : Nat) : ∀ n, a < n →
    accumulate (Function.update f a v) n + f a = accumulate f n + v := by
  intro n
  induction n with
  | zero => intro h; omega
  | succ n ih =>
    intro h
    simp only [accumulate]
    rcases Nat.lt_or_ge a n with hlt | hge
    · have := ih hlt
      rw [Function.update_noteq (by omega : n ≠ a)]
      omega
    · have hna : a = n := by omega
      subst hna
      rw [Function.update_same]
      have : accumulate (Function.update f a v) a = accumulate f a :=
        accumulate_congr _ _ a (fun k hk => Function.update_noteq (by omega) _ _)
      omega

theorem accumulate_const (m : Nat) : ∀ n, accumulate (fun _ => m) n = n * m := by
  intro n
  induction n with
  | zero => simp [accumulate]
  | succ n ih => simp only [accumulate, ih]; ring

theorem accumulate_le (f g : Nat → Nat) : ∀ n, (∀ k, k < n → f k ≤ g k) →
    accumulate f n ≤ accumulate g n := by
  intro n
  induction n with
  | zero => intro _; exact le_refl _
  | succ n ih =>
    intro h
    simp only [accumulate]
    have := ih (fun k hk => h k (by omega))
    have := h n (by omega)
    omega

/-- The number of samples consumed grows by one with every iteration that
continues the loop. -/
theorem step_consumed (A : Args) (s t : State) (e : Emission) (hc : loopCond A s)
    (h : step A s = Step.next e t) :
    accumulate t.sampleNo A.amount = accumulate s.sampleNo A.amount + 1 := by
  obtain ⟨-, hno, -⟩ := step_next_cursor A s t e h
  have := accumulate_update s.sampleNo (selected A s) (s.sampleNo (selected A s) + 1) A.amount
    (selected_lt A s hc)
  rw [hno]
  omega

theorem distInv_init (A : Args) : DistInv A (init A) := by
  intro k
  simp only [init, nextDepth, Nat.sub_zero]

/-- The budget is never exhausted: a run whose budget covers the samples still
to be consumed ends by the loop condition, by the early return or by an
out-of-range read. -/
theorem exec_budget_suffices (A : Args) : ∀ (n : Nat) (s : State),
    accumulate A.sampleCount A.amount ≤ accumulate s.sampleNo A.amount + n →
    (exec A n s).2 ≠ Ending.fuel := by
  intro n
  induction n with
  | zero =>
    intro s h
    have hnc : ¬ loopCond A s := by unfold loopCond; omega
    simp [exec, hnc]
  | succ n ih =>
    intro s h
    unfold exec
    split_ifs with hc
    · split
      · next e t hst =>
        have := step_consumed A s t e hc hst
        exact ih t (by omega)
      · simp
      · simp
    · simp

/-- A call never stops for lack of budget. -/
theorem ending_ne_fuel (A : Args) : ending A ≠ Ending.fuel := by
  apply exec_budget_suffices A A.budget (init A)
  unfold Args.budget
  omega

/-- An early return leaves the cursors and next depths as they were. -/
theorem step_ret_cursor (A : Args) (s t : State) (e : Emission)
    (h : step A s = Step.ret e t) : t.sampleNo = s.sampleNo ∧ t.distance = s.distance := by
  rw [step_eq] at h
  split_ifs at h with h1 h2 h3 h4 h5
  simp only [Step.ret.injEq, reduceCtorEq] at h
  obtain ⟨-, rfl⟩ := h
  exact ⟨rfl, rfl⟩

theorem distInv_step (A : Args) (s t : State) (hs : DistInv A s) (h : Follows A s t) :
    DistInv A t ∧ True := by
  refine ⟨?_, trivial⟩
  obtain ⟨-, e, he | he⟩ := h
  · obtain ⟨-, hno, hdi⟩ := step_next_cursor A s t e he
    intro k
    rw [hno, hdi]
    by_cases hk : k = selected A s
    · subst hk
      rw [Function.update_same, Function.update_same]
    · rw [Function.update_noteq hk, Function.update_noteq hk]
      exact hs k
  · obtain ⟨h1, h2⟩ := step_ret_cursor A s t e he
    intro k
    rw [h1, h2]
    exact hs k

theorem distInv_trace (A : Args) : ∀ s ∈ trace A, DistInv A s :=
  (chain_invariant (Follows A) (fun _ _ => True) (DistInv A)
    (fun s t hs h => distInv_step A s t hs h) _ _ (distInv_init A) (trace_chain A)).1

/-- The first smallest cell, characterised. -/
theorem min_element_eq (d : Nat → ℚ) (r : Nat) : ∀ n, r < n →
    (∀ k, k < r → d r < d k) → (∀ k, r ≤ k → k < n → d r ≤ d k) → min_element d n = r := by
  intro n
  induction n with
  | zero => intro h; omega
  | succ n ih =>
    intro hr hlt hle
    rcases n with _ | n
    · simp [min_element]; omega
    · unfold min_element
      rcases Nat.lt_or_ge r (n + 1) with h1 | h1
      · have hm := ih h1 hlt (fun k hk1 hk2 => hle k hk1 (by omega))
        rw [hm, if_neg (not_lt.mpr (hle (n + 1) (by omega) (by omega)))]
      · have hrn : r = n + 1 := by omega
        subst hrn
        have hm := min_element_lt d (n + 1) (by omega)
        rw [if_pos (hlt _ hm)]

theorem min_element_le (d : Nat → ℚ) : ∀ n k, k < n → d (min_element d n) ≤ d k := by
  intro n
  induction n with
  | zero => intro k h; omega
  | succ n ih =>
    intro k hk
    rcases n with _ | n
    · have : k = 0 := by omega
      subst this; simp [min_element]
    · unfold min_element
      split_ifs with h
      · rcases Nat.lt_or_ge k (n + 1) with h1 | h1
        · exact le_trans (le_of_lt h) (ih k h1)
        · have : k = n + 1 := by omega
          subst this; exact le_refl _
      · rcases Nat.lt_or_ge k (n + 1) with h1 | h1
        · exact ih k h1
        · have : k = n + 1 := by omega
          subst this; exact not_lt.mp h

theorem min_element_first (d : Nat → ℚ) : ∀ n k, k < min_element d n →
    d (min_element d n) < d k := by
  intro n
  induction n with
  | zero => intro k h; simp [min_element] at h
  | succ n ih =>
    intro k hk
    rcases n with _ | n
    · simp [min_element] at hk
    · unfold min_element at hk ⊢
      split_ifs at hk ⊢ with h
      · exact lt_of_lt_of_le h (min_element_le d (n + 1) k hk)
      · exact ih k hk

/-! ### Indexing the states of a call -/

/-- While hidden samples are kept and the budget suffices, the state after an
iteration that continues the loop is the next state of the run. -/
theorem exec_getElem_succ (A : Args) (hd : A.drop_hidden = false) : ∀ (n : Nat) (s : State),
    accumulate A.sampleCount A.amount ≤ accumulate s.sampleNo A.amount + n →
    ∀ (i : Nat) (x t : State) (e : Emission),
      (s :: (exec A n s).1.map Iteration.post)[i]? = some x → loopCond A x →
      step A x = Step.next e t →
      (s :: (exec A n s).1.map Iteration.post)[i + 1]? = some t := by
  intro n
  induction n with
  | zero =>
    intro s hfuel i x t e hx hc _
    have hnc : ¬ loopCond A s := by unfold loopCond; omega
    simp only [exec, List.map_nil] at hx
    rcases i with _ | i
    · simp only [List.getElem?_cons_zero, Option.some.injEq] at hx
      subst hx; exact absurd hc hnc
    · simp at hx
  | succ n ih =>
    intro s hfuel i x t e hx hc hst
    unfold exec at hx ⊢
    by_cases hcs : loopCond A s
    · rw [if_pos hcs] at hx ⊢
      split at hx
      · next e1 t1 hst1 =>
        simp only [hst1]
        simp only [List.map_cons] at hx ⊢
        rcases i with _ | i
        · simp only [List.getElem?_cons_zero, Option.some.injEq] at hx
          subst hx
          rw [hst1] at hst
          simp only [Step.next.injEq] at hst
          simp [hst.2]
        · rw [List.getElem?_cons_succ] at hx
          rw [List.getElem?_cons_succ]
          have hcons := step_consumed A s t1 e1 hcs hst1
          exact ih t1 (by omega) i x t e hx hc hst
      · next e1 t1 hst1 =>
        have := (step_ret_inv A s t1 e1 hst1).1
        rw [hd] at this
        cases this
      · next hst1 =>
        simp only [List.map_nil] at hx
        rcases i with _ | i
        · simp only [List.getElem?_cons_zero, Option.some.injEq] at hx
          subst hx
          rw [hst1] at hst
          cases hst
        · simp at hx
    · rw [if_neg hcs] at hx
      simp only [List.map_nil] at hx
      rcases i with _ | i
      · simp only [List.getElem?_cons_zero, Option.some.injEq] at hx
        subst hx; exact absurd hc hcs
      · simp at hx

theorem trace_getElem_succ (A : Args) (hd : A.drop_hidden = false) (i : Nat) (x t : State)
    (e : Emission) (hx : (trace A)[i]? = some x) (hc : loopCond A x)
    (hst : step A x = Step.next e t) : (trace A)[i + 1]? = some t := by
  apply exec_getElem_succ A hd A.budget (init A) _ i x t e hx hc hst
  unfold Args.budget
  omega

theorem find?_of_first {α : Type} (p : α → Bool) : ∀ (l : List α) (i : Nat) (x : α),
    l[i]? = some x → p x = true → (∀ i' y, i' < i → l[i']? = some y → p y = false) →
    l.find? p = some x := by
  intro l
  induction l with
  | nil => intro i x h; simp at h
  | cons a l ih =>
    intro i x hx hp hfirst
    rcases i with _ | i
    · simp only [List.getElem?_cons_zero, Option.some.injEq] at hx
      subst hx
      simp [List.find?_cons, hp]
    · have ha : p a = false := hfirst 0 a (by omega) (by simp)
      rw [List.find?_cons, ha]
      rw [List.getElem?_cons_succ] at hx
      exact ih i x hx hp (fun i' y hi hy => hfirst (i' + 1) y (by omega)
        (by rw [List.getElem?_cons_succ]; exact hy))

/-! ### Accumulated alpha of each input -/

theorem accInv_init (A : Args) : AccInv A (init A) := by
  intro k _
  simp [init, accumAfter]

theorem accInv_step (A : Args) (hh : A.drop_hidden = false) (ht : A.drop_transparent = false)
    (s t : State) (hs : AccInv A s) (h : Follows A s t) : AccInv A t ∧ True := by
  refine ⟨?_, trivial⟩
  obtain ⟨hc, e, he | he⟩ := h
  · obtain ⟨-, hno, -⟩ := step_next_cursor A s t e he
    have hraw : accumAfter (A.inPixels.getD (selected A s) emptyPixel)
        (s.sampleNo (selected A s) + 1) =
        s.alpha_accum (selected A s) + rawAlpha A s * (1 - s.alpha_accum (selected A s)) := by
      rw [hs _ (selected_lt A s hc)]
      rfl
    obtain ⟨-, hcase | hcase⟩ := step_accum A s t e (Or.inl he)
    · obtain ⟨h1, -, -, hskip | ⟨row, hrow⟩⟩ := hcase
      · subst hskip
        have := step_nonsample_inv A s t _ (Or.inl he) rfl
        rw [ht] at this; cases this
      · subst hrow
        obtain ⟨h0, -, -⟩ := step_passthrough_inv A s t row (Or.inl he)
        intro k hk
        rw [h1, hno]
        by_cases hka : k = selected A s
        · subst hka
          rw [Function.update_same, hraw, h0]
          ring
        · rw [Function.update_noteq hka]
          exact hs k hk
    · obtain ⟨-, h1, -, -, -⟩ := hcase
      intro k hk
      rw [h1, hno]
      by_cases hka : k = selected A s
      · subst hka
        rw [Function.update_same, Function.update_same, hraw]
        rfl
      · rw [Function.update_noteq hka, Function.update_noteq hka]
        exact hs k hk
  · have := (step_ret_inv A s t e he).1
    rw [hh] at this; cases this

theorem accInv_trace (A : Args) (hh : A.drop_hidden = false) (ht : A.drop_transparent = false) :
    ∀ s ∈ trace A, AccInv A s :=
  (chain_invariant (Follows A) (fun _ _ => True) (AccInv A)
    (fun s t hs h => accInv_step A hh ht s t hs h) _ _ (accInv_init A) (trace_chain A)).1

/-! ### Merging `N` copies of one pixel -/

theorem copies_amount (P : DeepPixel) (ch : ChannelSet) (N : Nat) (thr : ℚ) :
    (copiesArgs P ch N thr).amount = N := by
  simp [Args.amount, copiesArgs]

theorem copies_pixel (P : DeepPixel) (ch : ChannelSet) (N : Nat) (thr : ℚ) (k : Nat)
    (hk : k < N) : (copiesArgs P ch N thr).inPixels.getD k emptyPixel = P := by
  simp only [copiesArgs]
  rw [List.getD_eq_getElem _ _ (by simpa using hk)]
  simp

theorem copies_sampleCount (P : DeepPixel) (ch : ChannelSet) (N : Nat) (thr : ℚ) (k : Nat)
    (hk : k < N) : (copiesArgs P ch N thr).sampleCount k = P.getSampleCount := by
  unfold Args.sampleCount
  rw [copies_pixel P ch N thr k hk]

theorem copies_total (P : DeepPixel) (ch : ChannelSet) (N : Nat) (thr : ℚ) :
    accumulate (copiesArgs P ch N thr).sampleCount (copiesArgs P ch N thr).amount =
      N * P.getSampleCount := by
  rw [copies_amount, ← accumulate_const P.getSampleCount N]
  exact accumulate_congr _ _ N (fun k hk => copies_sampleCount P ch N thr k hk)

/-- The next front depth of a copy that has consumed `n` samples. -/
theorem copies_nextDepth_lt (P : DeepPixel) (ch : ChannelSet) (N : Nat) (thr : ℚ)
    (hd : StrictDepths P) (k k' : Nat) (hk : k < N) (hk' : k' < N) (n : Nat)
    (hn : n < P.getSampleCount) :
    nextDepth (copiesArgs P ch N thr) k n < nextDepth (copiesArgs P ch N thr) k' (n + 1) := by
  unfold nextDepth
  rw [copies_sampleCount P ch N thr k hk, copies_sampleCount P ch N thr k' hk',
    copies_pixel P ch N thr k hk, copies_pixel P ch N thr k' hk', if_pos hn]
  split_ifs with h1
  · exact hd.1 _ (by omega) _ (by omega)
  · exact hd.2 _ (by omega)

theorem copies_nextDepth_eq (P : DeepPixel) (ch : ChannelSet) (N : Nat) (thr : ℚ)
    (k k' : Nat) (hk : k < N) (hk' : k' < N) (n : Nat) :
    nextDepth (copiesArgs P ch N thr) k n = nextDepth (copiesArgs P ch N thr) k' n := by
  unfold nextDepth
  rw [copies_sampleCount P ch N thr k hk, copies_sampleCount P ch N thr k' hk',
    copies_pixel P ch N thr k hk, copies_pixel P ch N thr k' hk']

theorem sched_step (P : DeepPixel) (ch : ChannelSet) (N : Nat) (thr : ℚ) (hd : StrictDepths P)
    (i : Nat) (hi : i < N * P.getSampleCount) (x : State)
    (hdist : DistInv (copiesArgs P ch N thr) x) (hs : Sched N i x) :
    x.sampleNo (selected (copiesArgs P ch N thr) x) <
        (copiesArgs P ch N thr).sampleCount (selected (copiesArgs P ch N thr) x) ∧
      ∀ t, t.sampleNo = Function.update x.sampleNo (selected (copiesArgs P ch N thr) x)
          (x.sampleNo (selected (copiesArgs P ch N thr) x) + 1) → Sched N (i + 1) t := by
  obtain ⟨j, r, hr, hij, hno⟩ := hs
  have hj : j < P.getSampleCount := by
    by_contra hge
    have : N * P.getSampleCount ≤ N * j := Nat.mul_le_mul_left N (not_lt.mp hge)
    omega
  have hsel : selected (copiesArgs P ch N thr) x = r := by
    unfold selected
    rw [copies_amount]
    apply min_element_eq _ _ _ hr
    · intro k hk
      rw [hdist r, hdist k, hno r hr, hno k (by omega), if_neg (lt_irrefl r), if_pos hk]
      exact copies_nextDepth_lt P ch N thr hd r k hr (by omega) j hj
    · intro k hk1 hk2
      rw [hdist r, hdist k, hno r hr, hno k hk2, if_neg (lt_irrefl r), if_neg (by omega)]
      exact le_of_eq (copies_nextDepth_eq P ch N thr r k hr hk2 j)
  rw [hsel, copies_sampleCount P ch N thr r hr, hno r hr, if_neg (lt_irrefl r)]
  refine ⟨hj, fun t ht => ?_⟩
  by_cases hlast : r + 1 = N
  · refine ⟨j + 1, 0, by omega, by rw [hij, Nat.mul_succ]; omega, fun k hk => ?_⟩
    rw [ht, Function.update_apply, if_neg (Nat.not_lt_zero k)]
    split_ifs with hkr
    · rfl
    · rw [hno k hk, if_pos (by omega)]
  · refine ⟨j, r + 1, by omega, by omega, fun k hk => ?_⟩
    rw [ht, Function.update_apply]
    split_ifs with hkr hk1 hk1
    · rfl
    · omega
    · rw [hno k hk, if_pos (by omega)]
    · rw [hno k hk, if_neg (by omega)]

/-- The states of a run on `N` copies, by iteration count. -/
theorem copies_schedule (P : DeepPixel) (ch : ChannelSet) (N : Nat) (thr : ℚ) (hN : 1 ≤ N)
    (hd : StrictDepths P) : ∀ i, i ≤ N * P.getSampleCount →
    ∃ x, (trace (copiesArgs P ch N thr))[i]? = some x ∧ Sched N i x ∧
      accumulate x.sampleNo N = i := by
  intro i
  induction i with
  | zero =>
    intro _
    refine ⟨init (copiesArgs P ch N thr), by simp [trace], ⟨0, 0, by omega, by simp, fun k _ => by simp [init]⟩, ?_⟩
    exact accumulate_zero_fun N
  | succ i ih =>
    intro hi
    obtain ⟨x, hx, hs, hacc⟩ := ih (by omega)
    have hmem : x ∈ trace (copiesArgs P ch N thr) := List.getElem?_mem hx
    have hdist := distInv_trace _ x hmem
    obtain ⟨hlt, hnext⟩ := sched_step P ch N thr hd i (by omega) x hdist hs
    have hc : loopCond (copiesArgs P ch N thr) x := by
      unfold loopCond
      rw [copies_total, copies_amount, hacc]
      omega
    cases hst : step (copiesArgs P ch N thr) x with
    | oob => exact absurd hlt ((step_oob_iff _ x).mp hst)
    | ret e t =>
      have := (step_ret_inv _ x t e hst).1
      simp [copiesArgs] at this
    | next e t =>
      obtain ⟨-, hno, -⟩ := step_next_cursor _ x t e hst
      refine ⟨t, trace_getElem_succ _ rfl i x t e hx hc hst, hnext t hno, ?_⟩
      have := step_consumed _ x t e hc hst
      rw [copies_amount] at this
      omega

theorem copies_alphas (P : DeepPixel) (ch : ChannelSet) (N : Nat) (thr : ℚ)
    (hα : AlphasInUnit [P]) : AlphasInUnit (copiesArgs P ch N thr).inPixels := by
  intro Q hQ
  simp only [copiesArgs] at hQ
  rw [List.eq_of_mem_replicate hQ]
  exact hα P (List.mem_singleton.mpr rfl)

theorem copies_weights (P : DeepPixel) (ch : ChannelSet) (N : Nat) (thr : ℚ) (hN : 1 ≤ N) :
    WeightsNonneg (copiesArgs P ch N thr) ∧
      ∑ k in Finset.range (copiesArgs P ch N thr).amount, (copiesArgs P ch N thr).weight k ≤ 1 := by
  constructor
  · intro k _
    simp only [copiesArgs]
    positivity
  · rw [copies_amount]
    simp only [copiesArgs, Finset.sum_const, Finset.card_range, nsmul_eq_mul]
    have : (N : ℚ) ≠ 0 := by
      have : 0 < N := hN
      exact_mod_cast this.ne'
    rw [mul_one_div_cancel this]

/-- The accumulated alpha of a run on `N` copies right after every copy has
consumed `j` samples. -/
theorem copies_profile (P : DeepPixel) (ch : ChannelSet) (N : Nat) (thr : ℚ) (hN : 1 ≤ N)
    (hα : AlphasInUnit [P]) (hd : StrictDepths P) (j : Nat) (hj : j ≤ P.getSampleCount) :
    ∃ s, stateAfterAll (copiesArgs P ch N thr) N j = some s ∧
      s.alpha_accum_combined = accumAfter P j := by
  obtain ⟨x, hx, ⟨j1, r1, hr1, hij, hno⟩, -⟩ :=
    copies_schedule P ch N thr hN hd (N * j) (Nat.mul_le_mul_left N hj)
  have hr0 : r1 = 0 := by
    have h1 : (N * j1 + r1) % N = r1 := by
      rw [Nat.mul_add_mod]; exact Nat.mod_eq_of_lt hr1
    rw [← hij, Nat.mul_mod_right] at h1
    exact h1.symm
  have hjj : j1 = j := by
    rw [hr0, Nat.add_zero] at hij
    exact (Nat.eq_of_mul_eq_mul_left (by omega) hij).symm
  subst hr0 hjj
  have hsn : ∀ k, k < N → x.sampleNo k = j1 := fun k hk => by
    rw [hno k hk, if_neg (Nat.not_lt_zero k)]
  refine ⟨x, ?_, ?_⟩
  · unfold stateAfterAll
    apply find?_of_first _ _ (N * j1) x hx
    · unfold allConsumed
      rw [List.all_eq_true]
      intro k hk
      rw [hsn k (List.mem_range.mp hk)]
      simp
    · intro i' y hi' hy
      obtain ⟨x', hx', ⟨j2, r2, hr2, hij2, hno2⟩, -⟩ :=
        copies_schedule P ch N thr hN hd i'
          (le_trans (le_of_lt hi') (Nat.mul_le_mul_left N hj))
      rw [hy] at hx'
      simp only [Option.some.injEq] at hx'
      subst hx'
      have hj2 : j2 < j1 := by
        by_contra hge
        have : N * j1 ≤ N * j2 := Nat.mul_le_mul_left N (not_lt.mp hge)
        omega
      by_contra hall
      rw [Bool.not_eq_false] at hall
      unfold allConsumed at hall
      rw [List.all_eq_true] at hall
      have := hall (N - 1) (List.mem_range.mpr (by omega))
      rw [hno2 (N - 1) (by omega), if_neg (by omega)] at this
      simp only [decide_eq_true_eq] at this
      omega
  · have hmem : x ∈ trace (copiesArgs P ch N thr) := List.getElem?_mem hx
    obtain ⟨hw1, hw2⟩ := copies_weights P ch N thr hN
    obtain ⟨h1, h2, -⟩ := averageInv_trace _ (copies_alphas P ch N thr hα) hw1 hw2 x hmem
    have hacc := accInv_trace (copiesArgs P ch N thr) rfl rfl x hmem
    rw [h1, h2]
    unfold weightedAccum
    rw [copies_amount]
    have : ∀ k ∈ Finset.range N, (copiesArgs P ch N thr).weight k * x.alpha_accum k =
        1 / (N : ℚ) * accumAfter P j1 := by
      intro k hk
      have hk' := Finset.mem_range.mp hk
      rw [hacc k (by rw [copies_amount]; exact hk'), copies_pixel P ch N thr k hk', hsn k hk']
      rfl
    rw [Finset.sum_congr rfl this]
    simp only [Finset.sum_const, Finset.card_range, nsmul_eq_mul]
    have hN0 : (N : ℚ) ≠ 0 := by
      have : 0 < N := hN
      exact_mod_cast this.ne'
    field_simp

theorem copies_one (P : DeepPixel) (ch : ChannelSet) (thr : ℚ) :
    copiesArgs P ch 1 thr = singleArgs P ch (fun _ => 1) thr := by
  simp [copiesArgs, singleArgs]

/-- Consecutive iterations of a run: the later starts where the earlier ended,
and the earlier continued the loop. -/
theorem exec_iter_chain (A : Args) : ∀ (n : Nat) (s : State),
    List.Chain' (fun it1 it2 : Iteration => it2.pre = it1.post ∧
      step A it1.pre = Step.next it1.emit it1.post) (exec A n s).1 ∧
    ∀ it, (exec A n s).1.head? = some it → it.pre = s := by
  intro n
  induction n with
  | zero => intro s; simp [exec]
  | succ n ih =>
    intro s
    unfold exec
    split_ifs with hc
    · split
      · next e t hst =>
        obtain ⟨h1, h2⟩ := ih t
        refine ⟨?_, fun it hit => ?_⟩
        · rw [List.chain'_cons']
          refine ⟨fun it hit => ?_, h1⟩
          exact ⟨h2 it hit, hst⟩
        · simp only [List.head?_cons, Option.some.injEq] at hit
          subst hit; rfl
      · next e t hst =>
        refine ⟨List.chain'_singleton _, fun it hit => ?_⟩
        simp only [List.head?_cons, Option.some.injEq] at hit
        subst hit; rfl
      · simp
    · simp

theorem processedFront_eq (A : Args) (it : Iteration)
    (hlt : it.pre.sampleNo (selected A it.pre) < A.sampleCount (selected A it.pre))
    (hd : DistInv A it.pre) :
    processedFront A it = it.pre.distance (selected A it.pre) := by
  rw [hd (selected A it.pre)]
  unfold nextDepth
  rw [if_pos hlt]
  rfl

/-- Claim C7.  For inputs sorted by front depth, the front depths of the samples
the loop processes are non-decreasing from one iteration to the next; and the
sample an iteration processes has the smallest front depth among the next
samples of all inputs, its input being the lowest-indexed among the inputs whose
next sample has that front depth. -/
theorem stable_kway_merge (A : Args) (hsorted : ∀ P ∈ A.inPixels, DepthOrdered P) :
    List.Chain' (fun it1 it2 => processedFront A it1 ≤ processedFront A it2) (iterations A) ∧
    ∀ it ∈ iterations A, ∀ k, k < A.amount → it.pre.sampleNo k < A.sampleCount k →
      processedFront A it ≤ nextDepth A k (it.pre.sampleNo k) ∧
      (nextDepth A k (it.pre.sampleNo k) = processedFront A it → selected A it.pre ≤ k) := by
  have hfacts : ∀ it ∈ iterations A, loopCond A it.pre ∧ DistInv A it.pre ∧
      it.pre.sampleNo (selected A it.pre) < A.sampleCount (selected A it.pre) := by
    intro it hit
    obtain ⟨hc, hstep⟩ := exec_mem A _ _ it hit
    exact ⟨hc, distInv_trace A _ (exec_pre_mem A _ _ it hit), (step_accum A _ _ _ hstep).1⟩
  constructor
  · suffices hl : ∀ l : List Iteration,
        List.Chain' (fun it1 it2 : Iteration => it2.pre = it1.post ∧
          step A it1.pre = Step.next it1.emit it1.post) l →
        (∀ it ∈ l, it ∈ iterations A) →
        List.Chain' (fun it1 it2 => processedFront A it1 ≤ processedFront A it2) l from
      hl _ (exec_iter_chain A A.budget (init A)).1 (fun _ h => h)
    intro l hch hmem
    induction l with
    | nil => exact List.chain'_nil
    | cons it1 l ih =>
      rw [List.chain'_cons'] at hch ⊢
      refine ⟨fun it2 hit2 => ?_, ih hch.2 (fun it h => hmem it (List.mem_cons_of_mem _ h))⟩
      obtain ⟨hpre, hst⟩ := hch.1 it2 hit2
      have hm1 := hmem it1 (List.mem_cons_self _ _)
      have hm2 : it2 ∈ iterations A :=
        hmem it2 (List.mem_cons_of_mem _ (List.mem_of_mem_head? hit2))
      obtain ⟨hc1, hd1, hlt1⟩ := hfacts it1 hm1
      obtain ⟨hc2, hd2, hlt2⟩ := hfacts it2 hm2
      obtain ⟨-, hno, hdi⟩ := step_next_cursor A _ _ _ hst
      rw [processedFront_eq A it1 hlt1 hd1, processedFront_eq A it2 hlt2 hd2]
      rw [hpre] at hlt2 ⊢
      by_cases hsame : selected A it1.post = selected A it1.pre
      · rw [hsame] at hlt2 ⊢
        rw [hdi, Function.update_same]
        rw [hno, Function.update_same] at hlt2
        rw [hd1 (selected A it1.pre)]
        unfold nextDepth
        rw [if_pos hlt1, if_pos hlt2]
        have hP : A.inPixels.getD (selected A it1.pre) emptyPixel ∈ A.inPixels := by
          have := selected_lt A _ hc1
          unfold Args.amount at this
          rw [List.getD_eq_getElem _ _ this]
          exact List.getElem_mem _
        have hso := hsorted _ hP
        unfold Args.sampleCount at hlt1 hlt2 ⊢
        exact hso _ (by omega) _ (by omega)
      · rw [hdi, Function.update_noteq hsame]
        have hk := selected_lt A _ hc2
        rw [hpre] at hk
        exact min_element_le _ _ _ hk
  · intro it hit k hk hkn
    obtain ⟨hc, hd, hlt⟩ := hfacts it hit
    rw [processedFront_eq A it hlt hd, ← hd k]
    refine ⟨min_element_le _ _ _ hk, fun heq => ?_⟩
    by_contra hgt
    have := min_element_first it.pre.distance A.amount k (not_le.mp hgt)
    unfold selected at heq
    rw [heq] at this
    exact lt_irrefl _ this

/-! ### Calls that keep every sample -/

theorem cursorInv_init (A : Args) : CursorInv A (init A) := by
  intro k _
  simp [init]

theorem cursorInv_step (A : Args) (s t : State) (hs : CursorInv A s) (h : Follows A s t) :
    CursorInv A t ∧ True := by
  refine ⟨?_, trivial⟩
  obtain ⟨-, e, he | he⟩ := h
  · obtain ⟨hlt, hno, -⟩ := step_next_cursor A s t e he
    intro k hk
    rw [hno, Function.update_apply]
    split_ifs with hka
    · subst hka; omega
    · exact hs k hk
  · obtain ⟨h1, -⟩ := step_ret_cursor A s t e he
    intro k hk
    rw [h1]
    exact hs k hk

/-- Below the sentinel the selected input always has a sample left. -/
theorem selected_has_sample (A : Args) (hb : BelowSentinel A) (s : State)
    (hc : loopCond A s) (hd : DistInv A s) :
    s.sampleNo (selected A s) < A.sampleCount (selected A s) := by
  by_contra hge
  have hsel : s.distance (selected A s) = FLT_MAX := by
    rw [hd (selected A s)]
    unfold nextDepth
    rw [if_neg hge]
  have hex : ∃ k, k < A.amount ∧ s.sampleNo k < A.sampleCount k := by
    by_contra hno
    have hall : ∀ k, k < A.amount → A.sampleCount k ≤ s.sampleNo k := by
      intro k hk
      by_contra hlt
      exact hno ⟨k, hk, not_le.mp hlt⟩
    have := accumulate_le _ _ A.amount hall
    unfold loopCond at hc
    omega
  obtain ⟨k, hk, hkn⟩ := hex
  have h1 := min_element_le s.distance A.amount k hk
  have h2 := hb k hk _ hkn
  rw [← hd k] at h2
  unfold selected at hsel
  rw [hsel] at h1
  exact absurd h2 (not_lt.mpr h1)

theorem row_length_of_sample (A : Args) (s t : State) (e : Emission)
    (h : step A s = Step.next e t ∨ step A s = Step.ret e t) (he : e.isSample = true) :
    e.row.length = A.channels.length := by
  cases e with
  | skipped => simp [Emission.isSample] at he
  | dropped na => simp [Emission.isSample] at he
  | passthrough row =>
    obtain ⟨-, -, rfl⟩ := step_passthrough_inv A s t row h
    simp [Emission.row, passthroughRow]
  | weighted na row =>
    obtain ⟨-, rfl, -⟩ := step_weighted_inv A s t na row h
    simp [Emission.row, weightedRow]

/-- With both drop switches off and every depth below the sentinel, the loop
runs once per input sample, appends one sample each time, and finishes. -/
theorem exec_keeps_all (A : Args) (hh : A.drop_hidden = false) (ht : A.drop_transparent = false)
    (hb : BelowSentinel A) : ∀ (n : Nat) (s : State), DistInv A s →
    accumulate A.sampleCount A.amount = accumulate s.sampleNo A.amount + n →
    (exec A n s).2 = Ending.finished ∧ (exec A n s).1.length = n ∧
      ∀ it ∈ (exec A n s).1, it.emit.isSample = true ∧
        it.emit.row.length = A.channels.length := by
  intro n
  induction n with
  | zero =>
    intro s _ hn
    have hnc : ¬ loopCond A s := by unfold loopCond; omega
    simp [exec, hnc]
  | succ n ih =>
    intro s hd hn
    have hc : loopCond A s := by unfold loopCond; omega
    unfold exec
    rw [if_pos hc]
    split
    · next e t hst =>
      have hcons := step_consumed A s t e hc hst
      have hd' := (distInv_step A s t hd ⟨hc, e, Or.inl hst⟩).1
      obtain ⟨h1, h2, h3⟩ := ih t hd' (by omega)
      have hsamp : e.isSample = true := by
        by_contra hns
        have := step_nonsample_inv A s t e (Or.inl hst) (by simpa using hns)
        rw [ht] at this; cases this
      refine ⟨h1, by simp [h2], fun it hit => ?_⟩
      rcases List.mem_cons.mp hit with rfl | hit
      · exact ⟨hsamp, row_length_of_sample A s t e (Or.inl hst) hsamp⟩
      · exact h3 it hit
    · next e t hst =>
      have := (step_ret_inv A s t e hst).1
      rw [hh] at this; cases this
    · next hst =>
      exact absurd (selected_has_sample A hb s hc hd) ((step_oob_iff A s).mp hst)

theorem flatten_length_const {α : Type} (c : Nat) : ∀ (l : List (List α)),
    (∀ r ∈ l, r.length = c) → l.flatten.length = l.length * c := by
  intro l
  induction l with
  | nil => intro _; simp
  | cons r l ih =>
    intro h
    rw [List.flatten_cons, List.length_append, h r (List.mem_cons_self _ _),
      ih (fun r' hr' => h r' (List.mem_cons_of_mem _ hr')), List.length_cons]
    ring

theorem accumulate_getD {α : Type} (g : α → Nat) (d : α) : ∀ (l : List α),
    accumulate (fun k => g (l.getD k d)) l.length = (l.map g).sum := by
  intro l
  induction l using List.reverseRecOn with
  | nil => rfl
  | append_singleton l a ih =>
    rw [List.length_append, List.length_singleton, accumulate, List.map_append, List.sum_append,
      ← ih]
    congr 1
    · apply accumulate_congr
      intro k hk
      rw [List.getD_append _ _ _ _ hk]
    · rw [List.getD_append_right _ _ _ _ (le_refl _)]
      simp

theorem budget_eq (A : Args) : A.budget = (A.inPixels.map DeepPixel.getSampleCount).sum :=
  accumulate_getD DeepPixel.getSampleCount emptyPixel A.inPixels

theorem keeps_all (A : Args) (hh : A.drop_hidden = false) (ht : A.drop_transparent = false)
    (hb : BelowSentinel A) :
    ending A = Ending.finished ∧
      (finalState A).outPixel.length =
        (A.inPixels.map DeepPixel.getSampleCount).sum * A.channels.length ∧
      (emitted A).length = (A.inPixels.map DeepPixel.getSampleCount).sum := by
  obtain ⟨h1, h2, h3⟩ := exec_keeps_all A hh ht hb A.budget (init A) (distInv_init A)
    (by rw [show (init A).sampleNo = fun _ => 0 from rfl, accumulate_zero_fun]; simp [Args.budget])
  have hout := exec_out A A.budget (init A)
  have hbud := budget_eq A
  refine ⟨h1, ?_, ?_⟩
  · unfold finalState iterations
    rw [hout, show (init A).outPixel = [] from rfl, List.nil_append,
      flatten_length_const A.channels.length]
    · rw [List.length_map, List.length_map, h2, hbud]
    · intro r hr
      simp only [List.mem_map] at hr
      obtain ⟨e, ⟨it, hit, rfl⟩, rfl⟩ := hr
      exact (h3 it hit).2
  · unfold emitted emissions iterations
    rw [List.filter_eq_self.mpr]
    · rw [List.length_map, h2, hbud]
    · intro e he
      simp only [List.mem_map] at he
      obtain ⟨it, hit, rfl⟩ := he
      exact (h3 it hit).1

/-- Below the sentinel a call with both drop switches off discards nothing: it
returns, emits one sample per input sample, and its output holds that many
times `|channels|` values. -/
theorem keeps_all_below_sentinel (inPixels : List DeepPixel) (channels : ChannelSet)
    (weight : Nat → ℚ) (thr : ℚ)
    (hb : BelowSentinel ⟨inPixels, channels, weight, false, false, thr⟩) :
    ∃ out, combineDeepPixels inPixels channels weight false false thr = some out ∧
      out.length = (inPixels.map DeepPixel.getSampleCount).sum * channels.length ∧
      (emitted ⟨inPixels, channels, weight, false, false, thr⟩).length =
        (inPixels.map DeepPixel.getSampleCount).sum := by
  obtain ⟨h1, h2, h3⟩ := keeps_all ⟨inPixels, channels, weight, false, false, thr⟩ rfl rfl hb
  refine ⟨_, ?_, h2, h3⟩
  unfold combineDeepPixels
  simp only [h1]

/-! ### The claims at concrete inputs -/

/-- The single input in exact arithmetic, at a pixel with an opaque sample in
front of another sample. -/
theorem single_input_unchanged_witness :
    (fun _ : Nat => (1 : ℚ)) 0 = 1 ∧
      combineDeepPixels [solidPixel] exampleChannels (fun _ => 1) false false 0 =
        some ((solidPixel.ordered.reverse.map (sampleRow solidPixel exampleChannels)).flatten) :=
  ⟨rfl, single_input_unchanged solidPixel exampleChannels (fun _ => 1) 0 rfl⟩

/-- The weighted average in exact arithmetic, at two copies of a two-sample
pixel with weights 1/2. -/
theorem combined_alpha_is_weighted_average_witness :
    AlphasInUnit (copiesArgs examplePixel exampleChannels 2 0).inPixels ∧
      WeightsNonneg (copiesArgs examplePixel exampleChannels 2 0) ∧
      ∑ k in Finset.range (copiesArgs examplePixel exampleChannels 2 0).amount,
        (copiesArgs examplePixel exampleChannels 2 0).weight k ≤ 1 ∧
      ∀ s ∈ trace (copiesArgs examplePixel exampleChannels 2 0),
        s.alpha_accum_combined = s.designated_alpha_accum ∧
          s.designated_alpha_accum = weightedAccum (copiesArgs examplePixel exampleChannels 2 0) s :=
  ⟨by with_unfolding_all decide, by with_unfolding_all decide, by with_unfolding_all decide,
    combined_alpha_is_weighted_average (copiesArgs examplePixel exampleChannels 2 0)
      (by with_unfolding_all decide) (by with_unfolding_all decide)
      (by with_unfolding_all decide)⟩

/-- The bounds in exact arithmetic, at two pixels with weights 3 and both drop
switches on. -/
theorem combined_alpha_monotone_bounded_witness :
    AlphasInUnit [examplePixel, solidPixel] ∧
      WeightsNonneg ⟨[examplePixel, solidPixel], exampleChannels, fun _ => 3, true, true, 1 / 4⟩ ∧
      (List.Chain' (fun s t => s.alpha_accum_combined ≤ t.alpha_accum_combined)
          (trace ⟨[examplePixel, solidPixel], exampleChannels, fun _ => 3, true, true, 1 / 4⟩) ∧
        ∀ s ∈ trace ⟨[examplePixel, solidPixel], exampleChannels, fun _ => 3, true, true, 1 / 4⟩,
          (0 ≤ s.alpha_accum_combined ∧ s.alpha_accum_combined ≤ 1) ∧
            ∀ k, 0 ≤ s.alpha_accum k ∧ s.alpha_accum k ≤ 1) :=
  ⟨by with_unfolding_all decide, by with_unfolding_all decide,
    combined_alpha_monotone_bounded
      ⟨[examplePixel, solidPixel], exampleChannels, fun _ => 3, true, true, 1 / 4⟩
      (by with_unfolding_all decide) (by with_unfolding_all decide)⟩

/-- The threshold in exact arithmetic, at two pixels with threshold 1/4. -/
theorem drop_transparent_threshold_witness :
    (0 : ℚ) ≤ 1 / 4 ∧
      ∀ e ∈ emitted ⟨[examplePixel, solidPixel], exampleChannels, halfWeights, false, true, 1 / 4⟩,
        ∃ new_alpha row, e = Emission.weighted new_alpha row ∧ 1 / 4 < new_alpha ∧
          ∀ (j : Nat) (hj : j < exampleChannels.length),
            exampleChannels[j] = Channel.Chan_Alpha → row[j]? = some new_alpha :=
  ⟨by norm_num,
    drop_transparent_threshold
      ⟨[examplePixel, solidPixel], exampleChannels, halfWeights, false, true, 1 / 4⟩ rfl
      (by norm_num)⟩

/-- Claim C5 at a pixel whose closest sample is opaque: the sample behind it is
not emitted. -/
theorem drop_hidden_terminates_witness :
    emitted ⟨[solidPixel], exampleChannels, fun _ => 1, true, false, 0⟩ =
        [] ++ Emission.weighted 1 [1, 1, 1, 5] :: [] ∧
      ([] : List Emission) = [] :=
  ⟨by with_unfolding_all decide,
    drop_hidden_terminates ⟨[solidPixel], exampleChannels, fun _ => 1, true, false, 0⟩ rfl
      [] [] [1, 1, 1, 5] (by with_unfolding_all decide)⟩

/-- Claim C6 at a pixel with one sample at depth 5 mixed with a pixel with one
sample at front depth `FLT_MAX`, weights 1/2 and both drop switches off: after
the first sample the exhausted input 0 holds the marker `FLT_MAX`, ties with the
real depth of input 1 and is selected again, so the loop reads ordered sample
-1 of input 0 and the sample of input 1 is never emitted. -/
theorem sentinel_collision_discards_sample :
    DepthOrdered nearPixel ∧ DepthOrdered farPixel ∧
      combineDeepPixels [nearPixel, farPixel] exampleChannels halfWeights false false 0 = none ∧
      ending ⟨[nearPixel, farPixel], exampleChannels, halfWeights, false, false, 0⟩ = Ending.oob ∧
      emitted ⟨[nearPixel, farPixel], exampleChannels, halfWeights, false, false, 0⟩ =
        [Emission.weighted (1 / 2) [5, 5, 1 / 2, 1 / 2]] ∧
      (finalState ⟨[nearPixel, farPixel], exampleChannels, halfWeights, false, false, 0⟩).sampleNo 0
        = 1 ∧
      selected ⟨[nearPixel, farPixel], exampleChannels, halfWeights, false, false, 0⟩
        (finalState ⟨[nearPixel, farPixel], exampleChannels, halfWeights, false, false, 0⟩) = 0 ∧
      keymixPixel exampleChannels (fun _ => nearPixel) (fun _ => farPixel)
        (some (fun _ => 1 / 2)) false 1 (0, 0) = none := by
  with_unfolding_all decide

/-- Claim C7 at two sorted pixels, one of them with two samples at one depth. -/
theorem stable_kway_merge_witness :
    (∀ P ∈ [examplePixel, tiePixel], DepthOrdered P) ∧
      (List.Chain' (fun it1 it2 =>
          processedFront ⟨[examplePixel, tiePixel], exampleChannels, halfWeights, true, true, 0⟩ it1 ≤
            processedFront ⟨[examplePixel, tiePixel], exampleChannels, halfWeights, true, true, 0⟩ it2)
          (iterations ⟨[examplePixel, tiePixel], exampleChannels, halfWeights, true, true, 0⟩) ∧
        ∀ it ∈ iterations ⟨[examplePixel, tiePixel], exampleChannels, halfWeights, true, true, 0⟩,
          ∀ k, k < Args.amount ⟨[examplePixel, tiePixel], exampleChannels, halfWeights, true, true, 0⟩ →
            it.pre.sampleNo k <
              Args.sampleCount ⟨[examplePixel, tiePixel], exampleChannels, halfWeights, true, true, 0⟩ k →
            processedFront ⟨[examplePixel, tiePixel], exampleChannels, halfWeights, true, true, 0⟩ it ≤
                nextDepth ⟨[examplePixel, tiePixel], exampleChannels, halfWeights, true, true, 0⟩ k
                  (it.pre.sampleNo k) ∧
              (nextDepth ⟨[examplePixel, tiePixel], exampleChannels, halfWeights, true, true, 0⟩ k
                  (it.pre.sampleNo k) =
                processedFront ⟨[examplePixel, tiePixel], exampleChannels, halfWeights, true, true, 0⟩ it →
                selected ⟨[examplePixel, tiePixel], exampleChannels, halfWeights, true, true, 0⟩ it.pre ≤ k)) :=
  ⟨by with_unfolding_all decide,
    stable_kway_merge ⟨[examplePixel, tiePixel], exampleChannels, halfWeights, true, true, 0⟩
      (by with_unfolding_all decide)⟩

/-- Claim C10 on a box of two positions, the mask 0 at the first and 1 at the
second. -/
theorem keymix_boundary_passthrough_witness :
    mask_value (some (fun it : Pos => (it.1 : ℚ))) false 1 (0, 0) = 0 ∧
      mask_value (some (fun it : Pos => (it.1 : ℚ))) false 1 (1, 0) = 1 ∧
      doDeepEngine [(0, 0), (1, 0)] exampleChannels (some (fun _ => examplePixel))
          (some (fun _ => solidPixel)) (some (fun it : Pos => (it.1 : ℚ))) false 1 =
        some [some [2, 2, 1 / 2, 3, 1, 1, 1 / 2, 5], some [2, 2, 1 / 2, 3, 1, 1, 1, 5]] := by
  obtain ⟨outPlane, h1, h2, h3⟩ := keymix_boundary_passthrough [(0, 0), (1, 0)] exampleChannels
    (fun _ => examplePixel) (fun _ => solidPixel) (some (fun it : Pos => (it.1 : ℚ))) false 1
  have m0 : mask_value (some (fun it : Pos => (it.1 : ℚ))) false 1 (0, 0) = 0 := by
    with_unfolding_all decide
  have m1 : mask_value (some (fun it : Pos => (it.1 : ℚ))) false 1 (1, 0) = 1 := by
    with_unfolding_all decide
  refine ⟨m0, m1, ?_⟩
  rw [h1]
  have e0 := (h3 0 (by decide)).1 m0
  have e1 := (h3 1 (by decide)).2 m1
  match outPlane, h2, e0, e1 with
  | [a, b], _, e0, e1 =>
    simp only [List.getElem?_cons_zero, List.getElem?_cons_succ, Option.some.injEq] at e0 e1
    rw [e0, e1]
    with_unfolding_all decide

/-! ### The quotient of line 83 and the selected input -/

theorem boundInv_trace (A : Args) (hα : AlphasInUnit A.inPixels) (hw : WeightsNonneg A) :
    ∀ s ∈ trace A, BoundInv s :=
  (chain_invariant (Follows A)
    (fun s t => s.alpha_accum_combined ≤ t.alpha_accum_combined) BoundInv
    (fun s t hs h => boundInv_step A hα hw s t hs h) _ _ (boundInv_init A) (trace_chain A)).1

/-- The designated accumulated alpha never falls below its previous value. -/
theorem designatedNext_ge (A : Args) (hα : AlphasInUnit A.inPixels) (hw : WeightsNonneg A)
    (s : State) (hs : BoundInv s) (hc : loopCond A s) :
    s.designated_alpha_accum ≤ designatedNext A s := by
  have hr := accumNext_range (s.alpha_accum (selected A s)) (rawAlpha A s)
    (hs.2.2.2.2 _) (rawAlpha_range A s hα hc)
  have hwa := hw _ (selected_lt A s hc)
  unfold designatedNext accumNext
  nlinarith [hr.2.2]

/-- In exact arithmetic: for sample alphas in [0,1] and non-negative weights, whatever the
drop switches: in every iteration in which `designated_alpha_accum` is below 1
after line 79, which are the iterations that evaluate the quotient of line 83,
`alpha_accum_combined` is below 1, so the divisor `1 - alpha_accum_combined` is
not zero. -/
theorem quotient_divisor_nonzero (A : Args) (hα : AlphasInUnit A.inPixels)
    (hw : WeightsNonneg A) :
    ∀ it ∈ iterations A, designatedNext A it.pre < 1 →
      it.pre.alpha_accum_combined < 1 ∧ 1 - it.pre.alpha_accum_combined ≠ 0 := by
  intro it hit hlt
  have hs := boundInv_trace A hα hw _ (exec_pre_mem A _ _ it hit)
  have hc := (exec_mem A _ _ it hit).1
  have hd := designatedNext_ge A hα hw _ hs hc
  have hcd := hs.2.2.1 (lt_of_le_of_lt hd hlt)
  have h1 : it.pre.alpha_accum_combined < 1 := by
    rw [hcd]; exact lt_of_le_of_lt hd hlt
  exact ⟨h1, by linarith⟩

/-- The divisor of line 83 in exact arithmetic, at two pixels with weights 1/2,
hidden samples kept. -/
theorem quotient_divisor_nonzero_witness :
    AlphasInUnit [examplePixel, solidPixel] ∧
      WeightsNonneg ⟨[examplePixel, solidPixel], exampleChannels, halfWeights, false, true, 0⟩ ∧
      ∀ it ∈ iterations ⟨[examplePixel, solidPixel], exampleChannels, halfWeights, false, true, 0⟩,
        designatedNext ⟨[examplePixel, solidPixel], exampleChannels, halfWeights, false, true, 0⟩
            it.pre < 1 →
          it.pre.alpha_accum_combined < 1 ∧ 1 - it.pre.alpha_accum_combined ≠ 0 :=
  ⟨by with_unfolding_all decide, by with_unfolding_all decide,
    quotient_divisor_nonzero
      ⟨[examplePixel, solidPixel], exampleChannels, halfWeights, false, true, 0⟩
      (by with_unfolding_all decide) (by with_unfolding_all decide)⟩

/-- Claim C16 at a pixel without samples followed by a pixel with one sample at
front depth `FLT_MAX`: the loop is entered, both cells of `distance` hold
`FLT_MAX`, the first iteration selects input 0, which has no sample, and reads
its ordered sample -1; nothing is emitted. -/
theorem empty_input_selected :
    blankPixel.getSampleCount = 0 ∧ DepthOrdered blankPixel ∧ DepthOrdered farPixel ∧
      loopCond ⟨[blankPixel, farPixel], exampleChannels, halfWeights, false, false, 0⟩
        (init ⟨[blankPixel, farPixel], exampleChannels, halfWeights, false, false, 0⟩) ∧
      selected ⟨[blankPixel, farPixel], exampleChannels, halfWeights, false, false, 0⟩
        (init ⟨[blankPixel, farPixel], exampleChannels, halfWeights, false, false, 0⟩) = 0 ∧
      ¬ ((init ⟨[blankPixel, farPixel], exampleChannels, halfWeights, false, false, 0⟩).sampleNo 0 <
        Args.sampleCount ⟨[blankPixel, farPixel], exampleChannels, halfWeights, false, false, 0⟩ 0) ∧
      ending ⟨[blankPixel, farPixel], exampleChannels, halfWeights, false, false, 0⟩ = Ending.oob ∧
      (iterations ⟨[blankPixel, farPixel], exampleChannels, halfWeights, false, false, 0⟩).length
        = 0 ∧
      combineDeepPixels [blankPixel, farPixel] exampleChannels halfWeights false false 0 = none := by
  with_unfolding_all decide

/-- When no input has a sample the loop is not entered and the output pixel
stays empty. -/
theorem all_empty_yields_empty (inPixels : List DeepPixel) (channels : ChannelSet)
    (weight : Nat → ℚ) (drop_hidden drop_transparent : Bool) (thr : ℚ)
    (h : ∀ P ∈ inPixels, P.getSampleCount = 0) :
    combineDeepPixels inPixels channels weight drop_hidden drop_transparent thr = some [] := by
  have hb : Args.budget ⟨inPixels, channels, weight, drop_hidden, drop_transparent, thr⟩ = 0 := by
    rw [budget_eq]
    apply List.sum_eq_zero
    intro n hn
    simp only [List.mem_map] at hn
    obtain ⟨P, hP, rfl⟩ := hn
    exact h P hP
  have hnc : ¬ loopCond ⟨inPixels, channels, weight, drop_hidden, drop_transparent, thr⟩
      (init ⟨inPixels, channels, weight, drop_hidden, drop_transparent, thr⟩) := by
    unfold loopCond
    unfold Args.budget at hb
    rw [hb]
    exact Nat.not_lt_zero _
  unfold combineDeepPixels
  simp only [ending, finalState, iterations, hb, exec, hnc, if_false, finalOf, List.getLast?_nil]
  rfl

/-- Below `FLT_MAX` no run reads outside a pixel's samples: the selected input
always has an unconsumed sample. -/
theorem exec_never_oob (A : Args) (hb : BelowSentinel A) : ∀ (n : Nat) (s : State),
    DistInv A s → (exec A n s).2 ≠ Ending.oob := by
  intro n
  induction n with
  | zero =>
    intro s _
    unfold exec
    split_ifs <;> simp
  | succ n ih =>
    intro s hd
    unfold exec
    split_ifs with hc
    · split
      · next e t hst =>
        exact ih t (distInv_step A s t hd ⟨hc, e, Or.inl hst⟩).1
      · simp
      · next hst =>
        exact absurd (selected_has_sample A hb s hc hd) ((step_oob_iff A s).mp hst)
    · simp

/-- In a call whose front depths all lie below `FLT_MAX` every iteration the
loop enters finds an unconsumed sample in the selected input. -/
theorem never_oob_below_sentinel (A : Args) (hb : BelowSentinel A) :
    ending A ≠ Ending.oob :=
  exec_never_oob A hb A.budget (init A) (distInv_init A)

/-! ### Reuse of the horizontal half-profile -/

/-- With equal radii the weights do not depend on the vertical sigma. -/
theorem gaussian_reuse_ignores_sigma1 {K : Type} [Field K] [DecidableEq K] (exp sqrt : K → K)
    (radius : Nat) (sigma0 sigma1 : K) :
    calculateGaussianMatrix exp sqrt radius radius sigma0 sigma1 =
      calculateGaussianMatrix exp sqrt radius radius sigma0 sigma0 := by
  unfold calculateGaussianMatrix combinedWeights weight_vertical
  simp

/-- The weights agree with the independent computation when the radii differ or
the sigmas are equal. -/
theorem gaussian_reuse_agrees {K : Type} [Field K] [DecidableEq K] (exp sqrt : K → K)
    (radius0 radius1 : Nat) (sigma0 sigma1 : K) (h : radius0 ≠ radius1 ∨ sigma0 = sigma1) :
    calculateGaussianMatrix exp sqrt radius0 radius1 sigma0 sigma1 =
      independentGaussianMatrix exp sqrt radius0 radius1 sigma0 sigma1 := by
  have hv : ∀ j, weight_vertical exp sqrt radius0 radius1 sigma0 sigma1 j =
      weight_vertical_independent exp sqrt sigma1 j := by
    intro j
    unfold weight_vertical weight_vertical_independent weight_horizontal
    rcases h with h | h
    · rw [if_neg h]
    · subst h
      split_ifs <;> rfl
  unfold calculateGaussianMatrix independentGaussianMatrix combinedWeights
  simp only [hv]

theorem offsets_one : kernelOffsets 1 = [-1, 0, 1] := by decide

/-- Two normalised entries that agree force the half-profiles to be
proportional. -/
theorem proportional_of_entries (a b a1 b1 k1 k2 : ℝ) (ha : a ≠ 0) (hk1 : k1 ≠ 0)
    (hk2 : k2 ≠ 0) (h3 : a * b * k1 = a * b1 * k2) (h4 : a * a * k1 = a * a1 * k2) :
    b * a1 = b1 * a := by
  have h : a * a * k1 * k2 * (b * a1 - b1 * a) = 0 := by
    have e : a * a * k1 * k2 * (b * a1 - b1 * a) =
        (a * b * k1) * (a * a1 * k2) - (a * b1 * k2) * (a * a * k1) := by ring
    rw [e, h3, h4]; ring
  have hne : a * a * k1 * k2 ≠ 0 := by positivity
  rcases mul_eq_zero.mp h with h0 | h0
  · exact absurd h0 hne
  · linarith

theorem cancel_normalisers (e0 e1 q0 q1 : ℝ) (hq0 : 0 < q0) (hq1 : 0 < q1)
    (h : e0 / q0 * (1 / q1) = e1 / q1 * (1 / q0)) : e0 = e1 := by
  field_simp at h
  nlinarith [mul_pos hq0 hq1]

/-- Claim C17 at the blur sizes 1 and 1.2: both give the kernel radius 1, the
sigmas are 0.425 and 0.51, and the weights written with the reused horizontal
profile differ from the weights of the independent computation. -/
theorem gaussian_reuse_differs :
    kernelRadius 1 = 1 ∧ kernelRadius (6 / 5) = 1 ∧
      kernelSigma 1 = 17 / 40 ∧ kernelSigma (6 / 5) = 51 / 100 ∧
      calculateGaussianMatrix Real.exp Real.sqrt 1 1 (17 / 40) (51 / 100) ≠
        independentGaussianMatrix Real.exp Real.sqrt 1 1 (17 / 40) (51 / 100) := by
  refine ⟨by with_unfolding_all decide, by with_unfolding_all decide,
    by with_unfolding_all decide, by with_unfolding_all decide, ?_⟩
  intro h
  have h3 := congrArg (fun l => l.getD 3 0) h
  have h4 := congrArg (fun l => l.getD 4 0) h
  have hpos0 : ∀ j, 0 < weight_horizontal Real.exp Real.sqrt (17 / 40 : ℝ) j :=
    fun j => weight_horizontal_pos Real.exp Real.sqrt Real.exp_pos
      (fun x hx => Real.sqrt_pos.mpr hx) _ j
  have hpos1 : ∀ j, 0 < weight_vertical_independent Real.exp Real.sqrt (51 / 100 : ℝ) j := by
    intro j
    have := weight_vertical_pos Real.exp Real.sqrt Real.exp_pos
      (fun x hx => Real.sqrt_pos.mpr hx) 0 1 (0 : ℝ) (51 / 100) j
    simpa [weight_vertical, weight_vertical_independent] using this
  simp only [calculateGaussianMatrix, independentGaussianMatrix, combinedWeights, offsets_one,
    List.map_cons, List.map_nil, List.flatten_cons, List.flatten_nil, List.cons_append,
    List.nil_append, List.append_nil, List.getD_cons_succ, List.getD_cons_zero,
    weight_vertical, if_true, Int.natAbs_zero, Int.natAbs_neg, Int.natAbs_one,
    List.sum_cons, List.sum_nil] at h3 h4
  have ha := hpos0 0
  have hb := hpos0 1
  have ha1 := hpos1 0
  have hb1 := hpos1 1
  have hprop := proportional_of_entries _ _ _ _ _ _ ha.ne'
    (one_div_ne_zero (by positivity)) (one_div_ne_zero (by positivity)) h3 h4
  have e0 : weight_horizontal Real.exp Real.sqrt (17 / 40 : ℝ) 0 =
      1 / Real.sqrt (piLiteral * 2 * (17 / 40) * (17 / 40)) := by
    simp [weight_horizontal, gaussian]
  have e1 : weight_horizontal Real.exp Real.sqrt (17 / 40 : ℝ) 1 =
      Real.exp (-1 / (2 * (17 / 40) * (17 / 40))) /
        Real.sqrt (piLiteral * 2 * (17 / 40) * (17 / 40)) := by
    simp [weight_horizontal, gaussian]
  have f0 : weight_vertical_independent Real.exp Real.sqrt (51 / 100 : ℝ) 0 =
      1 / Real.sqrt (piLiteral * 2 * (51 / 100) * (51 / 100)) := by
    simp [weight_vertical_independent, gaussian]
  have f1 : weight_vertical_independent Real.exp Real.sqrt (51 / 100 : ℝ) 1 =
      Real.exp (-1 / (2 * (51 / 100) * (51 / 100))) /
        Real.sqrt (piLiteral * 2 * (51 / 100) * (51 / 100)) := by
    simp [weight_vertical_independent, gaussian]
  rw [e0, e1, f0, f1] at hprop
  have q0 : 0 < Real.sqrt ((piLiteral : ℝ) * 2 * (17 / 40) * (17 / 40)) :=
    Real.sqrt_pos.mpr (by have := @piLiteral_pos ℝ _; positivity)
  have q1 : 0 < Real.sqrt ((piLiteral : ℝ) * 2 * (51 / 100) * (51 / 100)) :=
    Real.sqrt_pos.mpr (by have := @piLiteral_pos ℝ _; positivity)
  have hexp : Real.exp (-1 / (2 * (17 / 40) * (17 / 40))) =
      Real.exp (-1 / (2 * (51 / 100) * (51 / 100))) :=
    cancel_normalisers _ _ _ _ q0 q1 hprop
  have := Real.exp_injective hexp
  norm_num at this

/-! ### Dropping hidden samples cuts the output short -/

theorem finalOf_cons (s t : State) (e : Emission) (l : List Iteration)
    (h : ∀ it, l.head? = some it → it.pre = t) :
    finalOf s (⟨s, e, t⟩ :: l) = finalOf t l := by
  unfold finalOf
  rcases l with _ | ⟨y, l⟩
  · simp
  · have hsome : (y :: l).getLast? = some ((y :: l).getLast (List.cons_ne_nil _ _)) :=
      List.getLast?_eq_getLast _ _
    have hsome2 : (⟨s, e, t⟩ :: y :: l).getLast? =
        some ((y :: l).getLast (List.cons_ne_nil _ _)) := by
      rw [List.getLast?_cons_cons, hsome]
    rw [hsome, hsome2]

theorem hidden_selected (A : Args) (b : Bool) (s : State) :
    selected (A.withDropHidden b) s = selected A s := rfl

theorem hidden_sampleCount (A : Args) (b : Bool) :
    (A.withDropHidden b).sampleCount = A.sampleCount := rfl

theorem hidden_rawAlpha (A : Args) (b : Bool) (s : State) :
    rawAlpha (A.withDropHidden b) s = rawAlpha A s := rfl

theorem hidden_newAlpha (A : Args) (b : Bool) (s : State) :
    newAlpha (A.withDropHidden b) s = newAlpha A s := rfl

theorem hidden_accumNext (A : Args) (b : Bool) (s : State) :
    accumNext (A.withDropHidden b) s = accumNext A s := rfl

theorem hidden_designatedNext (A : Args) (b : Bool) (s : State) :
    designatedNext (A.withDropHidden b) s = designatedNext A s := rfl

theorem hidden_combinedNext (A : Args) (b : Bool) (s : State) :
    combinedNext (A.withDropHidden b) s = combinedNext A s := rfl

theorem hidden_selectedPixel (A : Args) (b : Bool) (s : State) :
    selectedPixel (A.withDropHidden b) s = selectedPixel A s := rfl

theorem hidden_invertedIndex (A : Args) (b : Bool) (s : State) :
    invertedIndex (A.withDropHidden b) s = invertedIndex A s := rfl

theorem hidden_advance (A : Args) (b : Bool) (a i : Nat) (s : State) :
    advance (A.withDropHidden b) a i s = advance A a i s := rfl

theorem hidden_fields (A : Args) (b : Bool) :
    (A.withDropHidden b).transparency_threshold = A.transparency_threshold ∧
      (A.withDropHidden b).drop_transparent = A.drop_transparent ∧
      (A.withDropHidden b).channels = A.channels ∧
      (A.withDropHidden b).drop_hidden = b := ⟨rfl, rfl, rfl, rfl⟩

/-- The loop body under `drop_hidden`, against the loop body without it. -/
theorem step_hidden (A : Args) (s : State) :
    (∀ e t, step (A.withDropHidden true) s = Step.next e t →
      e.isSolid = false ∧ step (A.withDropHidden false) s = Step.next e t) ∧
    (∀ e t, step (A.withDropHidden true) s = Step.ret e t →
      e.isSolid = true ∧ e.isSample = true ∧ t.alpha_accum_combined = 1 ∧
        ∃ u, step (A.withDropHidden false) s = Step.next e u) ∧
    (step (A.withDropHidden true) s = Step.oob → step (A.withDropHidden false) s = Step.oob) := by
  have hT := step_eq (A.withDropHidden true) s
  have hF := step_eq (A.withDropHidden false) s
  simp only [hidden_selected, hidden_sampleCount, hidden_rawAlpha, hidden_newAlpha,
    hidden_accumNext, hidden_designatedNext, hidden_combinedNext, hidden_selectedPixel,
    hidden_invertedIndex, hidden_advance, (hidden_fields A _).1, (hidden_fields A _).2.1,
    (hidden_fields A _).2.2.1, (hidden_fields A _).2.2.2, and_true, Bool.false_eq_true,
    and_false, if_false] at hT hF
  rw [hT, hF]
  refine ⟨fun e t h => ?_, fun e t h => ?_, fun h => ?_⟩
  · split_ifs at h ⊢ with h1 h2 h3 h4 h5 <;>
      simp only [Step.next.injEq, reduceCtorEq] at h
    all_goals obtain ⟨rfl, rfl⟩ := h
    all_goals first
      | exact ⟨rfl, rfl⟩
      | exact ⟨by simp [Emission.isSolid, h5], rfl⟩
  · split_ifs at h ⊢ with h1 h2 h3 h4 h5
    simp only [Step.ret.injEq, reduceCtorEq] at h
    obtain ⟨rfl, rfl⟩ := h
    refine ⟨by simp [Emission.isSolid, h5], rfl, ?_, _, rfl⟩
    show combinedNext A s = 1
    unfold combinedNext
    rw [h5]; ring
  · split_ifs at h ⊢ with h1 h2 h3 h4 h5
    rfl

theorem exec_hidden (A : Args) : ∀ (n : Nat) (s : State),
    HiddenPrefix ((exec (A.withDropHidden true) n s).1.map Iteration.emit)
      ((exec (A.withDropHidden false) n s).1.map Iteration.emit) ∧
    ((∃ e ∈ (exec (A.withDropHidden true) n s).1.map Iteration.emit, e.isSolid = true) →
      (finalOf s (exec (A.withDropHidden true) n s).1).alpha_accum_combined = 1) := by
  intro n
  induction n with
  | zero =>
    intro s
    simp [exec, HiddenPrefix]
  | succ n ih =>
    intro s
    have hcond : loopCond (A.withDropHidden true) s ↔ loopCond (A.withDropHidden false) s :=
      Iff.rfl
    obtain ⟨hnext, hret, hoob⟩ := step_hidden A s
    by_cases hc : loopCond (A.withDropHidden true) s
    · cases hst : step (A.withDropHidden true) s with
      | next e t =>
        obtain ⟨hsol, hf⟩ := hnext e t hst
        obtain ⟨ih1, ih2⟩ := ih t
        have ht : exec (A.withDropHidden true) (n + 1) s =
            (⟨s, e, t⟩ :: (exec (A.withDropHidden true) n t).1,
              (exec (A.withDropHidden true) n t).2) := by
          rw [exec, if_pos hc, hst]
        have hff : exec (A.withDropHidden false) (n + 1) s =
            (⟨s, e, t⟩ :: (exec (A.withDropHidden false) n t).1,
              (exec (A.withDropHidden false) n t).2) := by
          rw [exec, if_pos (hcond.mp hc), hf]
        rw [ht, hff]
        simp only [List.map_cons]
        constructor
        · rcases ih1 with ⟨heq, hno⟩ | ⟨pre, e1, post, h1, h1s, h2, h3, h4⟩
          · left
            refine ⟨by rw [heq], fun x hx => ?_⟩
            rcases List.mem_cons.mp hx with rfl | hx
            · exact hsol
            · exact hno x hx
          · right
            refine ⟨e :: pre, e1, post, h1, h1s, fun x hx => ?_, by rw [h3]; rfl, by rw [h4]; rfl⟩
            rcases List.mem_cons.mp hx with rfl | hx
            · exact hsol
            · exact h2 x hx
        · rintro ⟨x, hx, hxs⟩
          rw [finalOf_cons s t e _ (exec_iter_chain _ n t).2]
          apply ih2
          rcases List.mem_cons.mp hx with rfl | hx
          · rw [hsol] at hxs; cases hxs
          · exact ⟨x, hx, hxs⟩
      | ret e t =>
        obtain ⟨hsol, hsam, hone, u, hf⟩ := hret e t hst
        have ht : exec (A.withDropHidden true) (n + 1) s = ([⟨s, e, t⟩], Ending.returned) := by
          rw [exec, if_pos hc, hst]
        have hff : exec (A.withDropHidden false) (n + 1) s =
            (⟨s, e, u⟩ :: (exec (A.withDropHidden false) n u).1,
              (exec (A.withDropHidden false) n u).2) := by
          rw [exec, if_pos (hcond.mp hc), hf]
        rw [ht, hff]
        simp only [List.map_cons, List.map_nil]
        refine ⟨Or.inr ⟨[], e, _, hsol, hsam, by simp, rfl, rfl⟩, fun _ => ?_⟩
        simp only [finalOf, List.getLast?_singleton]
        exact hone
      | oob =>
        have ht : exec (A.withDropHidden true) (n + 1) s = ([], Ending.oob) := by
          rw [exec, if_pos hc, hst]
        have hff : exec (A.withDropHidden false) (n + 1) s = ([], Ending.oob) := by
          rw [exec, if_pos (hcond.mp hc), hoob hst]
        rw [ht, hff]
        simp [HiddenPrefix]
    · have ht : exec (A.withDropHidden true) (n + 1) s = ([], Ending.finished) := by
        rw [exec, if_neg hc]
      have hff : exec (A.withDropHidden false) (n + 1) s = ([], Ending.finished) := by
        rw [exec, if_neg (fun h => hc (hcond.mpr h))]
      rw [ht, hff]
      simp [HiddenPrefix]

theorem hiddenPrefix_filter (lt lf : List Emission) (h : HiddenPrefix lt lf) :
    HiddenPrefix (lt.filter Emission.isSample) (lf.filter Emission.isSample) := by
  rcases h with ⟨heq, hno⟩ | ⟨pre, e, post, h1, h1s, h2, h3, h4⟩
  · left
    exact ⟨by rw [heq], fun x hx => hno x (List.mem_filter.mp hx).1⟩
  · right
    refine ⟨pre.filter Emission.isSample, e, post.filter Emission.isSample, h1, h1s,
      fun x hx => h2 x (List.mem_filter.mp hx).1, ?_, ?_⟩
    · rw [h3, List.filter_append]
      simp [List.filter_cons, h1s]
    · rw [h4, List.filter_append]
      simp [List.filter_cons, h1s]

theorem hiddenPrefix_prefix (lt lf : List Emission) (h : HiddenPrefix lt lf) : lt <+: lf := by
  rcases h with ⟨heq, -⟩ | ⟨pre, e, post, -, -, -, h3, h4⟩
  · rw [heq]
  · exact ⟨post, by rw [h3, h4]; simp⟩

/-- The two runs at a pixel whose closest sample has alpha 1: the sample behind
it is emitted only with `drop_hidden` off. -/
theorem drop_hidden_cuts_at_solid :
    emitted (Args.withDropHidden ⟨[solidPixel], exampleChannels, fun _ => 1, true, true, 0⟩ true) =
        [Emission.weighted 1 [1, 1, 1, 5]] ∧
      emitted (Args.withDropHidden ⟨[solidPixel], exampleChannels, fun _ => 1, true, true, 0⟩ false) =
        [Emission.weighted 1 [1, 1, 1, 5], Emission.weighted (1 / 2) [2, 2, 1 / 2, 3]] := by
  with_unfolding_all decide

/-! ### Dropping transparent samples at threshold 0 -/

theorem setOut_selected (A : Args) (s : State) (o : List ℚ) :
    selected A { s with outPixel := o } = selected A s := rfl

theorem setOut_rawAlpha (A : Args) (s : State) (o : List ℚ) :
    rawAlpha A { s with outPixel := o } = rawAlpha A s := rfl

theorem setOut_newAlpha (A : Args) (s : State) (o : List ℚ) :
    newAlpha A { s with outPixel := o } = newAlpha A s := rfl

theorem setOut_accumNext (A : Args) (s : State) (o : List ℚ) :
    accumNext A { s with outPixel := o } = accumNext A s := rfl

theorem setOut_designatedNext (A : Args) (s : State) (o : List ℚ) :
    designatedNext A { s with outPixel := o } = designatedNext A s := rfl

theorem setOut_combinedNext (A : Args) (s : State) (o : List ℚ) :
    combinedNext A { s with outPixel := o } = combinedNext A s := rfl

theorem setOut_selectedPixel (A : Args) (s : State) (o : List ℚ) :
    selectedPixel A { s with outPixel := o } = selectedPixel A s := rfl

theorem setOut_invertedIndex (A : Args) (s : State) (o : List ℚ) :
    invertedIndex A { s with outPixel := o } = invertedIndex A s := rfl

theorem sameButOut_eq (s t : State) (h : SameButOut s t) :
    s = { t with outPixel := s.outPixel } := by
  obtain ⟨h1, h2, h3, h4, h5, h6⟩ := h
  cases s
  cases t
  simp only at h1 h2 h3 h4 h5 h6
  subst h1 h2 h3 h4 h5 h6
  rfl

/-- The loop body does not read the output pixel: started on another output
pixel it does the same and appends the same row. -/
theorem step_setOut (A : Args) (s : State) (o : List ℚ) :
    (∀ e t, step A s = Step.next e t →
      step A { s with outPixel := o } = Step.next e { t with outPixel := o ++ e.row }) ∧
    (∀ e t, step A s = Step.ret e t →
      step A { s with outPixel := o } = Step.ret e { t with outPixel := o ++ e.row }) ∧
    (step A s = Step.oob → step A { s with outPixel := o } = Step.oob) := by
  have h1 := step_eq A s
  have h2 := step_eq A { s with outPixel := o }
  simp only [setOut_selected, setOut_rawAlpha, setOut_newAlpha, setOut_accumNext,
    setOut_designatedNext, setOut_combinedNext, setOut_selectedPixel, setOut_invertedIndex]
    at h2
  rw [h1, h2]
  refine ⟨fun e t h => ?_, fun e t h => ?_, fun h => ?_⟩
  · split_ifs at h ⊢ with k1 k2 k3 k4 k5 <;>
      simp only [Step.next.injEq, reduceCtorEq] at h
    all_goals obtain ⟨rfl, rfl⟩ := h
    all_goals simp [advance, Emission.row]
  · split_ifs at h ⊢ with k1 k2 k3 k4 k5
    simp only [Step.ret.injEq, reduceCtorEq] at h
    obtain ⟨rfl, rfl⟩ := h
    simp [Emission.row]
  · split_ifs at h ⊢ with k1 k2 k3 k4 k5
    rfl

theorem zero_selected (A : Args) (s : State) : selected A.dropAtZero s = selected A s := rfl

theorem zero_rawAlpha (A : Args) (s : State) : rawAlpha A.dropAtZero s = rawAlpha A s := rfl

theorem zero_newAlpha (A : Args) (s : State) : newAlpha A.dropAtZero s = newAlpha A s := rfl

theorem zero_accumNext (A : Args) (s : State) : accumNext A.dropAtZero s = accumNext A s := rfl

theorem zero_designatedNext (A : Args) (s : State) : designatedNext A.dropAtZero s = designatedNext A s := rfl

theorem zero_combinedNext (A : Args) (s : State) : combinedNext A.dropAtZero s = combinedNext A s := rfl

theorem zero_selectedPixel (A : Args) (s : State) : selectedPixel A.dropAtZero s = selectedPixel A s := rfl

theorem zero_invertedIndex (A : Args) (s : State) : invertedIndex A.dropAtZero s = invertedIndex A s := rfl

theorem zero_sampleCount (A : Args) : A.dropAtZero.sampleCount = A.sampleCount := rfl

theorem zero_advance (A : Args) (a i : Nat) (s : State) :
    advance A.dropAtZero a i s = advance A a i s := rfl

theorem keep_selected (A : Args) (s : State) : selected A.keepTransparent s = selected A s := rfl

theorem keep_rawAlpha (A : Args) (s : State) : rawAlpha A.keepTransparent s = rawAlpha A s := rfl

theorem keep_newAlpha (A : Args) (s : State) : newAlpha A.keepTransparent s = newAlpha A s := rfl

theorem keep_accumNext (A : Args) (s : State) : accumNext A.keepTransparent s = accumNext A s := rfl

theorem keep_designatedNext (A : Args) (s : State) : designatedNext A.keepTransparent s = designatedNext A s := rfl

theorem keep_combinedNext (A : Args) (s : State) : combinedNext A.keepTransparent s = combinedNext A s := rfl

theorem keep_selectedPixel (A : Args) (s : State) : selectedPixel A.keepTransparent s = selectedPixel A s := rfl

theorem keep_invertedIndex (A : Args) (s : State) : invertedIndex A.keepTransparent s = invertedIndex A s := rfl

theorem keep_sampleCount (A : Args) : A.keepTransparent.sampleCount = A.sampleCount := rfl

theorem keep_advance (A : Args) (a i : Nat) (s : State) :
    advance A.keepTransparent a i s = advance A a i s := rfl

theorem zero_fields (A : Args) :
    A.dropAtZero.transparency_threshold = 0 ∧ A.dropAtZero.drop_transparent = true ∧
      A.dropAtZero.channels = A.channels ∧ A.dropAtZero.drop_hidden = A.drop_hidden :=
  ⟨rfl, rfl, rfl, rfl⟩

theorem keep_fields (A : Args) :
    A.keepTransparent.transparency_threshold = A.transparency_threshold ∧
      A.keepTransparent.drop_transparent = false ∧
      A.keepTransparent.channels = A.channels ∧
      A.keepTransparent.drop_hidden = A.drop_hidden :=
  ⟨rfl, rfl, rfl, rfl⟩

/-- The loop body with transparent samples dropped at threshold 0, against the
loop body that keeps them, from the same state: the accumulators move alike,
and a sample is emitted by the first exactly when the second emits it with a
non-zero alpha. -/
theorem step_atZero (A : Args) (s : State) (h0 : 0 ≤ rawAlpha A s)
    (hn : 0 ≤ newAlpha A s) :
    (∀ e t, step A.keepTransparent s = Step.next e t →
      ∃ eD tD, step A.dropAtZero s = Step.next eD tD ∧ SameButOut tD t ∧
        [eD].filter Emission.isSample =
          ([e].filter Emission.isSample).filter (fun x => decide (x.outAlpha ≠ 0))) ∧
    (∀ e t, step A.keepTransparent s = Step.ret e t →
      step A.dropAtZero s = Step.ret e t ∧ e.isSample = true ∧ e.outAlpha ≠ 0) ∧
    (step A.keepTransparent s = Step.oob → step A.dropAtZero s = Step.oob) := by
  have hK := step_eq A.keepTransparent s
  have hD := step_eq A.dropAtZero s
  simp only [zero_selected, zero_rawAlpha, zero_newAlpha, zero_accumNext, zero_designatedNext,
    zero_combinedNext, zero_selectedPixel, zero_invertedIndex, zero_sampleCount, zero_advance,
    keep_selected, keep_rawAlpha, keep_newAlpha, keep_accumNext, keep_designatedNext,
    keep_combinedNext, keep_selectedPixel, keep_invertedIndex, keep_sampleCount, keep_advance,
    (zero_fields A).1, (zero_fields A).2.1, (zero_fields A).2.2.1, (zero_fields A).2.2.2,
    (keep_fields A).1, (keep_fields A).2.1, (keep_fields A).2.2.1, (keep_fields A).2.2.2,
    and_true, Bool.false_eq_true, and_false, not_false_eq_true, if_true] at hK hD
  rw [hK, hD]
  refine ⟨fun e t h => ?_, fun e t h => ?_, fun h => ?_⟩
  · by_cases k1 : s.sampleNo (selected A s) < A.sampleCount (selected A s)
    · rw [if_pos k1] at h ⊢
      by_cases k3 : rawAlpha A s = 0
      · rw [if_pos k3] at h
        rw [if_neg (not_not.mpr (le_of_eq k3))]
        simp only [Step.next.injEq] at h
        obtain ⟨rfl, rfl⟩ := h
        refine ⟨_, _, rfl, ⟨rfl, rfl, rfl, rfl, rfl, rfl⟩, ?_⟩
        simp [Emission.isSample, Emission.outAlpha]
      · rw [if_neg k3] at h
        have hpos : ¬ rawAlpha A s ≤ 0 := fun hle => k3 (le_antisymm hle h0)
        rw [if_pos hpos, if_neg k3]
        by_cases k4 : newAlpha A s ≤ 0
        · have hz : newAlpha A s = 0 := le_antisymm k4 hn
          rw [if_neg (not_not.mpr k4)]
          rw [if_neg (by rw [hz]; simp)] at h
          simp only [Step.next.injEq] at h
          obtain ⟨rfl, rfl⟩ := h
          refine ⟨_, _, rfl, ⟨rfl, rfl, rfl, rfl, rfl, rfl⟩, ?_⟩
          simp [Emission.isSample, Emission.outAlpha, hz]
        · rw [if_pos k4]
          by_cases k5 : newAlpha A s = 1 ∧ A.drop_hidden = true
          · rw [if_pos k5] at h
            cases h
          · rw [if_neg k5] at h ⊢
            simp only [Step.next.injEq] at h
            obtain ⟨rfl, rfl⟩ := h
            refine ⟨_, _, rfl, ⟨rfl, rfl, rfl, rfl, rfl, rfl⟩, ?_⟩
            have : newAlpha A s ≠ 0 := fun hz => k4 (le_of_eq hz)
            simp [Emission.isSample, Emission.outAlpha, this]
    · rw [if_neg k1] at h
      cases h
  · by_cases k1 : s.sampleNo (selected A s) < A.sampleCount (selected A s)
    · rw [if_pos k1] at h ⊢
      by_cases k3 : rawAlpha A s = 0
      · rw [if_pos k3] at h
        cases h
      · rw [if_neg k3] at h
        have hpos : ¬ rawAlpha A s ≤ 0 := fun hle => k3 (le_antisymm hle h0)
        rw [if_pos hpos, if_neg k3]
        by_cases k5 : newAlpha A s = 1 ∧ A.drop_hidden = true
        · rw [if_pos k5] at h
          have k4 : ¬ newAlpha A s ≤ 0 := by rw [k5.1]; norm_num
          rw [if_pos k4, if_pos k5]
          simp only [Step.ret.injEq] at h
          obtain ⟨rfl, rfl⟩ := h
          refine ⟨rfl, rfl, ?_⟩
          simp [Emission.outAlpha, k5.1]
        · rw [if_neg k5] at h
          cases h
    · rw [if_neg k1] at h
      cases h
  · by_cases k1 : s.sampleNo (selected A s) < A.sampleCount (selected A s)
    · rw [if_pos k1] at h
      split_ifs at h
    · rw [if_neg k1]

theorem filter_cons_split {α : Type} (p : α → Bool) (x : α) (l : List α) :
    List.filter p (x :: l) = List.filter p [x] ++ List.filter p l := by
  rw [← List.filter_append]
  rfl

/-- For sample alphas in [0,1] and non-negative weights `new_alpha` is never
negative. -/
theorem newAlpha_nonneg (A : Args) (hα : AlphasInUnit A.inPixels) (hw : WeightsNonneg A)
    (s : State) (hs : BoundInv s) (hc : loopCond A s) : 0 ≤ newAlpha A s := by
  have hd := designatedNext_ge A hα hw s hs hc
  unfold newAlpha
  split_ifs with hlt
  · have hcd := hs.2.2.1 (lt_of_le_of_lt hd hlt)
    apply div_nonneg
    · rw [hcd]; linarith
    · rw [hcd]; linarith
  · exact (rawAlpha_range A s hα hc).1

theorem exec_atZero (A : Args) (hα : AlphasInUnit A.inPixels) (hw : WeightsNonneg A) :
    ∀ (n : Nat) (sD sK : State), SameButOut sD sK → BoundInv sK →
    ((exec A.dropAtZero n sD).1.map Iteration.emit).filter Emission.isSample =
        (((exec A.keepTransparent n sK).1.map Iteration.emit).filter Emission.isSample).filter
          (fun x => decide (x.outAlpha ≠ 0)) ∧
      (exec A.dropAtZero n sD).2 = (exec A.keepTransparent n sK).2 ∧
      SameButOut (finalOf sD (exec A.dropAtZero n sD).1)
        (finalOf sK (exec A.keepTransparent n sK).1) := by
  intro n
  induction n with
  | zero =>
    intro sD sK hsame _
    have hcond : loopCond A.dropAtZero sD ↔ loopCond A.keepTransparent sK := by
      unfold loopCond; rw [hsame.1]; exact Iff.rfl
    by_cases hc : loopCond A.keepTransparent sK
    · simp [exec, hc, hcond.mpr hc, finalOf, hsame]
    · simp [exec, hc, mt hcond.mp hc, finalOf, hsame]
  | succ n ih =>
    intro sD sK hsame hb
    have hcond : loopCond A.dropAtZero sD ↔ loopCond A.keepTransparent sK := by
      unfold loopCond; rw [hsame.1]; exact Iff.rfl
    have hsD := sameButOut_eq sD sK hsame
    by_cases hc : loopCond A.keepTransparent sK
    · have h0 : 0 ≤ rawAlpha A sK := (rawAlpha_range A.keepTransparent sK hα hc).1
      have hn : 0 ≤ newAlpha A sK := newAlpha_nonneg A.keepTransparent hα hw sK hb hc
      obtain ⟨hnext, hret, hoob⟩ := step_atZero A sK h0 hn
      obtain ⟨onext, oret, ooob⟩ := step_setOut A.dropAtZero sK sD.outPixel
      rw [← hsD] at onext oret ooob
      cases hst : step A.keepTransparent sK with
      | next eK tK =>
        obtain ⟨eD, tD1, hD, hsame1, hcorr⟩ := hnext eK tK hst
        have hDD := onext eD tD1 hD
        have hsame2 : SameButOut { tD1 with outPixel := sD.outPixel ++ eD.row } tK := hsame1
        have hb2 : BoundInv tK :=
          (boundInv_step A.keepTransparent hα hw sK tK hb ⟨hc, eK, Or.inl hst⟩).1
        obtain ⟨ih1, ih2, ih3⟩ := ih _ tK hsame2 hb2
        have eqD : exec A.dropAtZero (n + 1) sD =
            (⟨sD, eD, { tD1 with outPixel := sD.outPixel ++ eD.row }⟩ ::
              (exec A.dropAtZero n { tD1 with outPixel := sD.outPixel ++ eD.row }).1,
              (exec A.dropAtZero n { tD1 with outPixel := sD.outPixel ++ eD.row }).2) := by
          rw [exec, if_pos (hcond.mpr hc), hDD]
        have eqK : exec A.keepTransparent (n + 1) sK =
            (⟨sK, eK, tK⟩ :: (exec A.keepTransparent n tK).1,
              (exec A.keepTransparent n tK).2) := by
          rw [exec, if_pos hc, hst]
        rw [eqD, eqK]
        refine ⟨?_, ih2, ?_⟩
        · simp only [List.map_cons]
          rw [filter_cons_split Emission.isSample eD, filter_cons_split Emission.isSample eK,
            List.filter_append, hcorr, ih1]
        · rw [finalOf_cons _ _ _ _ (exec_iter_chain _ n _).2,
            finalOf_cons _ _ _ _ (exec_iter_chain _ n _).2]
          exact ih3
      | ret eK tK =>
        obtain ⟨hD, hsam, hnz⟩ := hret eK tK hst
        have hDD := oret eK tK hD
        have eqD : exec A.dropAtZero (n + 1) sD =
            ([⟨sD, eK, { tK with outPixel := sD.outPixel ++ eK.row }⟩], Ending.returned) := by
          rw [exec, if_pos (hcond.mpr hc), hDD]
        have eqK : exec A.keepTransparent (n + 1) sK = ([⟨sK, eK, tK⟩], Ending.returned) := by
          rw [exec, if_pos hc, hst]
        rw [eqD, eqK]
        refine ⟨?_, rfl, ?_⟩
        · simp [List.filter_cons, hsam, hnz]
        · simp only [finalOf, List.getLast?_singleton]
          exact ⟨rfl, rfl, rfl, rfl, rfl, rfl⟩
      | oob =>
        have hDD := ooob (hoob hst)
        have eqD : exec A.dropAtZero (n + 1) sD = ([], Ending.oob) := by
          rw [exec, if_pos (hcond.mpr hc), hDD]
        have eqK : exec A.keepTransparent (n + 1) sK = ([], Ending.oob) := by
          rw [exec, if_pos hc, hst]
        rw [eqD, eqK]
        exact ⟨by simp, rfl, by simpa [finalOf] using hsame⟩
    · have eqD : exec A.dropAtZero (n + 1) sD = ([], Ending.finished) := by
        rw [exec, if_neg (mt hcond.mp hc)]
      have eqK : exec A.keepTransparent (n + 1) sK = ([], Ending.finished) := by
        rw [exec, if_neg hc]
      rw [eqD, eqK]
      exact ⟨by simp, rfl, by simpa [finalOf] using hsame⟩

/-- In exact arithmetic: for sample alphas in [0,1] and non-negative weights, with either
value of `drop_hidden`: the samples emitted with `drop_transparent` on and
threshold 0 are the samples emitted with `drop_transparent` off, in the same
order and with the same channel values, without those whose alpha is 0 (the
passed-through samples and the re-weighted samples with `new_alpha = 0`); both
calls leave their loop the same way and with the same `alpha_accum`,
`designated_alpha_accum` and `alpha_accum_combined`. -/
theorem drop_at_zero_filters (A : Args) (hα : AlphasInUnit A.inPixels) (hw : WeightsNonneg A) :
    emitted A.dropAtZero =
        (emitted A.keepTransparent).filter (fun x => decide (x.outAlpha ≠ 0)) ∧
      (finalState A.dropAtZero).outPixel =
        (((emitted A.keepTransparent).filter (fun x => decide (x.outAlpha ≠ 0))).map
          Emission.row).flatten ∧
      ending A.dropAtZero = ending A.keepTransparent ∧
      SameButOut (finalState A.dropAtZero) (finalState A.keepTransparent) := by
  obtain ⟨h1, h2, h3⟩ := exec_atZero A hα hw A.budget (init A) (init A)
    ⟨rfl, rfl, rfl, rfl, rfl, rfl⟩ (boundInv_init A)
  refine ⟨h1, ?_, h2, h3⟩
  have ho := exec_out A.dropAtZero A.budget (init A)
  have hrows : ∀ l : List Emission,
      (l.map Emission.row).flatten = ((l.filter Emission.isSample).map Emission.row).flatten := by
    intro l
    induction l with
    | nil => rfl
    | cons e l ih =>
      cases e <;> simp [List.filter_cons, Emission.isSample, Emission.row, ih]
  show (finalOf (init A) (exec A.dropAtZero A.budget (init A)).1).outPixel = _
  rw [ho, hrows, h1]
  rfl

/-! ### Mixing two single-sample pixels -/

theorem mix_two_solid_first (fB bB c1 fA bA c2 : ℚ) (w : Nat → ℚ) (hw0 : w 0 = 1 / 2)
    (hw1 : w 1 = 1 / 2) (hA : fA < FLT_MAX) (hBA : fB ≤ fA) :
    combineDeepPixels [mkPixel exampleChannels [mkSample fB bB 1 c1],
        mkPixel exampleChannels [mkSample fA bA 1 c2]] exampleChannels w false false 0 =
      some [fB, bB, 1 / 2, c1 / 2, fA, bA, 1, c2] := by
  have hfmax : ¬ FLT_MAX < fA := not_lt.mpr (le_of_lt hA)
  have h1 : ¬ fA < fB := not_lt.mpr hBA
  unfold combineDeepPixels
  simp [ending, finalState, finalOf, iterations, Args.budget, Args.amount, accumulate,
    Args.sampleCount, exec, loopCond, init, step, min_element, advance, mkPixel,
    DeepPixel.getSampleCount, DeepPixel.getOrderedSample, exampleChannels, mkSample,
    emptyPixel, Function.update_apply, passthroughRow, weightedRow, hw0, hw1, h1, hfmax, hA,
    not_le.mpr hA]
  norm_num
  ring

theorem mix_two_solid_second (fB bB c1 fA bA c2 : ℚ) (w : Nat → ℚ) (hw0 : w 0 = 1 / 2)
    (hw1 : w 1 = 1 / 2) (hB : fB < FLT_MAX) (hAB : fA < fB) :
    combineDeepPixels [mkPixel exampleChannels [mkSample fB bB 1 c1],
        mkPixel exampleChannels [mkSample fA bA 1 c2]] exampleChannels w false false 0 =
      some [fA, bA, 1 / 2, c2 / 2, fB, bB, 1, c1] := by
  have hfmax : ¬ FLT_MAX < fB := not_lt.mpr (le_of_lt hB)
  unfold combineDeepPixels
  simp [ending, finalState, finalOf, iterations, Args.budget, Args.amount, accumulate,
    Args.sampleCount, exec, loopCond, init, step, min_element, advance, mkPixel,
    DeepPixel.getSampleCount, DeepPixel.getOrderedSample, exampleChannels, mkSample,
    emptyPixel, Function.update_apply, passthroughRow, weightedRow, hw0, hw1, hAB, hfmax, hB,
    not_le.mpr hB]
  norm_num
  ring

theorem withResize_initial (k : ReformatKnobs) (r : ResizeType) (w h : ℚ) :
    initialScaleFactor (k.withResize r) w h = initialScaleFactor k w h := rfl

theorem withResize_aspect (k : ReformatKnobs) (r : ResizeType) (a : ℚ) :
    outPixelAspect (k.withResize r) a = outPixelAspect k a := rfl

theorem calculate_withResize (k : ReformatKnobs) (r : ResizeType) (w h a : ℚ) :
    calculateScaleFactor (k.withResize r) w h a =
      resizeScaleFactor r (initialScaleFactor k w h) (outPixelAspect k a) a := rfl

/-- Fit against fill on the array `scale_factor`, for positive pixel aspects. -/
theorem resize_fill_below_fit (sf : ℚ × ℚ) (out a : ℚ) (ha : 0 < a) (hout : 0 < out) :
    (resizeScaleFactor ResizeType.fill sf out a).1 ≤
        (resizeScaleFactor ResizeType.fit sf out a).1 ∧
      (resizeScaleFactor ResizeType.fill sf out a).2 ≤
        (resizeScaleFactor ResizeType.fit sf out a).2 ∧
      ((resizeScaleFactor ResizeType.fill sf out a).1 =
          (resizeScaleFactor ResizeType.fit sf out a).1 ↔ sf.1 * a = sf.2 * out) ∧
      ((resizeScaleFactor ResizeType.fill sf out a).2 =
          (resizeScaleFactor ResizeType.fit sf out a).2 ↔ sf.1 * a = sf.2 * out) := by
  obtain ⟨p, q⟩ := sf
  simp only [resizeScaleFactor]
  by_cases he : out = a
  · subst he
    simp only [if_true]
    have hiff : p * out = q * out ↔ p = q := by
      constructor
      · intro h
        exact mul_right_cancel₀ (ne_of_gt hout) h
      · intro h
        rw [h]
    rw [hiff]
    have hmm : min p q = max p q ↔ p = q := by
      rcases le_total p q with hpq | hpq
      · rw [min_eq_left hpq, max_eq_right hpq]
      · rw [min_eq_right hpq, max_eq_left hpq]
        exact eq_comm
    exact ⟨min_le_max, min_le_max, hmm, hmm⟩
  · simp only [if_neg he]
    have key : q * out / a = p ↔ p * a = q * out := by
      rw [div_eq_iff (ne_of_gt ha)]
      exact eq_comm
    have key2 : p * a / out = q ↔ p * a = q * out := by
      rw [div_eq_iff (ne_of_gt hout)]
    have lt1 : p < q * out / a ↔ p * a < q * out := by
      rw [lt_div_iff₀ ha]
    have lt2 : q * out / a < p ↔ q * out < p * a := by
      rw [div_lt_iff₀ ha]
    rcases lt_trichotomy p (q * out / a) with hlt | heq | hgt
    · have hn : ¬ p > q * out / a := not_lt.mpr (le_of_lt hlt)
      simp only [if_pos hlt, if_neg hn]
      have h1 := lt1.mp hlt
      have hq : p * a / out < q := by
        rw [div_lt_iff₀ hout]
        exact h1
      exact ⟨le_of_lt hlt, le_of_lt hq,
        ⟨fun h => absurd h (ne_of_lt hlt), fun h => absurd h (ne_of_lt h1)⟩,
        ⟨fun h => absurd h (ne_of_lt hq), fun h => absurd h (ne_of_lt h1)⟩⟩
    · have hn1 : ¬ p > q * out / a := by rw [heq]; exact lt_irrefl _
      have hn2 : ¬ p < q * out / a := by rw [heq]; exact lt_irrefl _
      simp only [if_neg hn1, if_neg hn2]
      have h1 := key.mp heq.symm
      exact ⟨le_refl _, le_refl _, ⟨fun _ => h1, fun _ => trivial⟩, ⟨fun _ => h1, fun _ => trivial⟩⟩
    · have hn : ¬ p < q * out / a := not_lt.mpr (le_of_lt hgt)
      simp only [if_pos hgt, if_neg hn]
      have h1 := lt2.mp hgt
      have hq : q < p * a / out := by
        rw [lt_div_iff₀ hout]
        exact h1
      exact ⟨le_of_lt hgt, le_of_lt hq,
        ⟨fun h => absurd h (ne_of_lt hgt), fun h => absurd h.symm (ne_of_lt h1)⟩,
        ⟨fun h => absurd h (ne_of_lt hq), fun h => absurd h.symm (ne_of_lt h1)⟩⟩

/-- Fill leaves positive factors when the per-axis factors and the pixel aspects
are positive. -/
theorem resize_fill_pos (sf : ℚ × ℚ) (out a : ℚ) (ha : 0 < a) (hout : 0 < out)
    (h1 : 0 < sf.1) (h2 : 0 < sf.2) :
    0 < (resizeScaleFactor ResizeType.fill sf out a).1 ∧
      0 < (resizeScaleFactor ResizeType.fill sf out a).2 := by
  obtain ⟨p, q⟩ := sf
  simp only [resizeScaleFactor]
  have hp : 0 < p := h1
  have hq : 0 < q := h2
  split_ifs
  · exact ⟨lt_min hp hq, lt_min hp hq⟩
  · exact ⟨hp, div_pos (mul_pos hp ha) hout⟩
  · exact ⟨div_pos (mul_pos hq hout) ha, hq⟩

/-- One input of weight 1 with both drop switches off comes out as it went in. -/
theorem combine_single (P : DeepPixel) (channels : ChannelSet) (weight : Nat → ℚ)
    (thr : ℚ) (hw : weight 0 = 1) :
    combineDeepPixels [P] channels weight false false thr =
      some ((P.ordered.reverse.map (sampleRow P channels)).flatten) := by
  have hinv : SingleInv (init (singleArgs P channels weight thr)) := by
    simp [SingleInv, init]
  have hbud : (singleArgs P channels weight thr).budget = P.ordered.length := by
    simp [Args.budget, Args.amount, singleArgs, accumulate, Args.sampleCount,
      DeepPixel.getSampleCount]
  obtain ⟨h1, h2⟩ := single_exec P channels weight thr hw
    (singleArgs P channels weight thr).budget (init (singleArgs P channels weight thr)) hinv
    (by rw [hbud]; simp [init])
  have hout := exec_out (singleArgs P channels weight thr)
    (singleArgs P channels weight thr).budget (init (singleArgs P channels weight thr))
  rw [List.map_map] at hout
  have hcomp : (Emission.row ∘ Iteration.emit) = (fun it => it.emit.row) := rfl
  rw [hcomp, h2] at hout
  unfold combineDeepPixels
  show (match ending (singleArgs P channels weight thr) with
    | Ending.finished => some (finalState (singleArgs P channels weight thr)).outPixel
    | Ending.returned => some (finalState (singleArgs P channels weight thr)).outPixel
    | _ => none) = _
  have hend : ending (singleArgs P channels weight thr) = Ending.finished := h1
  rw [hend]
  simp only [finalState, iterations]
  rw [hout]
  simp [init]

theorem truncInt_intCast (n : Int) : truncInt (n : ℚ) = n := by
  unfold truncInt
  split_ifs
  · exact Int.floor_intCast n
  · exact Int.ceil_intCast n

theorem noneSource_zero (it : Pos) : noneSource (0, 0) it = it := by
  obtain ⟨x, y⟩ := it
  simp only [noneSource, add_zero, truncInt_intCast]

/-- In exact arithmetic: under resize type none, when the translation of the
matrix is zero (centring on an input whose format is the target format, the
integer half size of the input being the centre of the format) and both drop
switches of the node are off, the engine gathers for the output position
`(x, y)` exactly the input pixel at `(x, y)`, gives it the weight 1, and the
output pixel holds the samples of that input pixel unchanged. -/
theorem reformat_none_identity (k : ReformatKnobs) (channels : ChannelSet)
    (inPlane : Pos → DeepPixel) (w h center_x center_y : ℚ) (it : Pos)
    (htr : noneTranslation k w h center_x center_y = (0, 0))
    (hh : k._drop_hidden = false) (ht : k._drop_transparent = false) :
    noneInPixels inPlane (noneTranslation k w h center_x center_y) it = [inPlane it] ∧
      noneWeight 0 = 1 ∧
      reformatPixelNone k channels inPlane w h center_x center_y it =
        some (((inPlane it).ordered.reverse.map (sampleRow (inPlane it) channels)).flatten) := by
  have hin : noneInPixels inPlane (noneTranslation k w h center_x center_y) it =
      [inPlane it] := by
    rw [htr, noneInPixels, noneSource_zero]
  refine ⟨hin, rfl, ?_⟩
  unfold reformatPixelNone
  rw [hin, hh, ht]
  exact combine_single (inPlane it) channels noneWeight k._threshold rfl

/-- In exact arithmetic, with the drop switches at their defaults (both on,
threshold 0): for an input of the target format 4 x 4 whose pixels hold an opaque
sample in front of a half-transparent one, the output pixel at (1, 1) merges
the input pixel at (1, 1) alone, yet holds the opaque sample only. -/
theorem reformat_none_counterexample :
    noneTranslation (noneKnobs true true) 4 4 2 2 = (0, 0) ∧
      noneInPixels (fun _ => solidPixel) (noneTranslation (noneKnobs true true) 4 4 2 2)
          (1, 1) = [solidPixel] ∧
      reformatPixelNone (noneKnobs true true) exampleChannels (fun _ => solidPixel) 4 4 2 2
          (1, 1) = some [1, 1, 1, 5] ∧
      (solidPixel.ordered.reverse.map (sampleRow solidPixel exampleChannels)).flatten =
          [1, 1, 1, 5, 2, 2, 1 / 2, 3] ∧
      reformatPixelNone (noneKnobs true true) exampleChannels (fun _ => solidPixel) 4 4 2 2
          (1, 1) ≠
        some ((solidPixel.ordered.reverse.map (sampleRow solidPixel exampleChannels)).flatten) := by
  have htr : noneTranslation (noneKnobs true true) 4 4 2 2 = (0, 0) := by
    simp only [noneTranslation, noneKnobs, if_true]
    have h2 : ((4 : ℚ) * (1 / 2)) = ((2 : Int) : ℚ) := by norm_num
    rw [h2, truncInt_intCast]
    norm_num
  have hin : noneInPixels (fun _ => solidPixel)
      (noneTranslation (noneKnobs true true) 4 4 2 2) (1, 1) = [solidPixel] := by
    rw [htr]
    rfl
  have hout : reformatPixelNone (noneKnobs true true) exampleChannels (fun _ => solidPixel)
      4 4 2 2 (1, 1) = some [1, 1, 1, 5] := by
    unfold reformatPixelNone
    rw [hin]
    with_unfolding_all decide
  have hrows : (solidPixel.ordered.reverse.map (sampleRow solidPixel exampleChannels)).flatten =
      [1, 1, 1, 5, 2, 2, 1 / 2, 3] := by
    with_unfolding_all decide
  refine ⟨htr, hin, hout, hrows, ?_⟩
  rw [hout, hrows]
  intro hEq
  have := congrArg (Option.map List.length) hEq
  simp at this

/-- Resize type none in exact arithmetic, for an input of the target format
4 x 4 whose pixels
hold an opaque sample in front of a half-transparent one. -/
theorem reformat_none_identity_witness :
    noneTranslation (noneKnobs false false) 4 4 2 2 = (0, 0) ∧
      (noneKnobs false false)._drop_hidden = false ∧
      (noneKnobs false false)._drop_transparent = false ∧
      reformatPixelNone (noneKnobs false false) exampleChannels (fun _ => solidPixel) 4 4 2 2
          (1, 1) =
        some ((solidPixel.ordered.reverse.map (sampleRow solidPixel exampleChannels)).flatten) :=
  have htr : noneTranslation (noneKnobs false false) 4 4 2 2 = (0, 0) := by
    simp only [noneTranslation, noneKnobs, if_true]
    have h2 : ((4 : ℚ) * (1 / 2)) = ((2 : Int) : ℚ) := by norm_num
    rw [h2, truncInt_intCast]
    norm_num
  ⟨htr, rfl, rfl,
    (reformat_none_identity (noneKnobs false false) exampleChannels (fun _ => solidPixel)
      4 4 2 2 (1, 1) htr rfl rfl).2.2⟩

/-- The filter at threshold 0 in exact arithmetic, at a pixel with a fully
transparent sample in front of a
half-transparent one. -/
theorem drop_at_zero_filters_witness :
    AlphasInUnit (Args.mk [clearPixel] exampleChannels (fun _ => 1) true true 0).inPixels ∧
      WeightsNonneg (Args.mk [clearPixel] exampleChannels (fun _ => 1) true true 0) ∧
      emitted (Args.mk [clearPixel] exampleChannels (fun _ => 1) true true 0).dropAtZero =
        (emitted (Args.mk [clearPixel] exampleChannels (fun _ => 1) true true
          0).keepTransparent).filter (fun x => decide (x.outAlpha ≠ 0)) :=
  ⟨by with_unfolding_all decide, by with_unfolding_all decide,
    (drop_at_zero_filters (Args.mk [clearPixel] exampleChannels (fun _ => 1) true true 0)
      (by with_unfolding_all decide) (by with_unfolding_all decide)).1⟩

/-! ### Single-precision runs at concrete inputs -/

/-- Claim C1 fails in single precision for the pixel with a sample of alpha 1/2
and colour 3 at depth 1 in front of a sample of alpha `2 ^ -30` and colour 5 at
depth 2: line 78 absorbs the small alpha (`0.5 + 2 ^ -31` rounds to `0.5`), so
`new_alpha` is 0 and the far sample is emitted with alpha 0 and colour 0. -/
theorem single_input_absorbed_counterexample :
    (Binary32.singleArgs Binary32.absorbedPixel).isRepresentable = true ∧
      Binary32.alphasInUnit [Binary32.absorbedPixel] = true ∧
      (Binary32.absorbedPixel.ordered.reverse.map
          (Binary32.sampleRow Binary32.absorbedPixel exampleChannels)).flatten =
        [1, 1, F32.scaled 1 (-1), F32.scaled 3 0,
          F32.scaled 2 0, F32.scaled 2 0, F32.scaled 1 (-30), F32.scaled 5 0] ∧
      Binary32.combineDeepPixels [Binary32.absorbedPixel] exampleChannels (fun _ => 1)
          false false 0 =
        some [1, 1, F32.scaled 1 (-1), F32.scaled 3 0, F32.scaled 2 0, F32.scaled 2 0, 0, 0] ∧
      Binary32.combineDeepPixels [Binary32.absorbedPixel] exampleChannels (fun _ => 1)
          false false 0 ≠
        some ((Binary32.absorbedPixel.ordered.reverse.map
          (Binary32.sampleRow Binary32.absorbedPixel exampleChannels)).flatten) := by
  decide!

/-- Claim C2 fails in single precision for the inputs `saturatingB` and
`saturatingA` with the weights `0x1.9ba43cp-1` and `0x1.916f10p-3` (alphas in
[0,1], weights non-negative, of sum exactly 1): the fourth iteration re-weights
a sample and leaves `alpha_accum_combined` at 1 while `designated_alpha_accum`
is `0x1.fffffep-1`. -/
theorem weighted_average_rounding_counterexample :
    Binary32.saturatingArgs.isRepresentable = true ∧
      Binary32.alphasInUnit Binary32.saturatingArgs.inPixels = true ∧
      Binary32.weightsNonneg Binary32.saturatingArgs = true ∧
      Binary32.weightSum Binary32.saturatingArgs = 1 ∧
      ((Binary32.iterations Binary32.saturatingArgs).map (fun it =>
          (it.emit.reweighted, it.post.alpha_accum_combined,
            it.post.designated_alpha_accum))).getD 3 (none, 0, 0) =
        (some 1, 1, F32.scaled 0x1fffffe (-25)) ∧
      F32.eq 1 (F32.scaled 0x1fffffe (-25)) = false := by
  decide!

/-- Claim C3 fails in single precision for the single input `driftPixel` with
weight 1: the third iteration lowers `alpha_accum_combined` from
`10568467 * 2 ^ -24` to `10568466 * 2 ^ -24`. -/
theorem combined_alpha_decreases_counterexample :
    (Binary32.singleArgs Binary32.driftPixel).isRepresentable = true ∧
      Binary32.alphasInUnit [Binary32.driftPixel] = true ∧
      Binary32.weightsNonneg (Binary32.singleArgs Binary32.driftPixel) = true ∧
      ((Binary32.trace (Binary32.singleArgs Binary32.driftPixel)).map
          (fun s => s.alpha_accum_combined)).getD 2 0 = F32.scaled 10568467 (-24) ∧
      ((Binary32.trace (Binary32.singleArgs Binary32.driftPixel)).map
          (fun s => s.alpha_accum_combined)).getD 3 0 = F32.scaled 10568466 (-24) ∧
      F32.lt (F32.scaled 10568466 (-24)) (F32.scaled 10568467 (-24)) = true := by
  decide!

/-- Claim C4 fails in single precision for the inputs `thresholdNear` and
`thresholdFar` with the weights `0x1.0a0ec4p-3` and `0x1.12d1a4p-1` and the
threshold `t = 0x1.f7b56cp-9`: the second sample has `new_alpha = 0x1.f7b56ep-9`,
above `t`, and is emitted, but its alpha channel value
`alpha * (new_alpha / alpha)` rounds to `t` itself. -/
theorem threshold_rounding_counterexample :
    Binary32.thresholdArgs.isRepresentable = true ∧
      F32.le 0 Binary32.thresholdValue = true ∧ F32.lt Binary32.thresholdValue 1 = true ∧
      (Binary32.emitted Binary32.thresholdArgs).map Binary32.Emission.reweighted =
        [some (F32.scaled 1089771 (-23)), some (F32.scaled 0x1f7b56e (-33))] ∧
      Binary32.combineDeepPixels [Binary32.thresholdNear, Binary32.thresholdFar] exampleChannels
          Binary32.thresholdWeights false true Binary32.thresholdValue =
        some [1, 1, F32.scaled 1089771 (-23), F32.scaled 4359089 (-25),
          F32.scaled 2 0, F32.scaled 2 0, Binary32.thresholdValue, F32.scaled 10349823 (-24)] ∧
      F32.le Binary32.thresholdValue Binary32.thresholdValue = true := by
  decide!

/-- Claim C15 at the keymix of `saturatingB` and `saturatingA` with mask value
`0x1.916f10p-3` (weights `0x1.9ba43cp-1` and `0x1.916f10p-3`, both drop switches
off): before the fifth iteration `alpha_accum_combined` is 1; the iteration
finds `designated_alpha_accum` below 1, evaluates the quotient of line 83 with
the divisor `1 - alpha_accum_combined = 0`, gets `new_alpha = -inf`, leaves
`alpha_accum_combined` a NaN and emits a sample of alpha `-inf`. -/
theorem zero_divisor_after_rounding :
    Binary32.saturatingArgs.isRepresentable = true ∧
      Binary32.alphasInUnit Binary32.saturatingArgs.inPixels = true ∧
      Binary32.weightsNonneg Binary32.saturatingArgs = true ∧
      Binary32.weightSum Binary32.saturatingArgs = 1 ∧
      ((Binary32.iterations Binary32.saturatingArgs).map (fun it =>
          (it.pre.alpha_accum_combined,
            F32.lt (Binary32.designatedNext Binary32.saturatingArgs it.pre) 1,
            (1 : F32) - it.pre.alpha_accum_combined,
            Binary32.newAlpha Binary32.saturatingArgs it.pre,
            it.emit.reweighted,
            it.post.alpha_accum_combined))).getD 4 (0, false, 0, 0, none, 0) =
        (1, true, 0, F32.infinite true, some (F32.infinite true), F32.nan) ∧
      (Binary32.combineDeepPixels [Binary32.saturatingB, Binary32.saturatingA] exampleChannels
          Binary32.saturatingWeights false false 0).map (fun out => out.drop 16) =
        some [F32.scaled 9 0, F32.scaled 9 0, F32.infinite true, F32.infinite true] := by
  decide!

/-- Claim C19 fails in single precision for the single input `driftPixel` with
weight 1: the third sample gets the negative `new_alpha = -2833451 * 2 ^ -44`;
with `drop_transparent` on and threshold 0 it is dropped, with `drop_transparent`
off it is emitted, and its alpha channel value is not 0 (nor is that of any
other emitted sample), so removing the samples of output alpha 0 from the second
output does not give the first. -/
theorem drop_at_zero_rounding_counterexample :
    (Binary32.singleArgs Binary32.driftPixel).isRepresentable = true ∧
      Binary32.alphasInUnit [Binary32.driftPixel] = true ∧
      Binary32.weightsNonneg (Binary32.singleArgs Binary32.driftPixel) = true ∧
      (Binary32.emitted ⟨[Binary32.driftPixel], exampleChannels, fun _ => 1, false, true, 0⟩).map
          Binary32.Emission.reweighted =
        [some (F32.scaled 15743245 (-26)), some (F32.scaled 8665523 (-24)),
          some (F32.scaled 66409 (-33))] ∧
      (Binary32.emitted ⟨[Binary32.driftPixel], exampleChannels, fun _ => 1, false, false, 0⟩).map
          Binary32.Emission.reweighted =
        [some (F32.scaled 15743245 (-26)), some (F32.scaled 8665523 (-24)),
          some (F32.finite true (2833451 * F32.pow2 (-44))), some (F32.scaled 66409 (-33))] ∧
      (Binary32.emitted ⟨[Binary32.driftPixel], exampleChannels, fun _ => 1, false, false, 0⟩).map
          (fun e => (e.row.getD 2 0, F32.eq (e.row.getD 2 0) 0)) =
        [(F32.scaled 15743245 (-26), false), (F32.scaled 8665523 (-24), false),
          (F32.finite true (2833451 * F32.pow2 (-44)), false),
          (F32.scaled 66409 (-33), false)] ∧
      (Binary32.combineDeepPixels [Binary32.driftPixel] exampleChannels (fun _ => 1)
          false true 0).map List.length = some 12 ∧
      (Binary32.combineDeepPixels [Binary32.driftPixel] exampleChannels (fun _ => 1)
          false false 0).map List.length = some 16 := by
  decide!

/-! ### The single-precision loop body by its named quantities -/

theorem b32_step_eq (A : Binary32.Args) (s : Binary32.State) :
    Binary32.step A s =
      if s.sampleNo (Binary32.selected A s) < A.sampleCount (Binary32.selected A s) then
        if !(F32.le (Binary32.rawAlpha A s) A.transparency_threshold && A.drop_transparent) then
          if F32.eq (Binary32.rawAlpha A s) 0 then
            Binary32.Step.next (Binary32.Emission.passthrough
                (Binary32.passthroughRow (Binary32.selectedPixel A s) A.channels
                  (Binary32.invertedIndex A s)))
              (Binary32.advance A (Binary32.selected A s) (Binary32.invertedIndex A s)
                { s with
                  alpha := Function.update s.alpha (Binary32.selected A s) (Binary32.rawAlpha A s)
                  outPixel := s.outPixel ++
                    Binary32.passthroughRow (Binary32.selectedPixel A s) A.channels
                      (Binary32.invertedIndex A s) })
          else
            if !(F32.le (Binary32.newAlpha A s) A.transparency_threshold &&
                A.drop_transparent) then
              if F32.eq (Binary32.newAlpha A s) 1 && A.drop_hidden then
                Binary32.Step.ret (Binary32.Emission.weighted (Binary32.newAlpha A s)
                    (Binary32.weightedRow (Binary32.selectedPixel A s) A.channels
                      (Binary32.invertedIndex A s)
                      (Binary32.newAlpha A s / Binary32.rawAlpha A s)))
                  { s with
                    alpha := Function.update s.alpha (Binary32.selected A s)
                      (Binary32.rawAlpha A s)
                    alpha_accum := Function.update s.alpha_accum (Binary32.selected A s)
                      (Binary32.accumNext A s)
                    designated_alpha_accum := Binary32.designatedNext A s
                    alpha_accum_combined := Binary32.combinedNext A s
                    outPixel := s.outPixel ++
                      Binary32.weightedRow (Binary32.selectedPixel A s) A.channels
                        (Binary32.invertedIndex A s)
                        (Binary32.newAlpha A s / Binary32.rawAlpha A s) }
              else
                Binary32.Step.next (Binary32.Emission.weighted (Binary32.newAlpha A s)
                    (Binary32.weightedRow (Binary32.selectedPixel A s) A.channels
                      (Binary32.invertedIndex A s)
                      (Binary32.newAlpha A s / Binary32.rawAlpha A s)))
                  (Binary32.advance A (Binary32.selected A s) (Binary32.invertedIndex A s)
                    { s with
                      alpha := Function.update s.alpha (Binary32.selected A s)
                        (Binary32.rawAlpha A s)
                      alpha_accum := Function.update s.alpha_accum (Binary32.selected A s)
                        (Binary32.accumNext A s)
                      designated_alpha_accum := Binary32.designatedNext A s
                      alpha_accum_combined := Binary32.combinedNext A s
                      outPixel := s.outPixel ++
                        Binary32.weightedRow (Binary32.selectedPixel A s) A.channels
                          (Binary32.invertedIndex A s)
                          (Binary32.newAlpha A s / Binary32.rawAlpha A s) })
            else
              Binary32.Step.next (Binary32.Emission.dropped (Binary32.newAlpha A s))
                (Binary32.advance A (Binary32.selected A s) (Binary32.invertedIndex A s)
                  { s with
                    alpha := Function.update s.alpha (Binary32.selected A s)
                      (Binary32.rawAlpha A s)
                    alpha_accum := Function.update s.alpha_accum (Binary32.selected A s)
                      (Binary32.accumNext A s)
                    designated_alpha_accum := Binary32.designatedNext A s
                    alpha_accum_combined := Binary32.combinedNext A s })
        else
          Binary32.Step.next Binary32.Emission.skipped
            (Binary32.advance A (Binary32.selected A s) (Binary32.invertedIndex A s)
              { s with
                alpha := Function.update s.alpha (Binary32.selected A s)
                  (Binary32.rawAlpha A s) })
      else Binary32.Step.oob := rfl

/-! ### Exact reading of the data of a call -/

theorem toRat_zero : (0 : F32).toRat = 0 := by
  show F32.signed false 0 = 0
  simp [F32.signed]

theorem toRat_one : (1 : F32).toRat = 1 := by
  show F32.signed false 1 = 1
  simp [F32.signed]

theorem isFinite_zero : (0 : F32).isFinite = true := rfl

theorem isFinite_one : (1 : F32).isFinite = true := rfl

theorem toRat_FLT_MAX : F32.FLT_MAX.toRat = FLT_MAX := by
  show F32.signed false _ = _
  simp [F32.signed, FLT_MAX]

theorem isFinite_FLT_MAX : F32.FLT_MAX.isFinite = true := rfl

theorem f32_lt_exact (a b : F32) (ha : a.isFinite = true) (hb : b.isFinite = true) :
    F32.lt a b = decide (a.toRat < b.toRat) := by
  cases a <;> cases b <;> simp_all [F32.isFinite, F32.lt, F32.toRat]

theorem f32_eq_exact (a b : F32) (ha : a.isFinite = true) (hb : b.isFinite = true) :
    F32.eq a b = decide (a.toRat = b.toRat) := by
  cases a <;> cases b <;> simp_all [F32.isFinite, F32.eq, F32.toRat]

theorem f32_le_exact (a b : F32) (ha : a.isFinite = true) (hb : b.isFinite = true) :
    F32.le a b = decide (a.toRat ≤ b.toRat) := by
  unfold F32.le
  rw [f32_lt_exact a b ha hb, f32_eq_exact a b ha hb]
  by_cases h : a.toRat ≤ b.toRat
  · rcases lt_or_eq_of_le h with h1 | h1
    · simp [h, h1]
    · simp [h, h1]
  · have h1 : ¬ a.toRat < b.toRat := fun h1 => h (le_of_lt h1)
    have h2 : ¬ a.toRat = b.toRat := fun h2 => h (le_of_eq h2)
    simp [h, h1, h2]

theorem exact_amount (A : Binary32.Args) : A.exact.amount = A.amount := by
  simp [Args.amount, Binary32.Args.amount, Binary32.Args.exact]

theorem exact_emptyPixel : Binary32.emptyPixel.exact = emptyPixel := rfl

theorem exact_getD (A : Binary32.Args) (k : Nat) :
    A.exact.inPixels.getD k emptyPixel = (A.inPixels.getD k Binary32.emptyPixel).exact := by
  show (A.inPixels.map Binary32.DeepPixel.exact).getD k emptyPixel = _
  rw [← exact_emptyPixel]
  simp only [List.getD_eq_getElem?_getD, List.getElem?_map]
  cases A.inPixels[k]? <;> rfl

theorem exact_pixel_count (P : Binary32.DeepPixel) :
    P.exact.getSampleCount = P.getSampleCount := by
  simp [DeepPixel.getSampleCount, Binary32.DeepPixel.getSampleCount, Binary32.DeepPixel.exact,
    mkPixel]

theorem exact_sampleCount (A : Binary32.Args) (k : Nat) :
    A.exact.sampleCount k = A.sampleCount k := by
  unfold Args.sampleCount Binary32.Args.sampleCount
  rw [exact_getD, exact_pixel_count]

theorem exact_getOrderedSample (P : Binary32.DeepPixel) (i : Nat) (z : Channel) :
    P.exact.getOrderedSample i z = (P.getOrderedSample i z).toRat := by
  unfold DeepPixel.getOrderedSample Binary32.DeepPixel.getOrderedSample
  show (if z ∈ P.channels then
      ((P.ordered.map (fun smp z => (smp z).toRat)).getD i (fun _ => 0)) z else 0) = _
  split_ifs with h
  · simp only [List.getD_eq_getElem?_getD, List.getElem?_map]
    cases P.ordered[i]? with
    | none => simp [toRat_zero]
    | some smp => rfl
  · exact toRat_zero.symm

theorem exact_budget (A : Binary32.Args) : A.exact.budget = A.budget := by
  unfold Args.budget Binary32.Args.budget
  rw [exact_amount]
  congr 1
  funext k
  exact exact_sampleCount A k

theorem min_element_exact (d : Nat → F32) (hd : ∀ k, (d k).isFinite = true) :
    ∀ n, min_element (fun k => (d k).toRat) n = Binary32.min_element d n := by
  intro n
  induction n using Nat.strong_induction_on with
  | _ n ih =>
    match n with
    | 0 => rfl
    | 1 => rfl
    | n + 2 =>
      unfold min_element Binary32.min_element
      rw [ih (n + 1) (by omega), f32_lt_exact _ _ (hd _) (hd _)]
      simp

theorem pixel_sample_finite (P : Binary32.DeepPixel) (i : Nat) (z : Channel)
    (hP : ∀ smp ∈ P.ordered, (smp z).isFinite = true) :
    (P.getOrderedSample i z).isFinite = true := by
  unfold Binary32.DeepPixel.getOrderedSample
  split_ifs with h
  · rw [List.getD_eq_getElem?_getD]
    cases hi : P.ordered[i]? with
    | none => exact isFinite_zero
    | some smp => exact hP smp (List.getElem?_mem hi)
  · exact isFinite_zero

theorem getD_mem_or_empty (A : Binary32.Args) (k : Nat) :
    A.inPixels.getD k Binary32.emptyPixel ∈ A.inPixels ∨
      A.inPixels.getD k Binary32.emptyPixel = Binary32.emptyPixel := by
  rw [List.getD_eq_getElem?_getD]
  cases hk : A.inPixels[k]? with
  | none => exact Or.inr rfl
  | some P => exact Or.inl (List.getElem?_mem hk)

/-- The front depth and the alpha a call reads from its inputs are finite. -/
theorem getOrderedSample_finite (A : Binary32.Args) (hfin : A.FiniteInputs) (k i : Nat)
    (z : Channel) (hz : z = Channel.Chan_Alpha ∨ z = Channel.Chan_DeepFront) :
    ((A.inPixels.getD k Binary32.emptyPixel).getOrderedSample i z).isFinite = true := by
  apply pixel_sample_finite
  intro smp hs
  rcases getD_mem_or_empty A k with hm | he
  · have := hfin.1 _ hm smp hs
    rcases hz with rfl | rfl
    · exact this.1
    · exact this.2
  · rw [he] at hs
    simp [Binary32.emptyPixel] at hs

/-! ### The quantities of one iteration, single precision against exact -/

theorem selected_exact (A : Binary32.Args) (s : Binary32.State)
    (hd : ∀ k, (s.distance k).isFinite = true) :
    selected A.exact s.exact = Binary32.selected A s := by
  unfold selected Binary32.selected
  rw [exact_amount]
  exact min_element_exact s.distance hd _

theorem selectedPixel_exact (A : Binary32.Args) (s : Binary32.State)
    (hd : ∀ k, (s.distance k).isFinite = true) :
    selectedPixel A.exact s.exact = (Binary32.selectedPixel A s).exact := by
  unfold selectedPixel Binary32.selectedPixel
  rw [selected_exact A s hd, exact_getD]

theorem invertedIndex_exact (A : Binary32.Args) (s : Binary32.State)
    (hd : ∀ k, (s.distance k).isFinite = true) :
    invertedIndex A.exact s.exact = Binary32.invertedIndex A s := by
  unfold invertedIndex Binary32.invertedIndex
  rw [selected_exact A s hd, exact_sampleCount]
  rfl

theorem rawAlpha_exact (A : Binary32.Args) (s : Binary32.State)
    (hd : ∀ k, (s.distance k).isFinite = true) :
    rawAlpha A.exact s.exact = (Binary32.rawAlpha A s).toRat := by
  unfold rawAlpha Binary32.rawAlpha
  rw [selectedPixel_exact A s hd, invertedIndex_exact A s hd, exact_getOrderedSample]

theorem rawAlpha_finite (A : Binary32.Args) (s : Binary32.State) (hfin : A.FiniteInputs) :
    (Binary32.rawAlpha A s).isFinite = true :=
  getOrderedSample_finite A hfin _ _ _ (Or.inl rfl)

theorem accumNext_exact (A : Binary32.Args) (s : Binary32.State)
    (hd : ∀ k, (s.distance k).isFinite = true) (h : Binary32.ExactAccum A s) :
    accumNext A.exact s.exact = (Binary32.accumNext A s).toRat ∧
      (Binary32.accumNext A s).isFinite = true := by
  obtain ⟨-, -, h3, h4, h5, -, -⟩ := h
  refine ⟨?_, h5.1⟩
  unfold accumNext Binary32.accumNext
  rw [selected_exact A s hd, rawAlpha_exact A s hd, h5.2, h4.2, h3.2, toRat_one]
  rfl

theorem designatedNext_exact (A : Binary32.Args) (s : Binary32.State)
    (hd : ∀ k, (s.distance k).isFinite = true) (h : Binary32.ExactAccum A s) :
    designatedNext A.exact s.exact = (Binary32.designatedNext A s).toRat ∧
      (Binary32.designatedNext A s).isFinite = true := by
  have hacc := (accumNext_exact A s hd h).1
  obtain ⟨h1, h2, -, -, -, h6, h7⟩ := h
  refine ⟨?_, h7.1⟩
  unfold designatedNext Binary32.designatedNext
  rw [hacc, selected_exact A s hd, h7.2, h6.2, h2.2, h1.2]
  rfl

theorem newAlpha_exact (A : Binary32.Args) (s : Binary32.State) (hfin : A.FiniteInputs)
    (hd : ∀ k, (s.distance k).isFinite = true) (h : Binary32.ExactAccum A s)
    (hq : Binary32.ExactQuotient A s) :
    newAlpha A.exact s.exact = (Binary32.newAlpha A s).toRat ∧
      (Binary32.newAlpha A s).isFinite = true := by
  obtain ⟨hdes, hdf⟩ := designatedNext_exact A s hd h
  unfold newAlpha Binary32.newAlpha
  rw [hdes, rawAlpha_exact A s hd]
  have hlt := f32_lt_exact (Binary32.designatedNext A s) 1 hdf isFinite_one
  rw [toRat_one] at hlt
  by_cases hc : (Binary32.designatedNext A s).toRat < 1
  · have hlt1 : F32.lt (Binary32.designatedNext A s) 1 = true := by rw [hlt]; simp [hc]
    obtain ⟨q1, q2, q3⟩ := hq hlt1
    rw [if_pos hc, if_pos hlt1, q3.2, q2.2, q1.2, toRat_one]
    exact ⟨rfl, q3.1⟩
  · have hlt1 : ¬ F32.lt (Binary32.designatedNext A s) 1 = true := by rw [hlt]; simp [hc]
    rw [if_neg hc, if_neg hlt1]
    exact ⟨rfl, rawAlpha_finite A s hfin⟩

theorem combinedNext_exact (A : Binary32.Args) (s : Binary32.State) (hfin : A.FiniteInputs)
    (hd : ∀ k, (s.distance k).isFinite = true) (h : Binary32.ExactAccum A s)
    (hq : Binary32.ExactQuotient A s) (hc : Binary32.ExactCombined A s) :
    combinedNext A.exact s.exact = (Binary32.combinedNext A s).toRat ∧
      (Binary32.combinedNext A s).isFinite = true := by
  obtain ⟨c1, c2, c3⟩ := hc
  refine ⟨?_, c3.1⟩
  unfold combinedNext Binary32.combinedNext
  rw [(newAlpha_exact A s hfin hd h hq).1, c3.2, c2.2, c1.2, toRat_one]
  rfl

theorem passthroughRow_exact (P : Binary32.DeepPixel) (channels : ChannelSet) (i : Nat) :
    passthroughRow P.exact channels i = (Binary32.passthroughRow P channels i).map F32.toRat := by
  unfold passthroughRow Binary32.passthroughRow
  rw [List.map_map]
  apply List.map_congr_left
  intro z _
  show (if z ∈ P.channels then P.exact.getOrderedSample i z else 0) = _
  simp only [Function.comp]
  split_ifs
  · exact exact_getOrderedSample P i z
  · exact toRat_zero.symm

theorem weightedRow_exact (P : Binary32.DeepPixel) (channels : ChannelSet) (i : Nat)
    (f : F32) (hrow : ∀ z ∈ channels, z ≠ Channel.Chan_DeepFront → z ≠ Channel.Chan_DeepBack →
      z ∈ P.channels → F32.ExactMul (P.getOrderedSample i z) f) :
    weightedRow P.exact channels i f.toRat =
      (Binary32.weightedRow P channels i f).map F32.toRat := by
  unfold weightedRow Binary32.weightedRow
  rw [List.map_map]
  apply List.map_congr_left
  intro z hz
  show (if z = Channel.Chan_DeepFront ∨ z = Channel.Chan_DeepBack then
      P.exact.getOrderedSample i z
    else if z ∈ P.channels then P.exact.getOrderedSample i z * f.toRat else 0) = _
  simp only [Function.comp]
  split_ifs with h1 h2
  · exact exact_getOrderedSample P i z
  · rw [(hrow z hz (fun h => h1 (Or.inl h)) (fun h => h1 (Or.inr h)) h2).2,
      exact_getOrderedSample]
  · exact toRat_zero.symm

/-! ### One iteration, single precision against exact -/

theorem update_toRat (f : Nat → F32) (a : Nat) (v : F32) :
    (fun k => (Function.update f a v k).toRat) =
      Function.update (fun k => (f k).toRat) a v.toRat := by
  funext k
  by_cases h : k = a
  · subst h; simp
  · simp [Function.update_noteq h]

theorem advance_exact (A : Binary32.Args) (a i : Nat) (t : Binary32.State) :
    (Binary32.advance A a i t).exact = advance A.exact a i t.exact := by
  unfold Binary32.advance advance
  simp only [Binary32.State.exact, update_toRat, exact_sampleCount, exact_getD,
    exact_getOrderedSample]
  congr 2
  split_ifs
  · rfl
  · rw [toRat_FLT_MAX]

theorem advance_distance_finite (A : Binary32.Args) (hfin : A.FiniteInputs) (a i : Nat)
    (t : Binary32.State) (hd : ∀ k, (t.distance k).isFinite = true) :
    ∀ k, ((Binary32.advance A a i t).distance k).isFinite = true := by
  intro k
  unfold Binary32.advance
  simp only
  by_cases h : k = a
  · subst h
    rw [Function.update_same]
    split_ifs
    · exact getOrderedSample_finite A hfin _ _ _ (Or.inr rfl)
    · exact isFinite_FLT_MAX
  · rw [Function.update_noteq h]
    exact hd k

theorem state_alpha_exact (s : Binary32.State) (a : Nat) (v : F32) :
    ({ s with alpha := Function.update s.alpha a v } : Binary32.State).exact =
      { s.exact with alpha := Function.update s.exact.alpha a v.toRat } := by
  simp only [Binary32.State.exact, update_toRat]

theorem state_pass_exact (s : Binary32.State) (a : Nat) (v : F32) (row : List F32) :
    ({ s with alpha := Function.update s.alpha a v, outPixel := s.outPixel ++ row } :
        Binary32.State).exact =
      { s.exact with
        alpha := Function.update s.exact.alpha a v.toRat
        outPixel := s.exact.outPixel ++ row.map F32.toRat } := by
  simp only [Binary32.State.exact, update_toRat, List.map_append]

theorem state_drop_exact (s : Binary32.State) (a : Nat) (v acc des comb : F32) :
    ({ s with
        alpha := Function.update s.alpha a v
        alpha_accum := Function.update s.alpha_accum a acc
        designated_alpha_accum := des
        alpha_accum_combined := comb } : Binary32.State).exact =
      { s.exact with
        alpha := Function.update s.exact.alpha a v.toRat
        alpha_accum := Function.update s.exact.alpha_accum a acc.toRat
        designated_alpha_accum := des.toRat
        alpha_accum_combined := comb.toRat } := by
  simp only [Binary32.State.exact, update_toRat]

theorem state_weighted_exact (s : Binary32.State) (a : Nat) (v acc des comb : F32)
    (row : List F32) :
    ({ s with
        alpha := Function.update s.alpha a v
        alpha_accum := Function.update s.alpha_accum a acc
        designated_alpha_accum := des
        alpha_accum_combined := comb
        outPixel := s.outPixel ++ row } : Binary32.State).exact =
      { s.exact with
        alpha := Function.update s.exact.alpha a v.toRat
        alpha_accum := Function.update s.exact.alpha_accum a acc.toRat
        designated_alpha_accum := des.toRat
        alpha_accum_combined := comb.toRat
        outPixel := s.exact.outPixel ++ row.map F32.toRat } := by
  simp only [Binary32.State.exact, update_toRat, List.map_append]

/-- When no operation of an iteration rounds, the exact loop body does to the
exact reading of the state what the single-precision loop body does to the
state. -/
theorem step_exact (A : Binary32.Args) (s : Binary32.State) (hfin : A.FiniteInputs)
    (hd : ∀ k, (s.distance k).isFinite = true) (hex : Binary32.ExactStep A s) :
    step A.exact s.exact = (Binary32.step A s).exact := by
  have hsel := selected_exact A s hd
  have hinv := invertedIndex_exact A s hd
  have hpix := selectedPixel_exact A s hd
  have hraw := rawAlpha_exact A s hd
  have hrf := rawAlpha_finite A s hfin
  have hle := f32_le_exact _ _ hrf hfin.2
  have heq0 := f32_eq_exact _ 0 hrf isFinite_zero
  rw [toRat_zero] at heq0
  rw [step_eq, b32_step_eq]
  have hthr : A.exact.transparency_threshold = A.transparency_threshold.toRat := rfl
  have hdt : A.exact.drop_transparent = A.drop_transparent := rfl
  have hdh : A.exact.drop_hidden = A.drop_hidden := rfl
  have hch : A.exact.channels = A.channels := rfl
  have hno : s.exact.sampleNo = s.sampleNo := rfl
  rw [hsel, hinv, hpix, hraw, exact_sampleCount, hthr, hdt, hdh, hch, hno]
  by_cases c1 : s.sampleNo (Binary32.selected A s) < A.sampleCount (Binary32.selected A s)
  · rw [if_pos c1, if_pos c1]
    by_cases c2 : (F32.le (Binary32.rawAlpha A s) A.transparency_threshold &&
        A.drop_transparent) = true
    · have c2q : (Binary32.rawAlpha A s).toRat ≤ A.transparency_threshold.toRat ∧
          A.drop_transparent = true := by
        rw [Bool.and_eq_true, hle] at c2
        exact ⟨of_decide_eq_true c2.1, c2.2⟩
      have c2b : ¬ (!(F32.le (Binary32.rawAlpha A s) A.transparency_threshold &&
          A.drop_transparent)) = true := by rw [c2]; decide
      rw [if_neg (not_not.mpr c2q), if_neg c2b]
      simp only [Binary32.Step.exact, Binary32.Emission.exact, advance_exact,
        state_alpha_exact]
      rfl
    · have c2f : (F32.le (Binary32.rawAlpha A s) A.transparency_threshold &&
          A.drop_transparent) = false := by simpa using c2
      have c2q : ¬ ((Binary32.rawAlpha A s).toRat ≤ A.transparency_threshold.toRat ∧
          A.drop_transparent = true) := by
        intro h
        apply c2
        rw [Bool.and_eq_true, hle]
        exact ⟨decide_eq_true h.1, h.2⟩
      have c2b : (!(F32.le (Binary32.rawAlpha A s) A.transparency_threshold &&
          A.drop_transparent)) = true := by rw [c2f]; rfl
      rw [if_pos c2q, if_pos c2b]
      by_cases c3 : F32.eq (Binary32.rawAlpha A s) 0 = true
      · have c3q : (Binary32.rawAlpha A s).toRat = 0 := by
          rw [heq0] at c3
          exact of_decide_eq_true c3
        rw [if_pos c3q, if_pos c3]
        simp only [Binary32.Step.exact, Binary32.Emission.exact, advance_exact,
          state_pass_exact, passthroughRow_exact]
        rfl
      · have c3f : F32.eq (Binary32.rawAlpha A s) 0 = false := by simpa using c3
        have c3q : ¬ (Binary32.rawAlpha A s).toRat = 0 := by
          intro h
          apply c3
          rw [heq0]
          exact decide_eq_true h
        rw [if_neg c3q, if_neg c3]
        obtain ⟨xa, xq, xc, xr⟩ := hex c1 c2f c3f
        obtain ⟨hacc, -⟩ := accumNext_exact A s hd xa
        obtain ⟨hdes, -⟩ := designatedNext_exact A s hd xa
        obtain ⟨hna, hnf⟩ := newAlpha_exact A s hfin hd xa xq
        obtain ⟨hcomb, -⟩ := combinedNext_exact A s hfin hd xa xq xc
        have hle2 := f32_le_exact _ _ hnf hfin.2
        have heq1 := f32_eq_exact _ 1 hnf isFinite_one
        rw [toRat_one] at heq1
        rw [hacc, hdes, hna, hcomb]
        by_cases c4 : (F32.le (Binary32.newAlpha A s) A.transparency_threshold &&
            A.drop_transparent) = true
        · have c4q : (Binary32.newAlpha A s).toRat ≤ A.transparency_threshold.toRat ∧
              A.drop_transparent = true := by
            rw [Bool.and_eq_true, hle2] at c4
            exact ⟨of_decide_eq_true c4.1, c4.2⟩
          have c4b : ¬ (!(F32.le (Binary32.newAlpha A s) A.transparency_threshold &&
              A.drop_transparent)) = true := by rw [c4]; decide
          rw [if_neg (not_not.mpr c4q), if_neg c4b]
          simp only [Binary32.Step.exact, Binary32.Emission.exact, advance_exact,
            state_drop_exact]
          rfl
        · have c4f : (F32.le (Binary32.newAlpha A s) A.transparency_threshold &&
              A.drop_transparent) = false := by simpa using c4
          have c4q : ¬ ((Binary32.newAlpha A s).toRat ≤ A.transparency_threshold.toRat ∧
              A.drop_transparent = true) := by
            intro h
            apply c4
            rw [Bool.and_eq_true, hle2]
            exact ⟨decide_eq_true h.1, h.2⟩
          have c4b : (!(F32.le (Binary32.newAlpha A s) A.transparency_threshold &&
              A.drop_transparent)) = true := by rw [c4f]; rfl
          rw [if_pos c4q, if_pos c4b]
          obtain ⟨xd, xrow⟩ := xr c4f
          have hrow := weightedRow_exact (Binary32.selectedPixel A s) A.channels
            (Binary32.invertedIndex A s) _ xrow
          rw [xd.2] at hrow
          rw [hrow]
          by_cases c5 : (F32.eq (Binary32.newAlpha A s) 1 && A.drop_hidden) = true
          · have c5q : (Binary32.newAlpha A s).toRat = 1 ∧ A.drop_hidden = true := by
              rw [Bool.and_eq_true, heq1] at c5
              exact ⟨of_decide_eq_true c5.1, c5.2⟩
            rw [if_pos c5q, if_pos c5]
            simp only [Binary32.Step.exact, Binary32.Emission.exact, state_weighted_exact]
            rfl
          · have c5q : ¬ ((Binary32.newAlpha A s).toRat = 1 ∧ A.drop_hidden = true) := by
              intro h
              apply c5
              rw [Bool.and_eq_true, heq1]
              exact ⟨decide_eq_true h.1, h.2⟩
            rw [if_neg c5q, if_neg c5]
            simp only [Binary32.Step.exact, Binary32.Emission.exact, advance_exact,
              state_weighted_exact]
            rfl
  · rw [if_neg c1, if_neg c1]
    rfl

/-! ### A run without rounding, single precision against exact -/

theorem step_distance_finite (A : Binary32.Args) (s : Binary32.State) (hfin : A.FiniteInputs)
    (hd : ∀ k, (s.distance k).isFinite = true) (e : Binary32.Emission) (t : Binary32.State)
    (h : Binary32.step A s = Binary32.Step.next e t ∨ Binary32.step A s = Binary32.Step.ret e t) :
    ∀ k, (t.distance k).isFinite = true := by
  rw [b32_step_eq] at h
  split_ifs at h
  all_goals
    rcases h with h | h
    all_goals first
      | (simp only [Binary32.Step.next.injEq, reduceCtorEq] at h
         obtain ⟨-, rfl⟩ := h
         exact advance_distance_finite A hfin _ _ _ hd)
      | (simp only [Binary32.Step.ret.injEq, reduceCtorEq] at h
         obtain ⟨-, rfl⟩ := h
         exact hd)
      | exact absurd h (by simp)

theorem step_has_sample (A : Binary32.Args) (s : Binary32.State)
    (h : ¬ s.sampleNo (Binary32.selected A s) < A.sampleCount (Binary32.selected A s)) :
    Binary32.step A s = Binary32.Step.oob := by
  rw [b32_step_eq, if_neg h]

theorem loopCond_exact (A : Binary32.Args) (s : Binary32.State) :
    loopCond A.exact s.exact ↔ Binary32.loopCond A s := by
  unfold loopCond Binary32.loopCond
  rw [exact_amount]
  have h : A.exact.sampleCount = A.sampleCount := funext (exact_sampleCount A)
  rw [h]
  exact Iff.rfl

theorem exec_exact (A : Binary32.Args) (hfin : A.FiniteInputs) :
    ∀ (n : Nat) (s : Binary32.State), (∀ k, (s.distance k).isFinite = true) →
      (∀ it ∈ (Binary32.exec A n s).1, Binary32.ExactStep A it.pre) →
      (exec A.exact n s.exact).1 = (Binary32.exec A n s).1.map Binary32.Iteration.exact ∧
        (exec A.exact n s.exact).2 = (Binary32.exec A n s).2 := by
  intro n
  induction n with
  | zero =>
    intro s _ _
    unfold exec Binary32.exec
    by_cases hc : Binary32.loopCond A s
    · simp [hc, (loopCond_exact A s).mpr hc]
    · simp [hc, mt (loopCond_exact A s).mp hc]
  | succ n ih =>
    intro s hd hex
    unfold exec Binary32.exec
    by_cases hc : Binary32.loopCond A s
    · rw [if_pos hc, if_pos ((loopCond_exact A s).mpr hc)]
      rw [Binary32.exec, if_pos hc] at hex
      by_cases c1 : s.sampleNo (Binary32.selected A s) < A.sampleCount (Binary32.selected A s)
      · cases hst : Binary32.step A s with
        | next e t =>
          rw [hst] at hex
          simp only [List.mem_cons] at hex
          have hx := hex ⟨s, e, t⟩ (Or.inl rfl)
          have hstep := step_exact A s hfin hd hx
          rw [hst] at hstep
          rw [hstep]
          simp only [Binary32.Step.exact]
          have htd := step_distance_finite A s hfin hd e t (Or.inl hst)
          obtain ⟨i1, i2⟩ := ih t htd (fun it hit => hex it (Or.inr hit))
          simp only [List.map_cons, i1, i2]
          exact ⟨rfl, trivial⟩
        | ret e t =>
          rw [hst] at hex
          have hx := hex ⟨s, e, t⟩ (by simp)
          have hstep := step_exact A s hfin hd hx
          rw [hst] at hstep
          rw [hstep]
          simp only [Binary32.Step.exact, List.map_cons, List.map_nil]
          exact ⟨rfl, trivial⟩
        | oob =>
          have hstep := step_exact A s hfin hd (fun h => absurd h (by
            intro _
            rw [b32_step_eq, if_pos c1] at hst
            split_ifs at hst))
          rw [hst] at hstep
          rw [hstep]
          simp only [Binary32.Step.exact, List.map_nil]
          exact ⟨trivial, trivial⟩
      · have hx : Binary32.ExactStep A s := fun h => absurd h c1
        have hstep := step_exact A s hfin hd hx
        rw [step_has_sample A s c1] at hstep ⊢
        rw [hstep]
        simp only [Binary32.Step.exact, List.map_nil]
        exact ⟨trivial, trivial⟩
    · rw [if_neg hc, if_neg (mt (loopCond_exact A s).mp hc)]
      exact ⟨rfl, rfl⟩

/-! ### A call without rounding, single precision against exact -/

theorem init_exact (A : Binary32.Args) : (Binary32.init A).exact = init A.exact := by
  unfold Binary32.init init
  simp only [Binary32.State.exact, exact_sampleCount, exact_getD, exact_getOrderedSample,
    toRat_zero, List.map_nil]
  congr 1
  funext i
  split_ifs
  · rfl
  · exact toRat_FLT_MAX

theorem init_distance_finite (A : Binary32.Args) (hfin : A.FiniteInputs) :
    ∀ k, ((Binary32.init A).distance k).isFinite = true := by
  intro k
  unfold Binary32.init
  simp only
  split_ifs
  · exact getOrderedSample_finite A hfin _ _ _ (Or.inr rfl)
  · exact isFinite_FLT_MAX

theorem iterations_exact (A : Binary32.Args) (hfin : A.FiniteInputs)
    (hex : Binary32.ExactRun A) :
    iterations A.exact = (Binary32.iterations A).map Binary32.Iteration.exact := by
  unfold iterations Binary32.iterations
  rw [← init_exact, exact_budget]
  exact (exec_exact A hfin A.budget (Binary32.init A) (init_distance_finite A hfin) hex).1

theorem ending_exact (A : Binary32.Args) (hfin : A.FiniteInputs)
    (hex : Binary32.ExactRun A) : ending A.exact = Binary32.ending A := by
  unfold ending Binary32.ending
  rw [← init_exact, exact_budget]
  exact (exec_exact A hfin A.budget (Binary32.init A) (init_distance_finite A hfin) hex).2

theorem trace_exact (A : Binary32.Args) (hfin : A.FiniteInputs)
    (hex : Binary32.ExactRun A) :
    trace A.exact = (Binary32.trace A).map Binary32.State.exact := by
  unfold trace Binary32.trace
  rw [iterations_exact A hfin hex, List.map_cons, init_exact, List.map_map, List.map_map]
  rfl

theorem isSample_exact (e : Binary32.Emission) : e.exact.isSample = e.isSample := by
  cases e <;> rfl

theorem emitted_list_exact (l : List Binary32.Iteration) :
    ((l.map Binary32.Iteration.exact).map Iteration.emit).filter Emission.isSample =
      ((l.map Binary32.Iteration.emit).filter Binary32.Emission.isSample).map
        Binary32.Emission.exact := by
  induction l with
  | nil => rfl
  | cons it l ih =>
    simp only [List.map_cons, List.filter_cons]
    have h : (Binary32.Iteration.exact it).emit.isSample = it.emit.isSample :=
      isSample_exact it.emit
    rw [h]
    cases it.emit.isSample
    · simpa using ih
    · have h2 : (Binary32.Iteration.exact it).emit = it.emit.exact := rfl
      simpa [h2] using ih

theorem emitted_exact (A : Binary32.Args) (hfin : A.FiniteInputs)
    (hex : Binary32.ExactRun A) :
    emitted A.exact = (Binary32.emitted A).map Binary32.Emission.exact := by
  unfold emitted Binary32.emitted emissions Binary32.emissions
  rw [iterations_exact A hfin hex]
  exact emitted_list_exact _

theorem finalState_exact (A : Binary32.Args) (hfin : A.FiniteInputs)
    (hex : Binary32.ExactRun A) :
    finalState A.exact = (Binary32.finalState A).exact := by
  unfold finalState Binary32.finalState finalOf
  rw [iterations_exact A hfin hex, List.getLast?_map, ← init_exact]
  cases (Binary32.iterations A).getLast? <;> rfl

/-- When no operation of a call rounds, the values of the output pixel are
those the exact computation gives on the exact reading of the inputs. -/
theorem combine_exact (inPixels : List Binary32.DeepPixel) (channels : ChannelSet)
    (weight : Nat → F32) (drop_hidden drop_transparent : Bool) (thr : F32)
    (hfin : Binary32.Args.FiniteInputs
      ⟨inPixels, channels, weight, drop_hidden, drop_transparent, thr⟩)
    (hex : Binary32.ExactRun ⟨inPixels, channels, weight, drop_hidden, drop_transparent, thr⟩) :
    (Binary32.combineDeepPixels inPixels channels weight drop_hidden drop_transparent thr).map
        (List.map F32.toRat) =
      combineDeepPixels (inPixels.map Binary32.DeepPixel.exact) channels
        (fun k => (weight k).toRat) drop_hidden drop_transparent thr.toRat := by
  have he := ending_exact _ hfin hex
  have hf := finalState_exact _ hfin hex
  unfold combineDeepPixels Binary32.combineDeepPixels
  simp only
  have ha : (⟨inPixels.map Binary32.DeepPixel.exact, channels, fun k => (weight k).toRat,
      drop_hidden, drop_transparent, thr.toRat⟩ : Args) =
      Binary32.Args.exact ⟨inPixels, channels, weight, drop_hidden, drop_transparent, thr⟩ := rfl
  rw [ha, he, hf]
  cases Binary32.ending ⟨inPixels, channels, weight, drop_hidden, drop_transparent, thr⟩ <;> rfl

/-! ### The accumulated alphas of a run without rounding are finite -/

theorem advance_acc (A : Binary32.Args) (a i : Nat) (t : Binary32.State) :
    (Binary32.advance A a i t).alpha_accum_combined = t.alpha_accum_combined ∧
      (Binary32.advance A a i t).designated_alpha_accum = t.designated_alpha_accum ∧
      (Binary32.advance A a i t).alpha_accum = t.alpha_accum :=
  ⟨rfl, rfl, rfl⟩

theorem update_finite (f : Nat → F32) (a : Nat) (v : F32) (hf : ∀ k, (f k).isFinite = true)
    (hv : v.isFinite = true) : ∀ k, (Function.update f a v k).isFinite = true := by
  intro k
  by_cases h : k = a
  · subst h; rw [Function.update_same]; exact hv
  · rw [Function.update_noteq h]; exact hf k

theorem step_acc_finite (A : Binary32.Args) (s : Binary32.State) (hfin : A.FiniteInputs)
    (hd : ∀ k, (s.distance k).isFinite = true) (hx : Binary32.ExactStep A s)
    (hs : s.alpha_accum_combined.isFinite = true ∧ s.designated_alpha_accum.isFinite = true ∧
      ∀ k, (s.alpha_accum k).isFinite = true)
    (e : Binary32.Emission) (t : Binary32.State)
    (h : Binary32.step A s = Binary32.Step.next e t ∨ Binary32.step A s = Binary32.Step.ret e t) :
    t.alpha_accum_combined.isFinite = true ∧ t.designated_alpha_accum.isFinite = true ∧
      ∀ k, (t.alpha_accum k).isFinite = true := by
  rw [b32_step_eq] at h
  by_cases c1 : s.sampleNo (Binary32.selected A s) < A.sampleCount (Binary32.selected A s)
  · rw [if_pos c1] at h
    by_cases c2 : (F32.le (Binary32.rawAlpha A s) A.transparency_threshold &&
        A.drop_transparent) = true
    · have c2b : ¬ (!(F32.le (Binary32.rawAlpha A s) A.transparency_threshold &&
          A.drop_transparent)) = true := by rw [c2]; decide
      rw [if_neg c2b] at h
      simp only [Binary32.Step.next.injEq, reduceCtorEq, or_false] at h
      obtain ⟨-, rfl⟩ := h
      exact hs
    · have c2f : (F32.le (Binary32.rawAlpha A s) A.transparency_threshold &&
          A.drop_transparent) = false := by simpa using c2
      have c2b : (!(F32.le (Binary32.rawAlpha A s) A.transparency_threshold &&
          A.drop_transparent)) = true := by rw [c2f]; rfl
      rw [if_pos c2b] at h
      by_cases c3 : F32.eq (Binary32.rawAlpha A s) 0 = true
      · rw [if_pos c3] at h
        simp only [Binary32.Step.next.injEq, reduceCtorEq, or_false] at h
        obtain ⟨-, rfl⟩ := h
        exact hs
      · have c3f : F32.eq (Binary32.rawAlpha A s) 0 = false := by simpa using c3
        rw [if_neg c3] at h
        obtain ⟨xa, xq, xc, -⟩ := hx c1 c2f c3f
        have f1 := (accumNext_exact A s hd xa).2
        have f2 := (designatedNext_exact A s hd xa).2
        have f3 := (combinedNext_exact A s hfin hd xa xq xc).2
        have hres : ∀ u : Binary32.State,
            u.alpha_accum_combined = Binary32.combinedNext A s →
            u.designated_alpha_accum = Binary32.designatedNext A s →
            u.alpha_accum = Function.update s.alpha_accum (Binary32.selected A s)
              (Binary32.accumNext A s) →
            u.alpha_accum_combined.isFinite = true ∧ u.designated_alpha_accum.isFinite = true ∧
              ∀ k, (u.alpha_accum k).isFinite = true := by
          intro u h1 h2 h3
          rw [h1, h2, h3]
          exact ⟨f3, f2, update_finite _ _ _ hs.2.2 f1⟩
        split_ifs at h
        all_goals
          rcases h with h | h
          all_goals first
            | (simp only [Binary32.Step.next.injEq, reduceCtorEq] at h
               obtain ⟨-, rfl⟩ := h
               exact hres _ rfl rfl rfl)
            | (simp only [Binary32.Step.ret.injEq, reduceCtorEq] at h
               obtain ⟨-, rfl⟩ := h
               exact hres _ rfl rfl rfl)
            | exact absurd h (by simp)
  · rw [if_neg c1] at h
    simp at h

theorem exec_acc_finite (A : Binary32.Args) (hfin : A.FiniteInputs) :
    ∀ (n : Nat) (s : Binary32.State), (∀ k, (s.distance k).isFinite = true) →
      (s.alpha_accum_combined.isFinite = true ∧ s.designated_alpha_accum.isFinite = true ∧
        ∀ k, (s.alpha_accum k).isFinite = true) →
      (∀ it ∈ (Binary32.exec A n s).1, Binary32.ExactStep A it.pre) →
      ∀ it ∈ (Binary32.exec A n s).1,
        it.post.alpha_accum_combined.isFinite = true ∧
          it.post.designated_alpha_accum.isFinite = true ∧
          ∀ k, (it.post.alpha_accum k).isFinite = true := by
  intro n
  induction n with
  | zero => intro s _ _ _ it hit; simp [Binary32.exec] at hit
  | succ n ih =>
    intro s hd hs hex it hit
    rw [Binary32.exec] at hit hex
    by_cases hc : Binary32.loopCond A s
    · rw [if_pos hc] at hit hex
      cases hst : Binary32.step A s with
      | next e t =>
        rw [hst] at hit hex
        simp only [List.mem_cons] at hit hex
        have hx := hex ⟨s, e, t⟩ (Or.inl rfl)
        have ht := step_acc_finite A s hfin hd hx hs e t (Or.inl hst)
        rcases hit with rfl | hit
        · exact ht
        · exact ih t (step_distance_finite A s hfin hd e t (Or.inl hst)) ht
            (fun it hit => hex it (Or.inr hit)) it hit
      | ret e t =>
        rw [hst] at hit hex
        simp only [List.mem_singleton] at hit hex
        subst hit
        exact step_acc_finite A s hfin hd (hex _ rfl) hs e t (Or.inr hst)
      | oob =>
        rw [hst] at hit
        simp at hit
    · rw [if_neg hc] at hit
      simp at hit

/-- In every state of a call without rounding the accumulated alphas are finite
values. -/
theorem trace_acc_finite (A : Binary32.Args) (hfin : A.FiniteInputs)
    (hex : Binary32.ExactRun A) :
    ∀ s ∈ Binary32.trace A,
      s.alpha_accum_combined.isFinite = true ∧ s.designated_alpha_accum.isFinite = true ∧
        ∀ k, (s.alpha_accum k).isFinite = true := by
  intro s hs
  unfold Binary32.trace at hs
  simp only [List.mem_cons, List.mem_map] at hs
  rcases hs with rfl | ⟨it, hit, rfl⟩
  · exact ⟨rfl, rfl, fun _ => rfl⟩
  · exact exec_acc_finite A hfin A.budget (Binary32.init A) (init_distance_finite A hfin)
      ⟨rfl, rfl, fun _ => rfl⟩ hex it hit

/-! ### Hypotheses on the inputs, single precision against exact -/

theorem f32_nonneg (a : F32) (h : F32.le 0 a = true) : 0 ≤ a.toRat := by
  cases a with
  | finite s m =>
    have h0 : (0 : F32) = F32.finite false 0 := rfl
    rw [h0] at h
    simp only [F32.le, F32.lt, F32.eq, Bool.or_eq_true, decide_eq_true_eq, F32.signed] at h
    simp only [F32.toRat, F32.signed]
    rcases h with h | h
    · simpa using le_of_lt h
    · simpa using le_of_eq h
  | infinite s => simp [F32.toRat]
  | nan => simp [F32.toRat]

theorem f32_le_one (a : F32) (h : F32.le a 1 = true) : a.toRat ≤ 1 := by
  cases a with
  | finite s m =>
    have h1 : (1 : F32) = F32.finite false 1 := rfl
    rw [h1] at h
    simp only [F32.le, F32.lt, F32.eq, Bool.or_eq_true, decide_eq_true_eq, F32.signed] at h
    simp only [F32.toRat, F32.signed]
    rcases h with h | h
    · simpa using le_of_lt h
    · simpa using le_of_eq h
  | infinite s => simp [F32.toRat]
  | nan => simp [F32.toRat]

theorem finite_of_toRat_ne_zero (a : F32) (h : a.toRat ≠ 0) : a.isFinite = true := by
  cases a with
  | finite s m => rfl
  | infinite s => exact absurd rfl h
  | nan => exact absurd rfl h

theorem alphasInUnit_exact (l : List Binary32.DeepPixel) (h : Binary32.alphasInUnit l = true) :
    AlphasInUnit (l.map Binary32.DeepPixel.exact) := by
  intro P hP smp hs
  rw [List.mem_map] at hP
  obtain ⟨Q, hQ, rfl⟩ := hP
  have hs2 : smp ∈ Q.ordered.map (fun smp z => (smp z).toRat) := hs
  rw [List.mem_map] at hs2
  obtain ⟨t, ht, rfl⟩ := hs2
  unfold Binary32.alphasInUnit at h
  rw [List.all_eq_true] at h
  have h1 := h Q hQ
  rw [List.all_eq_true] at h1
  have h2 := h1 t ht
  rw [Bool.and_eq_true] at h2
  exact ⟨f32_nonneg _ h2.1, f32_le_one _ h2.2⟩

theorem weightsNonneg_exact (A : Binary32.Args) (h : Binary32.weightsNonneg A = true) :
    WeightsNonneg A.exact := by
  intro k hk
  rw [exact_amount] at hk
  unfold Binary32.weightsNonneg at h
  rw [List.all_eq_true] at h
  exact f32_nonneg _ (h k (List.mem_range.mpr hk))

/-! ### The claims on calls without rounding -/

/-- Claim C3, amended.  For sample alphas in [0,1] and non-negative weights of
any sum, whatever the drop switches and the threshold: in a call of
`combineDeepPixels` in which no single-precision operation rounds,
`alpha_accum_combined` never decreases from one state to the next, and in every
state it is a finite value in [0,1], as is every cell `alpha_accum[k]`. -/
theorem combined_alpha_bounded_without_rounding (A : Binary32.Args) (hfin : A.FiniteInputs)
    (hex : Binary32.ExactRun A) (hα : Binary32.alphasInUnit A.inPixels = true)
    (hw : Binary32.weightsNonneg A = true) :
    List.Chain' (fun s t : Binary32.State =>
        F32.le s.alpha_accum_combined t.alpha_accum_combined = true) (Binary32.trace A) ∧
      ∀ s ∈ Binary32.trace A,
        (s.alpha_accum_combined.isFinite = true ∧ F32.le 0 s.alpha_accum_combined = true ∧
          F32.le s.alpha_accum_combined 1 = true) ∧
        ∀ k, (s.alpha_accum k).isFinite = true ∧ F32.le 0 (s.alpha_accum k) = true ∧
          F32.le (s.alpha_accum k) 1 = true := by
  obtain ⟨h1, h2⟩ := combined_alpha_monotone_bounded A.exact (alphasInUnit_exact _ hα)
    (weightsNonneg_exact A hw)
  have hfinite := trace_acc_finite A hfin hex
  rw [trace_exact A hfin hex] at h1 h2
  constructor
  · rw [List.chain'_map] at h1
    rw [List.Chain'.iff_mem] at h1 ⊢
    refine h1.imp ?_
    intro s t ⟨hs, ht, hst⟩
    refine ⟨hs, ht, ?_⟩
    rw [f32_le_exact _ _ (hfinite s hs).1 (hfinite t ht).1]
    exact decide_eq_true hst
  · intro s hs
    obtain ⟨⟨b0, b1⟩, hk⟩ := h2 s.exact (List.mem_map_of_mem _ hs)
    obtain ⟨f1, -, f3⟩ := hfinite s hs
    refine ⟨⟨f1, ?_, ?_⟩, fun k => ⟨f3 k, ?_, ?_⟩⟩
    · rw [f32_le_exact _ _ isFinite_zero f1, toRat_zero]
      exact decide_eq_true b0
    · rw [f32_le_exact _ _ f1 isFinite_one, toRat_one]
      exact decide_eq_true b1
    · rw [f32_le_exact _ _ isFinite_zero (f3 k), toRat_zero]
      exact decide_eq_true (hk k).1
    · rw [f32_le_exact _ _ (f3 k) isFinite_one, toRat_one]
      exact decide_eq_true (hk k).2

/-- Claim C2, amended.  For sample alphas in [0,1] and non-negative weights of
sum at most 1: in a call of `combineDeepPixels` in which no single-precision
operation rounds, in every state (the initial one and the one after each
iteration, so in particular after every iteration that re-weights a sample)
`alpha_accum_combined` and `designated_alpha_accum` are finite and equal, and
their value is the sum over the inputs `k` of `weight[k] * alpha_accum[k]`. -/
theorem weighted_average_without_rounding (A : Binary32.Args) (hfin : A.FiniteInputs)
    (hex : Binary32.ExactRun A) (hα : Binary32.alphasInUnit A.inPixels = true)
    (hw : Binary32.weightsNonneg A = true)
    (hsum : ∑ k in Finset.range A.amount, (A.weight k).toRat ≤ 1) :
    ∀ s ∈ Binary32.trace A,
      s.alpha_accum_combined.isFinite = true ∧ s.designated_alpha_accum.isFinite = true ∧
        F32.eq s.alpha_accum_combined s.designated_alpha_accum = true ∧
        s.designated_alpha_accum.toRat =
          ∑ k in Finset.range A.amount, (A.weight k).toRat * (s.alpha_accum k).toRat := by
  intro s hs
  have hsum2 : ∑ k in Finset.range A.exact.amount, A.exact.weight k ≤ 1 := by
    rw [exact_amount]
    exact hsum
  have h := averageInv_trace A.exact (alphasInUnit_exact _ hα) (weightsNonneg_exact A hw) hsum2
  rw [trace_exact A hfin hex] at h
  obtain ⟨a1, a2, -⟩ := h s.exact (List.mem_map_of_mem _ hs)
  obtain ⟨f1, f2, -⟩ := trace_acc_finite A hfin hex s hs
  refine ⟨f1, f2, ?_, ?_⟩
  · rw [f32_eq_exact _ _ f1 f2]
    exact decide_eq_true a1
  · have h2 : weightedAccum A.exact s.exact =
        ∑ k in Finset.range A.amount, (A.weight k).toRat * (s.alpha_accum k).toRat := by
      unfold weightedAccum
      rw [exact_amount]
      rfl
    rw [← h2]
    exact a2

/-- The rows of the exact reading of a pixel are the exact readings of its
rows. -/
theorem sampleRows_exact (P : Binary32.DeepPixel) (channels : ChannelSet) :
    (P.exact.ordered.reverse.map (sampleRow P.exact channels)).flatten =
      ((P.ordered.reverse.map (Binary32.sampleRow P channels)).flatten).map F32.toRat := by
  show ((P.ordered.map (fun smp z => (smp z).toRat)).reverse.map (sampleRow P.exact channels)).flatten
    = _
  rw [List.map_flatten, List.map_map, ← List.map_reverse, List.map_map]
  congr 1
  apply List.map_congr_left
  intro smp _
  simp only [Function.comp, sampleRow, Binary32.sampleRow, List.map_map]
  apply List.map_congr_left
  intro z _
  show (if z ∈ P.channels then (smp z).toRat else 0) = _
  simp only [Function.comp]
  split_ifs
  · rfl
  · exact toRat_zero.symm

/-- Claim C1, amended.  Merging the single pixel `P` with weight 1 and both drop
switches off, in a call in which no single-precision operation rounds, returns
`P`'s samples, closest first: every requested channel of every emitted sample
has the value of the input sample's channel, 0 for a channel `P` does not
carry. -/
theorem single_input_unchanged_without_rounding (P : Binary32.DeepPixel)
    (channels : ChannelSet) (weight : Nat → F32) (thr : F32) (hw : weight 0 = 1)
    (hfin : Binary32.Args.FiniteInputs ⟨[P], channels, weight, false, false, thr⟩)
    (hex : Binary32.ExactRun ⟨[P], channels, weight, false, false, thr⟩) :
    (Binary32.combineDeepPixels [P] channels weight false false thr).map (List.map F32.toRat) =
      some (((P.ordered.reverse.map (Binary32.sampleRow P channels)).flatten).map F32.toRat) := by
  rw [combine_exact [P] channels weight false false thr hfin hex]
  have hw1 : (fun k => (weight k).toRat) 0 = 1 := by
    show (weight 0).toRat = 1
    rw [hw, toRat_one]
  rw [List.map_singleton, combine_single P.exact channels _ thr.toRat hw1,
    sampleRows_exact]

/-! ### The iterations of a run without rounding -/

theorem b32_exec_facts (A : Binary32.Args) (hfin : A.FiniteInputs) :
    ∀ (n : Nat) (s : Binary32.State), (∀ k, (s.distance k).isFinite = true) →
      ∀ it ∈ (Binary32.exec A n s).1,
        (∀ k, (it.pre.distance k).isFinite = true) ∧
          (Binary32.step A it.pre = Binary32.Step.next it.emit it.post ∨
            Binary32.step A it.pre = Binary32.Step.ret it.emit it.post) := by
  intro n
  induction n with
  | zero => intro s _ it hit; simp [Binary32.exec] at hit
  | succ n ih =>
    intro s hd it hit
    rw [Binary32.exec] at hit
    by_cases hc : Binary32.loopCond A s
    · rw [if_pos hc] at hit
      cases hst : Binary32.step A s with
      | next e t =>
        rw [hst] at hit
        simp only [List.mem_cons] at hit
        rcases hit with rfl | hit
        · exact ⟨hd, Or.inl hst⟩
        · exact ih t (step_distance_finite A s hfin hd e t (Or.inl hst)) it hit
      | ret e t =>
        rw [hst] at hit
        simp only [List.mem_singleton] at hit
        subst hit
        exact ⟨hd, Or.inr hst⟩
      | oob =>
        rw [hst] at hit
        simp at hit
    · rw [if_neg hc] at hit
      simp at hit

/-- In a call without rounding the `new_alpha` of every emitted sample is a
finite value. -/
theorem emitted_outAlpha_finite (A : Binary32.Args) (hfin : A.FiniteInputs)
    (hex : Binary32.ExactRun A) :
    ∀ e ∈ Binary32.emitted A, e.outAlpha.isFinite = true := by
  intro e he
  unfold Binary32.emitted Binary32.emissions at he
  rw [List.mem_filter, List.mem_map] at he
  obtain ⟨⟨it, hit, rfl⟩, -⟩ := he
  obtain ⟨hd, hstep⟩ := b32_exec_facts A hfin A.budget (Binary32.init A)
    (init_distance_finite A hfin) it hit
  have hx := hex it hit
  cases hem : it.emit with
  | skipped => rfl
  | passthrough row => rfl
  | dropped na => rfl
  | weighted na row =>
    show na.isFinite = true
    rw [hem, b32_step_eq] at hstep
    by_cases c1 : it.pre.sampleNo (Binary32.selected A it.pre) <
        A.sampleCount (Binary32.selected A it.pre)
    · rw [if_pos c1] at hstep
      by_cases c2 : (F32.le (Binary32.rawAlpha A it.pre) A.transparency_threshold &&
          A.drop_transparent) = true
      · have c2b : ¬ (!(F32.le (Binary32.rawAlpha A it.pre) A.transparency_threshold &&
            A.drop_transparent)) = true := by rw [c2]; decide
        rw [if_neg c2b] at hstep
        simp at hstep
      · have c2f : (F32.le (Binary32.rawAlpha A it.pre) A.transparency_threshold &&
            A.drop_transparent) = false := by simpa using c2
        have c2b : (!(F32.le (Binary32.rawAlpha A it.pre) A.transparency_threshold &&
            A.drop_transparent)) = true := by rw [c2f]; rfl
        rw [if_pos c2b] at hstep
        by_cases c3 : F32.eq (Binary32.rawAlpha A it.pre) 0 = true
        · rw [if_pos c3] at hstep
          simp at hstep
        · have c3f : F32.eq (Binary32.rawAlpha A it.pre) 0 = false := by simpa using c3
          rw [if_neg c3] at hstep
          obtain ⟨xa, xq, -, -⟩ := hx c1 c2f c3f
          have hnf := (newAlpha_exact A it.pre hfin hd xa xq).2
          split_ifs at hstep
          all_goals
            rcases hstep with h | h
            all_goals first
              | (simp only [Binary32.Step.next.injEq, Binary32.Emission.weighted.injEq,
                   reduceCtorEq] at h
                 obtain ⟨⟨rfl, -⟩, -⟩ := h
                 exact hnf)
              | (simp only [Binary32.Step.ret.injEq, Binary32.Emission.weighted.injEq,
                   reduceCtorEq] at h
                 obtain ⟨⟨rfl, -⟩, -⟩ := h
                 exact hnf)
              | exact absurd h (by simp)
    · rw [if_neg c1] at hstep
      simp at hstep

/-! ### The drop switches on calls without rounding -/

theorem row_exact (e : Binary32.Emission) : e.exact.row = e.row.map F32.toRat := by
  cases e <;> rfl

theorem outAlpha_exact (e : Binary32.Emission) : e.exact.outAlpha = e.outAlpha.toRat := by
  cases e with
  | weighted na row => rfl
  | skipped => exact toRat_zero.symm
  | passthrough row => exact toRat_zero.symm
  | dropped na => exact toRat_zero.symm

/-- Claim C4, amended.  With `drop_transparent` on and a threshold `t ≥ 0`, in a
call in which no single-precision operation rounds, every emitted sample comes
from the re-weighting branch with `new_alpha > t`, and the value it carries for
the alpha channel equals that `new_alpha` and is above `t`; no zero-alpha sample
is passed through. -/
theorem threshold_without_rounding (A : Binary32.Args) (hfin : A.FiniteInputs)
    (hex : Binary32.ExactRun A) (hdrop : A.drop_transparent = true)
    (ht : F32.le 0 A.transparency_threshold = true) :
    ∀ e ∈ Binary32.emitted A, ∃ new_alpha row, e = Binary32.Emission.weighted new_alpha row ∧
      F32.lt A.transparency_threshold new_alpha = true ∧
      ∀ j : Nat, A.channels[j]? = some Channel.Chan_Alpha →
        ∃ v, row[j]? = some v ∧ F32.eq v new_alpha = true ∧
          F32.lt A.transparency_threshold v = true := by
  intro e he
  have ht0 : 0 ≤ A.transparency_threshold.toRat := f32_nonneg _ ht
  have hmem : e.exact ∈ emitted A.exact := by
    rw [emitted_exact A hfin hex]
    exact List.mem_map_of_mem _ he
  obtain ⟨na, row, heq, hlt, hrow⟩ := drop_transparent_threshold A.exact hdrop ht0 e.exact hmem
  cases e with
  | skipped => exact absurd heq (by simp [Binary32.Emission.exact])
  | passthrough r => exact absurd heq (by simp [Binary32.Emission.exact])
  | dropped n => exact absurd heq (by simp [Binary32.Emission.exact])
  | weighted n r =>
    simp only [Binary32.Emission.exact, Emission.weighted.injEq] at heq
    obtain ⟨rfl, rfl⟩ := heq
    have hlt2 : A.transparency_threshold.toRat < n.toRat := hlt
    have hnf : n.isFinite = true := finite_of_toRat_ne_zero n (by linarith)
    refine ⟨n, r, rfl, ?_, ?_⟩
    · rw [f32_lt_exact _ _ hfin.2 hnf]
      exact decide_eq_true hlt2
    · intro j hz
      obtain ⟨hj, hz2⟩ := List.getElem?_eq_some.mp hz
      have h2 := hrow j hj hz2
      rw [List.getElem?_map] at h2
      cases hv : r[j]? with
      | none => rw [hv] at h2; simp at h2
      | some v =>
        rw [hv] at h2
        simp only [Option.map_some', Option.some.injEq] at h2
        have hvf : v.isFinite = true := finite_of_toRat_ne_zero v (by linarith)
        refine ⟨v, rfl, ?_, ?_⟩
        · rw [f32_eq_exact _ _ hvf hnf]
          exact decide_eq_true h2
        · rw [f32_lt_exact _ _ hfin.2 hvf, h2]
          exact decide_eq_true hlt2

theorem dropAtZero_exact (A : Binary32.Args) : A.dropAtZero.exact = A.exact.dropAtZero := by
  unfold Binary32.Args.dropAtZero Args.dropAtZero Binary32.Args.exact
  simp only [toRat_zero]

theorem keepTransparent_exact (A : Binary32.Args) :
    A.keepTransparent.exact = A.exact.keepTransparent := rfl

/-- Claim C19, amended.  For sample alphas in [0,1] and non-negative weights,
with either value of `drop_hidden`, when no single-precision operation rounds
in either call: the samples emitted with `drop_transparent` on and threshold 0
are, value by value, the samples emitted with `drop_transparent` off without
those whose `new_alpha` is 0 (the passed-through samples and the re-weighted
samples with `new_alpha == 0`), in the same order; the output pixels agree in
the same way; both calls leave their loop the same way and with the same
values of `alpha_accum`, `designated_alpha_accum` and `alpha_accum_combined`. -/
theorem drop_at_zero_without_rounding (A : Binary32.Args) (hfin : A.FiniteInputs)
    (hexD : Binary32.ExactRun A.dropAtZero) (hexK : Binary32.ExactRun A.keepTransparent)
    (hα : Binary32.alphasInUnit A.inPixels = true) (hw : Binary32.weightsNonneg A = true) :
    (Binary32.emitted A.dropAtZero).map Binary32.Emission.exact =
        ((Binary32.emitted A.keepTransparent).filter
          (fun e => !(F32.eq e.outAlpha 0))).map Binary32.Emission.exact ∧
      (Binary32.finalState A.dropAtZero).outPixel.map F32.toRat =
        ((((Binary32.emitted A.keepTransparent).filter
          (fun e => !(F32.eq e.outAlpha 0))).map Binary32.Emission.row).flatten).map
            F32.toRat ∧
      Binary32.ending A.dropAtZero = Binary32.ending A.keepTransparent ∧
      SameButOut (Binary32.finalState A.dropAtZero).exact
        (Binary32.finalState A.keepTransparent).exact := by
  have hfinD : A.dropAtZero.FiniteInputs := ⟨hfin.1, rfl⟩
  have hfinK : A.keepTransparent.FiniteInputs := hfin
  obtain ⟨h1, h2, h3, h4⟩ := drop_at_zero_filters A.exact (alphasInUnit_exact _ hα)
    (weightsNonneg_exact A hw)
  rw [← dropAtZero_exact, ← keepTransparent_exact] at h1 h2 h3 h4
  rw [emitted_exact _ hfinD hexD, emitted_exact _ hfinK hexK] at h1
  rw [finalState_exact _ hfinD hexD, emitted_exact _ hfinK hexK] at h2
  rw [ending_exact _ hfinD hexD, ending_exact _ hfinK hexK] at h3
  rw [finalState_exact _ hfinD hexD, finalState_exact _ hfinK hexK] at h4
  have hfilter : ((Binary32.emitted A.keepTransparent).map Binary32.Emission.exact).filter
      (fun x => decide (x.outAlpha ≠ 0)) =
      ((Binary32.emitted A.keepTransparent).filter
        (fun e => !(F32.eq e.outAlpha 0))).map Binary32.Emission.exact := by
    rw [List.filter_map]
    congr 1
    apply List.filter_congr
    intro e he
    have hf := emitted_outAlpha_finite _ hfinK hexK e he
    simp only [Function.comp, outAlpha_exact]
    rw [f32_eq_exact _ _ hf isFinite_zero, toRat_zero]
    by_cases h0 : e.outAlpha.toRat = 0
    · simp [h0]
    · simp [h0]
  rw [hfilter] at h1 h2
  refine ⟨h1, ?_, h3, h4⟩
  have hout : (Binary32.finalState A.dropAtZero).exact.outPixel =
      (Binary32.finalState A.dropAtZero).outPixel.map F32.toRat := rfl
  rw [← hout, h2, List.map_map, List.map_flatten, List.map_map]
  congr 1
  apply List.map_congr_left
  intro e _
  exact row_exact e

/-! ### Resize type none without rounding -/

/-- Claim C14, amended.  Under resize type none, when the translation of the
matrix is zero (centring on an input whose format is the target format, the
integer half size of the input being the centre of the format), both drop
switches of the node are off and no single-precision operation of the merge
rounds, the engine gathers for the output position `(x, y)` exactly the input
pixel at `(x, y)`, gives it the weight 1, and the output pixel holds the samples
of that input pixel, every channel with the value it has in the input. -/
theorem reformat_none_without_rounding (k : ReformatKnobs) (channels : ChannelSet)
    (inPlane : Pos → Binary32.DeepPixel) (w h center_x center_y : ℚ) (it : Pos)
    (htr : noneTranslation k w h center_x center_y = (0, 0))
    (hh : k._drop_hidden = false) (ht : k._drop_transparent = false)
    (hfin : Binary32.Args.FiniteInputs
      ⟨[inPlane it], channels, Binary32.noneWeight, false, false, F32.ofRat k._threshold⟩)
    (hex : Binary32.ExactRun
      ⟨[inPlane it], channels, Binary32.noneWeight, false, false, F32.ofRat k._threshold⟩) :
    Binary32.noneInPixels inPlane (noneTranslation k w h center_x center_y) it = [inPlane it] ∧
      Binary32.noneWeight 0 = 1 ∧
      (Binary32.reformatPixelNone k channels inPlane w h center_x center_y it).map
          (List.map F32.toRat) =
        some ((((inPlane it).ordered.reverse.map
          (Binary32.sampleRow (inPlane it) channels)).flatten).map F32.toRat) := by
  have hin : Binary32.noneInPixels inPlane (noneTranslation k w h center_x center_y) it =
      [inPlane it] := by
    rw [htr, Binary32.noneInPixels, noneSource_zero]
  refine ⟨hin, rfl, ?_⟩
  unfold Binary32.reformatPixelNone
  rw [hin, hh, ht, combine_exact [inPlane it] channels Binary32.noneWeight false false _ hfin hex]
  have hw1 : (fun k => (Binary32.noneWeight k).toRat) 0 = 1 := by
    show (1 : F32).toRat = 1
    exact toRat_one
  rw [List.map_singleton, combine_single (inPlane it).exact channels _ _ hw1, sampleRows_exact]

/-! ### The amended claims at calls without rounding -/

/-- Claim C1 as amended, at a pixel with two half-transparent samples. -/
theorem single_input_unchanged_without_rounding_witness :
    (fun _ : Nat => (1 : F32)) 0 = 1 ∧
      Binary32.Args.FiniteInputs (Binary32.singleArgs Binary32.halvesPixel) ∧
      Binary32.ExactRun (Binary32.singleArgs Binary32.halvesPixel) ∧
      (Binary32.combineDeepPixels [Binary32.halvesPixel] exampleChannels (fun _ => 1)
          false false 0).map (List.map F32.toRat) =
        some (((Binary32.halvesPixel.ordered.reverse.map
          (Binary32.sampleRow Binary32.halvesPixel exampleChannels)).flatten).map F32.toRat) :=
  ⟨rfl, by decide!, by decide!,
    single_input_unchanged_without_rounding Binary32.halvesPixel exampleChannels (fun _ => 1) 0
      rfl (by decide!) (by decide!)⟩

/-- Claim C2 as amended, at an opaque-fronted pixel mixed with a pixel that
starts with a transparent sample, weights 1/2. -/
theorem weighted_average_without_rounding_witness :
    (Binary32.mixArgs false false 0).FiniteInputs ∧
      Binary32.ExactRun (Binary32.mixArgs false false 0) ∧
      Binary32.alphasInUnit (Binary32.mixArgs false false 0).inPixels = true ∧
      Binary32.weightsNonneg (Binary32.mixArgs false false 0) = true ∧
      ∑ k in Finset.range (Binary32.mixArgs false false 0).amount,
        ((Binary32.mixArgs false false 0).weight k).toRat ≤ 1 ∧
      ∀ s ∈ Binary32.trace (Binary32.mixArgs false false 0),
        s.alpha_accum_combined.isFinite = true ∧ s.designated_alpha_accum.isFinite = true ∧
          F32.eq s.alpha_accum_combined s.designated_alpha_accum = true ∧
          s.designated_alpha_accum.toRat =
            ∑ k in Finset.range (Binary32.mixArgs false false 0).amount,
              ((Binary32.mixArgs false false 0).weight k).toRat * (s.alpha_accum k).toRat :=
  ⟨by decide!, by decide!, by decide!, by decide!, by decide!,
    weighted_average_without_rounding (Binary32.mixArgs false false 0) (by decide!)
      (by decide!) (by decide!) (by decide!) (by decide!)⟩

/-- Claim C3 as amended, at the same two pixels with both drop switches on. -/
theorem combined_alpha_bounded_without_rounding_witness :
    (Binary32.mixArgs true true 0).FiniteInputs ∧
      Binary32.ExactRun (Binary32.mixArgs true true 0) ∧
      Binary32.alphasInUnit (Binary32.mixArgs true true 0).inPixels = true ∧
      Binary32.weightsNonneg (Binary32.mixArgs true true 0) = true ∧
      List.Chain' (fun s t : Binary32.State =>
        F32.le s.alpha_accum_combined t.alpha_accum_combined = true)
        (Binary32.trace (Binary32.mixArgs true true 0)) :=
  ⟨by decide!, by decide!, by decide!, by decide!,
    (combined_alpha_bounded_without_rounding (Binary32.mixArgs true true 0) (by decide!)
      (by decide!) (by decide!) (by decide!)).1⟩

/-- Claim C4 as amended, at the same two pixels with the threshold 1/4. -/
theorem threshold_without_rounding_witness :
    (Binary32.mixArgs false true (F32.scaled 1 (-2))).FiniteInputs ∧
      Binary32.ExactRun (Binary32.mixArgs false true (F32.scaled 1 (-2))) ∧
      (Binary32.mixArgs false true (F32.scaled 1 (-2))).drop_transparent = true ∧
      F32.le 0 (Binary32.mixArgs false true (F32.scaled 1 (-2))).transparency_threshold = true ∧
      (Binary32.emitted (Binary32.mixArgs false true (F32.scaled 1 (-2)))).length = 2 ∧
      ∀ e ∈ Binary32.emitted (Binary32.mixArgs false true (F32.scaled 1 (-2))),
        ∃ new_alpha row, e = Binary32.Emission.weighted new_alpha row ∧
          F32.lt (Binary32.mixArgs false true (F32.scaled 1 (-2))).transparency_threshold
            new_alpha = true ∧
          ∀ j : Nat, (Binary32.mixArgs false true (F32.scaled 1 (-2))).channels[j]? =
              some Channel.Chan_Alpha →
            ∃ v, row[j]? = some v ∧ F32.eq v new_alpha = true ∧
              F32.lt (Binary32.mixArgs false true (F32.scaled 1 (-2))).transparency_threshold
                v = true :=
  ⟨by decide!, by decide!, rfl, by decide!, by decide!,
    threshold_without_rounding (Binary32.mixArgs false true (F32.scaled 1 (-2))) (by decide!)
      (by decide!) rfl (by decide!)⟩

/-- Claim C19 as amended, at the same two pixels: the run with `drop_transparent`
off emits four samples, two of them with `new_alpha` 0. -/
theorem drop_at_zero_without_rounding_witness :
    (Binary32.mixArgs true false 0).FiniteInputs ∧
      Binary32.ExactRun (Binary32.mixArgs true false 0).dropAtZero ∧
      Binary32.ExactRun (Binary32.mixArgs true false 0).keepTransparent ∧
      Binary32.alphasInUnit (Binary32.mixArgs true false 0).inPixels = true ∧
      Binary32.weightsNonneg (Binary32.mixArgs true false 0) = true ∧
      (Binary32.emitted (Binary32.mixArgs true false 0).keepTransparent).length = 4 ∧
      (Binary32.emitted (Binary32.mixArgs true false 0).dropAtZero).length = 2 ∧
      (Binary32.emitted (Binary32.mixArgs true false 0).dropAtZero).map
          Binary32.Emission.exact =
        ((Binary32.emitted (Binary32.mixArgs true false 0).keepTransparent).filter
          (fun e => !(F32.eq e.outAlpha 0))).map Binary32.Emission.exact :=
  ⟨by decide!, by decide!, by decide!, by decide!, by decide!, by decide!, by decide!,
    (drop_at_zero_without_rounding (Binary32.mixArgs true false 0) (by decide!) (by decide!)
      (by decide!) (by decide!) (by decide!)).1⟩

/-- Claim C14 as amended, for an input of the target format 4 x 4 whose pixels
hold two half-transparent samples. -/
theorem reformat_none_without_rounding_witness :
    noneTranslation (noneKnobs false false) 4 4 2 2 = (0, 0) ∧
      (noneKnobs false false)._drop_hidden = false ∧
      (noneKnobs false false)._drop_transparent = false ∧
      Binary32.Args.FiniteInputs ⟨[Binary32.halvesPixel], exampleChannels, Binary32.noneWeight,
        false, false, F32.ofRat (noneKnobs false false)._threshold⟩ ∧
      Binary32.ExactRun ⟨[Binary32.halvesPixel], exampleChannels, Binary32.noneWeight,
        false, false, F32.ofRat (noneKnobs false false)._threshold⟩ ∧
      (Binary32.reformatPixelNone (noneKnobs false false) exampleChannels
          (fun _ => Binary32.halvesPixel) 4 4 2 2 (1, 1)).map (List.map F32.toRat) =
        some (((Binary32.halvesPixel.ordered.reverse.map
          (Binary32.sampleRow Binary32.halvesPixel exampleChannels)).flatten).map F32.toRat) :=
  have htr : noneTranslation (noneKnobs false false) 4 4 2 2 = (0, 0) := by
    simp only [noneTranslation, noneKnobs, if_true]
    have h2 : ((4 : ℚ) * (1 / 2)) = ((2 : Int) : ℚ) := by norm_num
    rw [h2, truncInt_intCast]
    norm_num
  ⟨htr, rfl, rfl, by decide!, by decide!,
    (reformat_none_without_rounding (noneKnobs false false) exampleChannels
      (fun _ => Binary32.halvesPixel) 4 4 2 2 (1, 1) htr rfl rfl (by decide!) (by decide!)).2.2⟩

/-- Claim C14 fails with the drop switches at their defaults (both on,
threshold 0): for an input of the target format 4 x 4 whose pixels hold an opaque
sample in front of a half-transparent one, the output pixel at (1, 1) merges
the input pixel at (1, 1) alone, yet holds the opaque sample only.  No
operation rounds in this call. -/
theorem reformat_none_hidden_counterexample :
    noneTranslation (noneKnobs true true) 4 4 2 2 = (0, 0) ∧
      Binary32.noneInPixels (fun _ => Binary32.solidPixel)
          (noneTranslation (noneKnobs true true) 4 4 2 2) (1, 1) = [Binary32.solidPixel] ∧
      Binary32.ExactRun ⟨[Binary32.solidPixel], exampleChannels, Binary32.noneWeight,
        true, true, F32.ofRat (noneKnobs true true)._threshold⟩ ∧
      Binary32.reformatPixelNone (noneKnobs true true) exampleChannels
          (fun _ => Binary32.solidPixel) 4 4 2 2 (1, 1) = some [1, 1, 1, F32.scaled 5 0] ∧
      (Binary32.solidPixel.ordered.reverse.map
          (Binary32.sampleRow Binary32.solidPixel exampleChannels)).flatten =
        [1, 1, 1, F32.scaled 5 0, F32.scaled 2 0, F32.scaled 2 0, F32.scaled 1 (-1),
          F32.scaled 3 0] ∧
      Binary32.reformatPixelNone (noneKnobs true true) exampleChannels
          (fun _ => Binary32.solidPixel) 4 4 2 2 (1, 1) ≠
        some ((Binary32.solidPixel.ordered.reverse.map
          (Binary32.sampleRow Binary32.solidPixel exampleChannels)).flatten) := by
  have htr : noneTranslation (noneKnobs true true) 4 4 2 2 = (0, 0) := by
    simp only [noneTranslation, noneKnobs, if_true]
    have h2 : ((4 : ℚ) * (1 / 2)) = ((2 : Int) : ℚ) := by norm_num
    rw [h2, truncInt_intCast]
    norm_num
  have hin : Binary32.noneInPixels (fun _ => Binary32.solidPixel)
      (noneTranslation (noneKnobs true true) 4 4 2 2) (1, 1) = [Binary32.solidPixel] := by
    rw [htr]
    rfl
  have hout : Binary32.reformatPixelNone (noneKnobs true true) exampleChannels
      (fun _ => Binary32.solidPixel) 4 4 2 2 (1, 1) = some [1, 1, 1, F32.scaled 5 0] := by
    unfold Binary32.reformatPixelNone
    rw [hin]
    decide!
  have hrows : (Binary32.solidPixel.ordered.reverse.map
      (Binary32.sampleRow Binary32.solidPixel exampleChannels)).flatten =
      [1, 1, 1, F32.scaled 5 0, F32.scaled 2 0, F32.scaled 2 0, F32.scaled 1 (-1),
        F32.scaled 3 0] := by
    decide!
  refine ⟨htr, hin, by decide!, hout, hrows, ?_⟩
  rw [hout, hrows]
  intro hEq
  have := congrArg (Option.map List.length) hEq
  simp at this

end MsDeep
